import Mathlib

/-!
# Logstat: the streaming aggregator and the record parser

A shallow embedding of `src/src/aggregator.cpp` (with the declarations of
`src/include/logstat/aggregator.hpp` and `types.hpp`) and of
`src/src/parser.cpp`, and the properties of the histogram, the status
classification, the per-endpoint rollup, the field splitter and the
line-by-line parser.

Conventions of the embedding.

* `std::int32_t` and `std::int64_t` values are `Int`. The counters are only
  ever incremented by one per call, so they stay far below `2^63`; the
  theorems quantify over all integers, which covers every 32-bit input.
* `std::vector<std::int64_t>` is `List Int`.
* `double` is `Dbl`: NaN, the two infinities, or a finite value given by its
  rational value. Arithmetic on finite values is exact rational arithmetic
  followed by `fl`, the binary64 round-to-nearest-even rounding.
* `std::unordered_map<std::string, EndpointStats>` is an association list
  with unique keys; its observable content is what `findEndpoint` returns.
* In the parser `std::string` is `List Char`, an input stream is the list of
  its lines, and the records passed to the callback are collected in a list.
-/

namespace Logstat

/-! ## binary64 arithmetic -/

/-- Rounding of a rational to the nearest integer, ties to the even one. -/
def roundHalfEven (x : ℚ) : ℤ :=
  let f := ⌊x⌋
  if x - f < 1 / 2 then f
  else if 1 / 2 < x - f then f + 1
  else if f % 2 = 0 then f else f + 1

/-- Exponent of the binade of `x` in binary64: `⌊log₂ |x|⌋`, but never below
the exponent `-1022` of the subnormal range. -/
def binade (x : ℚ) : ℤ := max (Int.log 2 |x|) (-1022)

/-- Spacing of the binary64 numbers in the binade of `x` (53-bit significand). -/
def ulp (x : ℚ) : ℚ := 2 ^ (binade x - 52)

/-- The binary64 value nearest to `x`, ties to even. Every value rounded in
`percentile` lies in `[0, 2^63]`, so overflow to infinity is not modelled. -/
def fl (x : ℚ) : ℚ := roundHalfEven (x / ulp x) * ulp x

/-- A value of the C++ type `double`. The sign of zero is not tracked: no
operation of this program tells `-0.0` from `0.0`. -/
inductive Dbl where
  | nan
  | ninf
  | pinf
  | fin (q : ℚ)
  deriving DecidableEq

/-- The comparison `a <= b` of two doubles (false when either is NaN). -/
def Dbl.le : Dbl → Dbl → Bool
  | .nan, _ => false
  | _, .nan => false
  | .ninf, _ => true
  | _, .pinf => true
  | .pinf, _ => false
  | _, .ninf => false
  | .fin a, .fin b => decide (a ≤ b)

/-! ## `types.hpp` and `aggregator.hpp` -/

/-- One parsed log line (`struct Record`). -/
structure Record where
  timestamp : String
  service : String
  endpoint : String
  status : Int
  latency_ms : Int
  deriving DecidableEq

/-- The five status-class counters (`struct StatusBuckets`). -/
structure StatusBuckets where
  s2xx : Int
  s3xx : Int
  s4xx : Int
  s5xx : Int
  other : Int
  deriving DecidableEq

/-- The default member initialisers of `StatusBuckets`: all counters zero. -/
def StatusBuckets.empty : StatusBuckets := ⟨0, 0, 0, 0, 0⟩

/-- Sum of the five counters. -/
def StatusBuckets.sum (s : StatusBuckets) : Int :=
  s.s2xx + s.s3xx + s.s4xx + s.s5xx + s.other

/-- `StatusBuckets::add` (aggregator.cpp, lines 8-14). -/
def StatusBuckets.add (s : StatusBuckets) (status : Int) : StatusBuckets :=
  if status ≥ 200 ∧ status ≤ 299 then { s with s2xx := s.s2xx + 1 }
  else if status ≥ 300 ∧ status ≤ 399 then { s with s3xx := s.s3xx + 1 }
  else if status ≥ 400 ∧ status ≤ 499 then { s with s4xx := s.s4xx + 1 }
  else if status ≥ 500 ∧ status ≤ 599 then { s with s5xx := s.s5xx + 1 }
  else { s with other := s.other + 1 }

/-- The private members of `class LatencyHistogram`. -/
structure LatencyHistogram where
  max_ms : Int
  buckets : List Int
  total : Int
  deriving DecidableEq

/-- The constructor `LatencyHistogram::LatencyHistogram(max_ms)` (lines 16-19):
`static_cast<size_t>(max_ms_) + 2` zeroed counters, computed in 64-bit
unsigned arithmetic. -/
def LatencyHistogram.new (max_ms : Int) : LatencyHistogram :=
  { max_ms := max_ms
    buckets := List.replicate ((max_ms % 2 ^ 64 + 2) % 2 ^ 64).toNat 0
    total := 0 }

/-- The statement `++buckets_[idx]`. -/
def bump : List Int → Nat → List Int
  | [], _ => []
  | b :: bs, 0 => (b + 1) :: bs
  | b :: bs, i + 1 => b :: bump bs i

/-- The bucket index chosen by `LatencyHistogram::add` (lines 22-29): the
latency clamped to 0 from below, or `buckets_.size() - 1` when it exceeds the
ceiling. A histogram constructed with a ceiling `max_ms >= 0` has at least
two counters, so the unsigned subtraction does not wrap; the theorems about
`add` and `percentile` are stated for such histograms only. -/
def LatencyHistogram.index (h : LatencyHistogram) (latency_ms : Int) : Nat :=
  let latency_ms := if latency_ms < 0 then 0 else latency_ms
  if latency_ms > h.max_ms then h.buckets.length - 1 else latency_ms.toNat

/-- `LatencyHistogram::add` (lines 21-33). -/
def LatencyHistogram.add (h : LatencyHistogram) (latency_ms : Int) : LatencyHistogram :=
  { h with buckets := bump h.buckets (h.index latency_ms), total := h.total + 1 }

/-- `LatencyHistogram::count`. -/
def LatencyHistogram.count (h : LatencyHistogram) : Int := h.total

/-- The target rank of `percentile` for a finite `p` (lines 41-42):
`p / 100.0`, the conversion of `total_` to double and the product are each
rounded to binary64; `std::ceil` of a double is exact, and so is the conversion
of `std::max(1.0, target_d)` to `int64`, the value being at most the rounded
`total_`. -/
def targetRank (p : ℚ) (total : Int) : Int :=
  max 1 ⌈fl (fl (p / 100) * fl (total : ℚ))⌉

/-- The loop of `percentile` (lines 44-51), started at index `i` with running
count `cum`, on the counters from index `i` on; `last` is
`buckets_.size() - 1`. The empty list is the loop exit followed by the final
`return max_ms_` (line 52). An index returned by line 49 is below `last`, so
the conversion to `int32` keeps it. -/
def percentileLoop (max_ms : Int) (last : Nat) (target : Int) : List Int → Nat → Int → Int
  | [], _, _ => max_ms
  | b :: bs, i, cum =>
    if cum + b ≥ target then (if i = last then max_ms else (i : Int))
    else percentileLoop max_ms last target bs (i + 1) (cum + b)

/-- Lines 41-52 of `percentile` for a given target rank. -/
def LatencyHistogram.walk (h : LatencyHistogram) (target : Int) : Int :=
  percentileLoop h.max_ms (h.buckets.length - 1) target h.buckets 0 0

/-- `LatencyHistogram::percentile` (lines 35-53). The infinities are caught by
the comparisons of lines 37-38. For NaN both comparisons are false, `target_d`
is NaN and `std::max(1.0, NaN)` is `1.0`, so the walk runs with rank 1. -/
def LatencyHistogram.percentile (h : LatencyHistogram) (p : Dbl) : Int :=
  if h.total = 0 then 0
  else if Dbl.le p (.fin 0) then 0
  else if Dbl.le (.fin 100) p then h.max_ms
  else match p with
    | .fin q => h.walk (targetRank q h.total)
    | _ => h.walk 1

/-- The members of `struct EndpointStats`. -/
structure EndpointStats where
  count : Int
  status : StatusBuckets
  latency : LatencyHistogram
  deriving DecidableEq

/-- The constructor `EndpointStats() : latency(5000)`. -/
def EndpointStats.new : EndpointStats :=
  { count := 0, status := StatusBuckets.empty, latency := LatencyHistogram.new 5000 }

/-- Lines 61-63 of `Aggregator::add`, applied to the entry `ep`. -/
def EndpointStats.add (ep : EndpointStats) (r : Record) : EndpointStats :=
  { count := ep.count + 1
    status := ep.status.add r.status
    latency := ep.latency.add r.latency_ms }

/-- Lookup in the endpoint map (`endpoints().find(key)`). -/
def findEndpoint (key : String) : List (String × EndpointStats) → Option EndpointStats
  | [] => none
  | (k, v) :: rest => if k = key then some v else findEndpoint key rest

/-- The effect of `auto& ep = by_endpoint_[key]` followed by an update `f` of
`ep`: the entry of `key` is updated in place, or default-constructed first
when the key is absent. -/
def updateEndpoint (key : String) (f : EndpointStats → EndpointStats) :
    List (String × EndpointStats) → List (String × EndpointStats)
  | [] => [(key, f EndpointStats.new)]
  | (k, v) :: rest =>
    if k = key then (k, f v) :: rest else (k, v) :: updateEndpoint key f rest

/-- The private members of `class Aggregator`. -/
structure Aggregator where
  total : Int
  status_total : StatusBuckets
  latency_total : LatencyHistogram
  by_endpoint : List (String × EndpointStats)
  deriving DecidableEq

/-- A default-constructed `Aggregator`. -/
def Aggregator.new : Aggregator :=
  { total := 0, status_total := StatusBuckets.empty,
    latency_total := LatencyHistogram.new 5000, by_endpoint := [] }

/-- `Aggregator::add` (lines 55-64). -/
def Aggregator.add (a : Aggregator) (r : Record) : Aggregator :=
  { total := a.total + 1
    status_total := a.status_total.add r.status
    latency_total := a.latency_total.add r.latency_ms
    by_endpoint := updateEndpoint r.endpoint (fun ep => ep.add r) a.by_endpoint }

/-- `Aggregator::total_requests`. -/
def Aggregator.total_requests (a : Aggregator) : Int := a.total

/-- `Aggregator::total_status`. -/
def Aggregator.total_status (a : Aggregator) : StatusBuckets := a.status_total

/-- `Aggregator::total_latency`. -/
def Aggregator.total_latency (a : Aggregator) : LatencyHistogram := a.latency_total

/-- `Aggregator::endpoints`. -/
def Aggregator.endpoints (a : Aggregator) : List (String × EndpointStats) := a.by_endpoint

/-- The histogram after a sequence of `add` calls. -/
def LatencyHistogram.addAll (h : LatencyHistogram) (ls : List Int) : LatencyHistogram :=
  ls.foldl LatencyHistogram.add h

/-- The aggregator after a sequence of `add` calls. -/
def Aggregator.addAll (a : Aggregator) (rs : List Record) : Aggregator :=
  rs.foldl Aggregator.add a

/-- Cumulative count `buckets[0] + ... + buckets[i]`. -/
def cumulative (bs : List Int) (i : Nat) : Int := (bs.take (i + 1)).sum

/-- The representation invariant of a constructed histogram with a
non-negative ceiling: `max_ms + 2` counters. -/
def LatencyHistogram.WF (h : LatencyHistogram) : Prop :=
  0 ≤ h.max_ms ∧ (h.buckets.length : Int) = h.max_ms + 2

/-- The result `v` is the bucket-resolution percentile of `h` for the target
rank `k`: the smallest index in `0..max_ms` whose cumulative count reaches
`k`, or `max_ms` when no index in that range does. -/
def IsRankPercentile (h : LatencyHistogram) (k v : Int) : Prop :=
  (∃ i : Nat, (i : Int) ≤ h.max_ms ∧ k ≤ cumulative h.buckets i ∧
      (∀ j : Nat, j < i → cumulative h.buckets j < k) ∧ v = i)
  ∨ ((∀ i : Nat, (i : Int) ≤ h.max_ms → cumulative h.buckets i < k) ∧ v = h.max_ms)

/-- The target rank as the specification words it, in exact arithmetic:
`ceil(p/100 * total)`, floored at 1. -/
def specTargetRank (p : ℚ) (total : Int) : Int :=
  max 1 ⌈p / 100 * (total : ℚ)⌉

/-- A histogram with the default ceiling holding 25 samples: seven of 0 ms
and eighteen of 1 ms. -/
def skewed : LatencyHistogram :=
  (LatencyHistogram.new 5000).addAll (List.replicate 7 0 ++ List.replicate 18 1)

/-- The entry of one endpoint after one more record of that endpoint, given
the entry before (`none` when the endpoint is not yet in the map). -/
def stepEntry (o : Option EndpointStats) (r : Record) : Option EndpointStats :=
  some ((o.getD EndpointStats.new).add r)


/-- Three rows with the statuses 200, 404 and 500 (scenario A of the
specification). -/
def sampleRows : List Record :=
  [⟨"2024-01-01T00:00:00Z", "checkout", "/api/pay", 200, 120⟩,
   ⟨"2024-01-01T00:00:01Z", "catalog", "/api/items", 404, 15⟩,
   ⟨"2024-01-01T00:00:02Z", "checkout", "/api/pay", 500, 5003⟩]

/-- A record with the given endpoint, status and latency. -/
def row (endpoint : String) (status latency_ms : Int) : Record :=
  ⟨"2024-01-01T00:00:00Z", "checkout", endpoint, status, latency_ms⟩

/-- Ten rows of which seven have the endpoint `/api/pay` (scenario F of the
specification). -/
def tenRows : List Record :=
  [row "/api/pay" 200 120, row "/api/items" 200 15, row "/api/pay" 200 80,
   row "/api/pay" 500 5003, row "/api/cart" 404 7, row "/api/pay" 200 95,
   row "/api/pay" 302 (-5), row "/api/items" 200 12, row "/api/pay" 200 110,
   row "/api/pay" 200 130]

/-! ## `parser.cpp`

`std::string` is `List Char`, one `Char` per byte. An input stream is the list
of lines that `std::getline` yields. The callback `on_record` is modelled by
the list of the records it received, in order. -/

/-- `std::isspace` in the "C" locale (the program never changes the locale):
space, `\t`, `\n`, `\v`, `\f`, `\r`. -/
def isspace (c : Char) : Bool := c.toNat = 32 || (9 ≤ c.toNat && c.toNat ≤ 13)

/-- The double quote character. -/
def dquote : Char := Char.ofNat 34

/-- The comma character. -/
def comma : Char := Char.ofNat 44

/-- `trim_inplace` (lines 11-17): `start` moves past the leading whitespace,
`end` moves back over the trailing whitespace but not below `start`, and the
string becomes `substr(start, end - start)`. -/
def trim_inplace (s : List Char) : List Char :=
  (s.dropWhile isspace).rdropWhile isspace

/-- The loop of `split_csv_line` (lines 32-64) on the remaining characters,
with the current `in_quotes`, `field` and `out`, followed by lines 66-73. Inside
quotes the character after the current one decides whether a quote is an
escaped quote (line 38), so the last character and a character with a
successor are separate cases. The error is the text stored in `*err`. -/
def splitLoop : List Char → Bool → List Char → List (List Char) →
    Except String (List (List Char))
  | [], in_quotes, field, out =>
    if in_quotes then .error "Unterminated quoted field."
    else .ok (out ++ [trim_inplace field])
  | [c], true, field, out =>
    if c = dquote then splitLoop [] false field out
    else splitLoop [] true (field ++ [c]) out
  | c :: d :: rest, true, field, out =>
    if c = dquote then
      if d = dquote then splitLoop rest true (field ++ [dquote]) out
      else splitLoop (d :: rest) false field out
    else splitLoop (d :: rest) true (field ++ [c]) out
  | c :: rest, false, field, out =>
    if c = dquote then splitLoop rest true field out
    else if c = comma then splitLoop rest false [] (out ++ [trim_inplace field])
    else splitLoop rest false (field ++ [c]) out

/-- `split_csv_line` (lines 22-74). -/
def split_csv_line (line : List Char) : Except String (List (List Char)) :=
  splitLoop line false [] []

/-- `std::isdigit`. -/
def isdigit (c : Char) : Bool := 48 ≤ c.toNat && c.toNat ≤ 57

/-- The value of a run of decimal digits, most significant first. -/
def digitsValue (ds : List Char) : Nat :=
  ds.foldl (fun acc d => 10 * acc + (d.toNat - 48)) 0

/-- The minus sign. -/
def minus : Char := Char.ofNat 45

/-- The plus sign. -/
def plus : Char := Char.ofNat 43

/-- `std::stol(s, &idx, 10)` with a 64-bit `long`: leading whitespace is
skipped, an optional `+` or `-` is read, then the longest run of decimal
digits. The result is the value and `idx`, the number of characters consumed;
`none` stands for the exceptions `std::invalid_argument` (no digit) and
`std::out_of_range` (value outside `long`). -/
def stol (s : List Char) : Option (Int × Nat) :=
  let ws := s.takeWhile isspace
  let rest := s.dropWhile isspace
  let neg := rest.head? = some minus
  let signed := rest.head? = some minus ∨ rest.head? = some plus
  let body := if signed then rest.tail else rest
  let digits := body.takeWhile isdigit
  if digits = [] then none
  else
    let v : Int := if neg then -(digitsValue digits : Int) else (digitsValue digits : Int)
    if v < -(2 ^ 63) ∨ v > 2 ^ 63 - 1 then none
    else some (v, ws.length + (if signed then 1 else 0) + digits.length)

/-- `to_int32` (lines 76-88): `none` is the result `false`. -/
def to_int32 (s : List Char) : Option Int :=
  match stol s with
  | none => none
  | some (v, idx) =>
    if idx ≠ s.length then none
    else if v < -(2 ^ 31) ∨ v > 2 ^ 31 - 1 then none
    else some v

/-- `short_line_preview` (lines 90-94). -/
def short_line_preview (line : List Char) : List Char :=
  if line.length ≤ 160 then line else line.take 160 ++ "...".toList

/-- The failures of one data row (lines 153-192), without the line number and
the preview that the message adds: the split failed with the text `err`
("CSV parse error"), the row has `got` columns instead of 5 ("Wrong column
count"), or the status or latency field `value` is not an `int32` ("Invalid
status", "Invalid latency_ms"). -/
inductive RowError where
  | csvParse (err : String)
  | wrongColumnCount (got : Nat)
  | invalidStatus (value : List Char)
  | invalidLatency (value : List Char)
  deriving DecidableEq

/-- The errors of `parse_csv_file`, one constructor per message: "Failed to
open file", "Empty file (no header).", "Header parse error at line N",
"Invalid header at line N", and the row errors at line N; `preview` is the
`short_line_preview` that the message ends with. -/
inductive ParseError where
  | openFailed
  | emptyFile
  | headerParse (line_no : Nat) (err : String) (preview : List Char)
  | invalidHeader (line_no : Nat) (preview : List Char)
  | row (line_no : Nat) (e : RowError) (preview : List Char)
  deriving DecidableEq

/-- The five column names that lines 130-135 compare the header with. -/
def headerColumns : List (List Char) :=
  ["timestamp".toList, "service".toList, "endpoint".toList, "status".toList,
   "latency_ms".toList]

/-- Lines 153-195 for one non-blank raw line: the record that is passed to
`on_record`, or the reason why the row is rejected. -/
def parseRow (raw : List Char) : Except RowError Record :=
  match split_csv_line raw with
  | .error err => .error (.csvParse err)
  | .ok cols =>
    if cols.length ≠ 5 then .error (.wrongColumnCount cols.length)
    else
      match to_int32 (cols.getD 3 []) with
      | none => .error (.invalidStatus (cols.getD 3 []))
      | some status =>
        match to_int32 (cols.getD 4 []) with
        | none => .error (.invalidLatency (cols.getD 4 []))
        | some latency =>
          .ok { timestamp := String.mk (cols.getD 0 []), service := String.mk (cols.getD 1 []),
                endpoint := String.mk (cols.getD 2 []), status := status, latency_ms := latency }

/-- What `parse_csv_file` leaves behind: the records passed to `on_record`, in
order, and the error (`none` when the function returns `true`). -/
structure ParseOutcome where
  records : List Record
  error : Option ParseError
  deriving DecidableEq

/-- The row loop (lines 145-200): `line_no` is the number of lines read so
far (an `int` in the source; an input has fewer than `2^31` lines), `acc` the
records delivered so far. A blank line is skipped, a row that `parseRow`
rejects ends the loop with its error, line number and preview, and an
accepted row is delivered before the next line is read. -/
def readRows : List (List Char) → Nat → List Record → ParseOutcome
  | [], _, acc => { records := acc, error := none }
  | line :: rest, line_no, acc =>
    if trim_inplace line = [] then readRows rest (line_no + 1) acc
    else
      match parseRow line with
      | .error e =>
        { records := acc, error := some (.row (line_no + 1) e (short_line_preview line)) }
      | .ok r => readRows rest (line_no + 1) (acc ++ [r])

/-- The header loop (lines 109-114): the line number reached, the trimmed
line it stopped at (empty at end of input) and the lines not yet read. -/
def readHeader : List (List Char) → Nat → Nat × List Char × List (List Char)
  | [], line_no => (line_no, [], [])
  | line :: rest, line_no =>
    if trim_inplace line ≠ [] then (line_no + 1, trim_inplace line, rest)
    else readHeader rest (line_no + 1)

/-- Lines 105-201 of `parse_csv_file` on an opened stream. -/
def parseLines (lines : List (List Char)) : ParseOutcome :=
  match readHeader lines 0 with
  | (line_no, line, rest) =>
    if line = [] then { records := [], error := some .emptyFile }
    else
      match split_csv_line line with
      | .error err =>
        { records := [], error := some (.headerParse line_no err (short_line_preview line)) }
      | .ok cols =>
        if cols.length ≠ 5 ∨ cols.getD 0 [] ≠ "timestamp".toList ∨
            cols.getD 1 [] ≠ "service".toList ∨ cols.getD 2 [] ≠ "endpoint".toList ∨
            cols.getD 3 [] ≠ "status".toList ∨ cols.getD 4 [] ≠ "latency_ms".toList then
          { records := [], error := some (.invalidHeader line_no (short_line_preview line)) }
        else readRows rest line_no []

/-- `parse_csv_file` (lines 96-201); `none` is a file that cannot be opened. -/
def parse_csv_file (input : Option (List (List Char))) : ParseOutcome :=
  match input with
  | none => { records := [], error := some .openFailed }
  | some lines => parseLines lines

/-- The text `f` has no leading and no trailing whitespace character. -/
def NoEdgeSpace (f : List Char) : Prop :=
  (∀ c, f.head? = some c → isspace c = false) ∧ (∀ c, f.getLast? = some c → isspace c = false)

/-- The text of a field with every double quote doubled. -/
def escapeQuotes : List Char → List Char
  | [] => []
  | c :: cs => if c = dquote then dquote :: dquote :: escapeQuotes cs else c :: escapeQuotes cs

/-- A field written as a quoted field: the escaped text between double quotes. -/
def quoteField (f : List Char) : List Char := dquote :: (escapeQuotes f ++ [dquote])

/-- The quoted fields joined with commas. -/
def encodeLine : List (List Char) → List Char
  | [] => []
  | [f] => quoteField f
  | f :: g :: fs => quoteField f ++ comma :: encodeLine (g :: fs)

/-- The line is blank: empty after `trim_inplace`. -/
def isBlank (line : List Char) : Bool := decide (trim_inplace line = [])

/-- A data line that the row loop accepts: blank, or a row that `parseRow`
turns into a record. -/
def wellFormed (line : List Char) : Bool := isBlank line || (parseRow line).toOption.isSome

/-- The records of the non-blank lines among `ls` that `parseRow` accepts, in
order. -/
def rowRecords (ls : List (List Char)) : List Record :=
  ls.filterMap (fun l => if isBlank l then none else (parseRow l).toOption)

/-- A header line whose opening double quote is never closed. -/
def openQuoteHeader : List Char :=
  dquote :: "timestamp,service,endpoint,status,latency_ms".toList

/-- The header line of the input format. -/
def headerLine : List Char := "timestamp,service,endpoint,status,latency_ms".toList

/-- An input with a blank line, two valid rows around a whitespace-only line,
a row with four columns at line 6 and a valid row after it (scenario D of the
specification). -/
def fourColumnInput : List (List Char) :=
  [[], headerLine, "t1,checkout,/api/pay,200,120".toList, "  ".toList,
   "t2,catalog,/api/items,404,15".toList, "t3,checkout,/api/pay,500".toList,
   "t4,checkout,/api/pay,200,7".toList]

/-- The number that a run of decimal digits denotes in base 10. -/
def literalValue (digits : List Char) : Nat :=
  Nat.ofDigits 10 (digits.reverse.map (fun d => d.toNat - 48))

/-- The text `s` is a base-10 integer literal with the value `v`: an optional
sign followed by one or more decimal digits and nothing else. -/
def IsIntLiteral (s : List Char) (v : Int) : Prop :=
  ∃ sign digits, s = sign ++ digits ∧ (sign = [] ∨ sign = [plus] ∨ sign = [minus]) ∧
    digits ≠ [] ∧ (∀ d ∈ digits, isdigit d = true) ∧
    v = if sign = [minus] then -(literalValue digits : Int) else (literalValue digits : Int)

/-- Whether the end of `l` lies inside a quoted section, when its start does
(`inq`) or does not: every double quote character switches sides. -/
def insideQuotes : Bool → List Char → Bool
  | inq, [] => inq
  | inq, c :: cs => insideQuotes (if c = dquote then !inq else inq) cs

/-- The number of commas of `l` that lie outside quoted sections, that is,
after an even number of double quote characters (odd, when `l` starts inside
a quoted section). -/
def outsideCommas : Bool → List Char → Nat
  | _, [] => 0
  | inq, c :: cs =>
    if c = dquote then outsideCommas (!inq) cs
    else if c = comma ∧ inq = false then outsideCommas inq cs + 1
    else outsideCommas inq cs

/-- A latency clamped to the range `[0, max_ms]`. -/
def clampLatency (max_ms l : Int) : Int := max 0 (min l max_ms)

/-- The `k`-th smallest element (1-based) of a list of integers: the element
at position `k - 1` of the list sorted in ascending order. -/
def kthSmallest (xs : List Int) (k : Int) : Int :=
  (xs.insertionSort (· ≤ ·)).getD (k.toNat - 1) 0

/-! ## Properties of binary64 rounding -/

theorem roundHalfEven_cases (x : ℚ) :
    (roundHalfEven x = ⌊x⌋ ∧ x - ⌊x⌋ ≤ 1 / 2) ∨ (roundHalfEven x = ⌊x⌋ + 1 ∧ 1 / 2 ≤ x - ⌊x⌋) := by
  unfold roundHalfEven
  simp only
  split_ifs with h1 h2 h3
  · left; exact ⟨rfl, le_of_lt h1⟩
  · right; exact ⟨rfl, le_of_lt h2⟩
  · left; exact ⟨rfl, not_lt.mp h2⟩
  · right; exact ⟨rfl, not_lt.mp h1⟩

theorem roundHalfEven_intCast (n : ℤ) : roundHalfEven (n : ℚ) = n := by
  unfold roundHalfEven
  simp

theorem roundHalfEven_mono {x y : ℚ} (hxy : x ≤ y) : roundHalfEven x ≤ roundHalfEven y := by
  have hf : ⌊x⌋ ≤ ⌊y⌋ := Int.floor_mono hxy
  rcases lt_or_eq_of_le hf with hlt | heq
  · rcases roundHalfEven_cases x with ⟨hx, _⟩ | ⟨hx, _⟩ <;>
    rcases roundHalfEven_cases y with ⟨hy, _⟩ | ⟨hy, _⟩ <;> omega
  · unfold roundHalfEven
    simp only
    rw [← heq]
    split_ifs <;> first | omega | (exfalso; linarith)

theorem le_roundHalfEven {n : ℤ} {x : ℚ} (h : (n : ℚ) ≤ x) : n ≤ roundHalfEven x := by
  have := roundHalfEven_mono h
  rwa [roundHalfEven_intCast] at this

theorem roundHalfEven_le {n : ℤ} {x : ℚ} (h : x ≤ (n : ℚ)) : roundHalfEven x ≤ n := by
  have := roundHalfEven_mono h
  rwa [roundHalfEven_intCast] at this

theorem ulp_pos (x : ℚ) : 0 < ulp x := by
  unfold ulp
  positivity

theorem fl_zero : fl 0 = 0 := by
  unfold fl
  simp [roundHalfEven]

theorem fl_nonneg {x : ℚ} (hx : 0 ≤ x) : 0 ≤ fl x := by
  unfold fl
  have h1 : (0 : ℚ) ≤ x / ulp x := div_nonneg hx (le_of_lt (ulp_pos x))
  have h2 : (0 : ℤ) ≤ roundHalfEven (x / ulp x) := le_roundHalfEven (by simpa using h1)
  have h3 : (0 : ℚ) ≤ (roundHalfEven (x / ulp x) : ℚ) := by exact_mod_cast h2
  exact mul_nonneg h3 (le_of_lt (ulp_pos x))

theorem binade_mono {x y : ℚ} (hx : 0 < x) (hxy : x ≤ y) : binade x ≤ binade y := by
  unfold binade
  have : Int.log 2 |x| ≤ Int.log 2 |y| := by
    rw [abs_of_pos hx, abs_of_pos (lt_of_lt_of_le hx hxy)]
    exact Int.log_mono_right hx hxy
  exact max_le_max this le_rfl

theorem cast_two_pow_53 : ((2 ^ 53 : ℤ) : ℚ) = (2 : ℚ) ^ (53 : ℤ) := by norm_num

theorem cast_two_pow_52 : ((2 ^ 52 : ℤ) : ℚ) = (2 : ℚ) ^ (52 : ℤ) := by norm_num

theorem two_zpow_split53 (e : ℤ) : (2 : ℚ) ^ (53 : ℤ) * 2 ^ (e - 52) = 2 ^ (e + 1) := by
  rw [← zpow_add₀ (by norm_num : (2 : ℚ) ≠ 0)]
  congr 1
  ring

theorem two_zpow_split52 (e : ℤ) : (2 : ℚ) ^ (52 : ℤ) * 2 ^ (e - 52) = 2 ^ e := by
  rw [← zpow_add₀ (by norm_num : (2 : ℚ) ≠ 0)]
  congr 1
  ring

/-- below the top of its binade -/
theorem lt_top_binade {x : ℚ} (hx : 0 < x) : x < 2 ^ (binade x + 1) := by
  have h1 : x < (2 : ℚ) ^ (Int.log 2 x + 1) := by
    have := Int.lt_zpow_succ_log_self (b := 2) (by norm_num) x
    simpa using this
  have h2 : Int.log 2 x + 1 ≤ binade x + 1 := by
    unfold binade
    rw [abs_of_pos hx]
    have := le_max_left (Int.log 2 x) (-1022)
    omega
  exact lt_of_lt_of_le h1 (zpow_le_zpow_right₀ (by norm_num) h2)

theorem fl_le_top_binade {x : ℚ} (hx : 0 < x) : fl x ≤ 2 ^ (binade x + 1) := by
  unfold fl
  have hu := ulp_pos x
  have h1 : x / ulp x ≤ ((2 ^ 53 : ℤ) : ℚ) := by
    rw [div_le_iff₀ hu]
    have h2 := lt_top_binade hx
    unfold ulp
    rw [cast_two_pow_53, two_zpow_split53]
    exact le_of_lt h2
  have h2 := roundHalfEven_le h1
  have h3 : (roundHalfEven (x / ulp x) : ℚ) ≤ ((2 ^ 53 : ℤ) : ℚ) := by exact_mod_cast h2
  calc (roundHalfEven (x / ulp x) : ℚ) * ulp x ≤ ((2 ^ 53 : ℤ) : ℚ) * ulp x :=
        mul_le_mul_of_nonneg_right h3 (le_of_lt hu)
    _ = 2 ^ (binade x + 1) := by
        unfold ulp
        rw [cast_two_pow_53, two_zpow_split53]

theorem bot_binade_le_fl {y : ℚ} (hy : (2 : ℚ) ^ binade y ≤ y) : 2 ^ binade y ≤ fl y := by
  unfold fl
  have hu := ulp_pos y
  have h1 : ((2 ^ 52 : ℤ) : ℚ) ≤ y / ulp y := by
    rw [le_div_iff₀ hu]
    unfold ulp
    rw [cast_two_pow_52, two_zpow_split52]
    exact hy
  have h2 := le_roundHalfEven h1
  have h3 : ((2 ^ 52 : ℤ) : ℚ) ≤ (roundHalfEven (y / ulp y) : ℚ) := by exact_mod_cast h2
  calc (2 : ℚ) ^ binade y = ((2 ^ 52 : ℤ) : ℚ) * ulp y := by
        unfold ulp
        rw [cast_two_pow_52, two_zpow_split52]
    _ ≤ (roundHalfEven (y / ulp y) : ℚ) * ulp y :=
        mul_le_mul_of_nonneg_right h3 (le_of_lt hu)

theorem fl_mono {x y : ℚ} (hx : 0 ≤ x) (hxy : x ≤ y) : fl x ≤ fl y := by
  rcases eq_or_lt_of_le hx with h0 | hpos
  · rw [← h0, fl_zero]
    exact fl_nonneg (le_trans hx hxy)
  · have hypos : 0 < y := lt_of_lt_of_le hpos hxy
    rcases eq_or_lt_of_le (binade_mono hpos hxy) with he | hlt
    · have hu : ulp x = ulp y := by unfold ulp; rw [he]
      unfold fl
      rw [hu]
      have h1 : x / ulp y ≤ y / ulp y := div_le_div_of_nonneg_right hxy (le_of_lt (ulp_pos y))
      have h2 := roundHalfEven_mono h1
      have h3 : (roundHalfEven (x / ulp y) : ℚ) ≤ (roundHalfEven (y / ulp y) : ℚ) := by
        exact_mod_cast h2
      exact mul_le_mul_of_nonneg_right h3 (le_of_lt (ulp_pos y))
    · have hlog : binade y = Int.log 2 y := by
        have hb : -1022 ≤ binade x := le_max_right _ _
        unfold binade at hlt ⊢
        rw [abs_of_pos hypos] at hlt ⊢
        rcases max_cases (Int.log 2 y) (-1022) with ⟨h, _⟩ | ⟨h, _⟩
        · exact h
        · rw [h] at hlt
          have := le_max_right (Int.log 2 |x|) (-1022)
          omega
      have hy : (2 : ℚ) ^ binade y ≤ y := by
        rw [hlog]
        have := Int.zpow_log_le_self (b := 2) (by norm_num) hypos
        simpa using this
      calc fl x ≤ 2 ^ (binade x + 1) := fl_le_top_binade hpos
        _ ≤ 2 ^ binade y := zpow_le_zpow_right₀ (by norm_num) (by omega)
        _ ≤ fl y := bot_binade_le_fl hy


theorem binade_eq {x : ℚ} {e : ℤ} (he : -1022 ≤ e) (h1 : (2 : ℚ) ^ e ≤ x) (h2 : x < 2 ^ (e + 1)) :
    binade x = e := by
  have hx : 0 < x := lt_of_lt_of_le (by positivity) h1
  unfold binade
  rw [abs_of_pos hx]
  have h3 : e ≤ Int.log 2 x := by
    have := (Int.zpow_le_iff_le_log (b := 2) (by norm_num) (x := e) hx).mp (by simpa using h1)
    exact this
  have h4 : Int.log 2 x < e + 1 := by
    have := (Int.lt_zpow_iff_log_lt (b := 2) (by norm_num) (x := e + 1) hx).mp (by simpa using h2)
    exact this
  have : Int.log 2 x = e := by omega
  rw [this]
  exact max_eq_left he

theorem fl_eq {x : ℚ} (e : ℤ) (n : ℤ) (he : -1022 ≤ e) (h1 : (2 : ℚ) ^ e ≤ x) (h2 : x < 2 ^ (e + 1))
    (hn : roundHalfEven (x / 2 ^ (e - 52)) = n) : fl x = n * 2 ^ (e - 52) := by
  unfold fl ulp
  rw [binade_eq he h1 h2, hn]


theorem roundHalfEven_eq_of_near {x : ℚ} {n : ℤ} (h1 : (n : ℚ) - 1 / 2 < x) (h2 : x < n + 1 / 2) :
    roundHalfEven x = n := by
  by_cases h : (n : ℚ) ≤ x
  · have hf : ⌊x⌋ = n := Int.floor_eq_iff.mpr ⟨h, by linarith⟩
    unfold roundHalfEven
    simp only [hf]
    rw [if_pos (by linarith)]
  · have hf : ⌊x⌋ = n - 1 := Int.floor_eq_iff.mpr ⟨by push_cast; linarith, by push_cast; linarith⟩
    unfold roundHalfEven
    simp only [hf]
    push_cast
    rw [if_neg (by linarith), if_pos (by linarith)]
    ring

theorem fl_eq_of_near {x : ℚ} (e : ℤ) (n : ℤ) (he : -1022 ≤ e) (h1 : (2 : ℚ) ^ e ≤ x)
    (h2 : x < 2 ^ (e + 1)) (h3 : (n : ℚ) - 1 / 2 < x / 2 ^ (e - 52))
    (h4 : x / 2 ^ (e - 52) < n + 1 / 2) : fl x = n * 2 ^ (e - 52) :=
  fl_eq e n he h1 h2 (roundHalfEven_eq_of_near h3 h4)

theorem fl_028 : fl (28/100) = 1261007895663739/4503599627370496 := by
  rw [fl_eq_of_near (-2) 5044031582654956 (by norm_num) (by norm_num) (by norm_num) (by norm_num) (by norm_num)]
  norm_num

theorem fl_25 : fl (25 : ℚ) = 25 := by
  rw [fl_eq_of_near 4 (25 * 2 ^ 48) (by norm_num) (by norm_num) (by norm_num) (by norm_num) (by norm_num)]
  norm_num

theorem fl_prod : fl (1261007895663739/4503599627370496 * 25) = 7881299347898369/1125899906842624 := by
  rw [fl_eq_of_near 2 7881299347898369 (by norm_num) (by norm_num) (by norm_num) (by norm_num) (by norm_num)]
  norm_num

theorem targetRank_28_25 : targetRank 28 25 = 8 := by
  unfold targetRank
  rw [fl_028]
  push_cast
  rw [fl_25, fl_prod]
  have : ⌈(7881299347898369 : ℚ) / 1125899906842624⌉ = 8 := by
    rw [Int.ceil_eq_iff]
    norm_num
  rw [this]
  rfl

/-! ## Counter vectors -/

theorem length_bump (bs : List Int) (i : Nat) : (bump bs i).length = bs.length := by
  induction bs generalizing i with
  | nil => rfl
  | cons b bs ih =>
    cases i with
    | zero => rfl
    | succ i => simp [bump, ih]

theorem sum_bump (bs : List Int) (i : Nat) (hi : i < bs.length) :
    (bump bs i).sum = bs.sum + 1 := by
  induction bs generalizing i with
  | nil => simp at hi
  | cons b bs ih =>
    cases i with
    | zero => simp [bump]; ring
    | succ i =>
      have hi2 : i < bs.length := by simpa using hi
      simp [bump, ih i hi2]
      ring

theorem getD_bump (bs : List Int) (i j : Nat) (hi : i < bs.length) :
    (bump bs i).getD j 0 = bs.getD j 0 + (if j = i then 1 else 0) := by
  induction bs generalizing i j with
  | nil => simp at hi
  | cons b bs ih =>
    cases i with
    | zero =>
      cases j with
      | zero => simp [bump]
      | succ j => simp [bump]
    | succ i =>
      have hi2 : i < bs.length := by simpa using hi
      cases j with
      | zero => simp [bump]
      | succ j => simpa [bump] using ih i j hi2

theorem bump_comm (bs : List Int) (i j : Nat) : bump (bump bs i) j = bump (bump bs j) i := by
  induction bs generalizing i j with
  | nil => rfl
  | cons b bs ih =>
    cases i with
    | zero =>
      cases j with
      | zero => rfl
      | succ j => rfl
    | succ i =>
      cases j with
      | zero => rfl
      | succ j => simp [bump, ih i j]

/-! ## The histogram -/

theorem new_buckets (m : Int) (h0 : 0 ≤ m) (h1 : m < 2 ^ 31) :
    (LatencyHistogram.new m).buckets = List.replicate (m.toNat + 2) 0 := by
  unfold LatencyHistogram.new
  simp only
  congr 1
  have e1 : m % 2 ^ 64 = m := Int.emod_eq_of_lt h0 (by omega)
  have e2 : (m + 2) % 2 ^ 64 = m + 2 := Int.emod_eq_of_lt (by omega) (by omega)
  rw [e1, e2]
  omega

theorem new_WF (m : Int) (h0 : 0 ≤ m) (h1 : m < 2 ^ 31) : (LatencyHistogram.new m).WF := by
  refine ⟨h0, ?_⟩
  rw [new_buckets m h0 h1]
  simp only [List.length_replicate]
  show ((m.toNat + 2 : Nat) : Int) = m + 2
  omega

theorem index_lt (h : LatencyHistogram) (hwf : h.WF) (l : Int) : h.index l < h.buckets.length := by
  obtain ⟨h0, hlen⟩ := hwf
  unfold LatencyHistogram.index
  simp only
  split_ifs <;> omega

theorem add_WF (h : LatencyHistogram) (hwf : h.WF) (l : Int) : (h.add l).WF := by
  obtain ⟨h0, hlen⟩ := hwf
  refine ⟨h0, ?_⟩
  show ((bump h.buckets (h.index l)).length : Int) = h.max_ms + 2
  rw [length_bump]
  exact hlen

theorem addAll_WF (h : LatencyHistogram) (hwf : h.WF) (ls : List Int) : (h.addAll ls).WF := by
  induction ls generalizing h with
  | nil => exact hwf
  | cons l ls ih => exact ih (h.add l) (add_WF h hwf l)

theorem addAll_max_ms (h : LatencyHistogram) (ls : List Int) : (h.addAll ls).max_ms = h.max_ms := by
  induction ls generalizing h with
  | nil => rfl
  | cons l ls ih => exact ih (h.add l)

theorem addAll_total (h : LatencyHistogram) (ls : List Int) :
    (h.addAll ls).total = h.total + ls.length := by
  induction ls generalizing h with
  | nil => simp [LatencyHistogram.addAll]
  | cons l ls ih =>
    have := ih (h.add l)
    simp only [LatencyHistogram.addAll, List.foldl_cons, List.length_cons] at this ⊢
    rw [this]
    show h.total + 1 + _ = _
    push_cast
    ring

theorem addAll_sum (h : LatencyHistogram) (hwf : h.WF) (ls : List Int) :
    (h.addAll ls).buckets.sum = h.buckets.sum + ls.length := by
  induction ls generalizing h with
  | nil => simp [LatencyHistogram.addAll]
  | cons l ls ih =>
    have := ih (h.add l) (add_WF h hwf l)
    simp only [LatencyHistogram.addAll, List.foldl_cons, List.length_cons] at this ⊢
    rw [this]
    show (bump h.buckets (h.index l)).sum + _ = _
    rw [sum_bump _ _ (index_lt h hwf l)]
    push_cast
    ring

/-! ## The percentile walk -/

theorem percentileLoop_spec (M : Nat) (t : Int) (bs : List Int) (i : Nat) (cum : Int) :
    (∃ j, j < bs.length ∧ t ≤ cum + (bs.take (j + 1)).sum ∧
        (∀ j2, j2 < j → cum + (bs.take (j2 + 1)).sum < t) ∧
        percentileLoop M (M + 1) t bs i cum = if i + j = M + 1 then (M : Int) else ((i + j : Nat) : Int))
    ∨ ((∀ j, j < bs.length → cum + (bs.take (j + 1)).sum < t) ∧
        percentileLoop M (M + 1) t bs i cum = M) := by
  induction bs generalizing i cum with
  | nil => right; simp [percentileLoop]
  | cons b bs ih =>
    by_cases hb : cum + b ≥ t
    · left
      refine ⟨0, by simp, by simpa using hb, by simp, ?_⟩
      simp [percentileLoop, hb]
    · have hstep : percentileLoop M (M + 1) t (b :: bs) i cum
          = percentileLoop M (M + 1) t bs (i + 1) (cum + b) := by
        simp only [percentileLoop, if_neg hb]
      rcases ih (i + 1) (cum + b) with ⟨j, hj, hge, hlt, hr⟩ | ⟨hlt, hr⟩
      · left
        refine ⟨j + 1, by simpa using hj, ?_, ?_, ?_⟩
        · simp only [List.take_succ_cons, List.sum_cons]
          linarith
        · intro j2 hj2
          cases j2 with
          | zero => simp only [List.take_succ_cons, List.take_zero, List.sum_cons, List.sum_nil]; linarith
          | succ j2 =>
            have := hlt j2 (by omega)
            simp only [List.take_succ_cons, List.sum_cons]
            linarith
        · rw [hstep, hr]
          have e : i + 1 + j = i + (j + 1) := by omega
          rw [e]
      · right
        refine ⟨?_, by rw [hstep, hr]⟩
        intro j hj
        cases j with
        | zero => simp only [List.take_succ_cons, List.take_zero, List.sum_cons, List.sum_nil]; linarith
        | succ j =>
          have := hlt j (by simpa using hj)
          simp only [List.take_succ_cons, List.sum_cons]
          linarith

theorem WF_nat (h : LatencyHistogram) (hwf : h.WF) :
    ∃ M : Nat, h.max_ms = M ∧ h.buckets.length = M + 2 := by
  obtain ⟨h0, hlen⟩ := hwf
  refine ⟨h.max_ms.toNat, by omega, by omega⟩

theorem walk_isRankPercentile (h : LatencyHistogram) (hwf : h.WF) (k : Int) :
    IsRankPercentile h k (h.walk k) := by
  obtain ⟨M, hM, hlen⟩ := WF_nat h hwf
  unfold LatencyHistogram.walk IsRankPercentile cumulative
  rw [hM, hlen]
  have e : M + 2 - 1 = M + 1 := by omega
  rw [e]
  rcases percentileLoop_spec M k h.buckets 0 0 with ⟨j, hj, hge, hlt, hr⟩ | ⟨hlt, hr⟩
  · simp only [zero_add] at hge hlt hr
    by_cases hjM : j = M + 1
    · right
      refine ⟨?_, by rw [hr, if_pos hjM]⟩
      intro i hi
      exact hlt i (by omega)
    · left
      refine ⟨j, by omega, hge, hlt, by rw [hr, if_neg hjM]⟩
  · right
    simp only [zero_add] at hlt
    refine ⟨?_, hr⟩
    intro i hi
    exact hlt i (by omega)

theorem percentile_fin (h : LatencyHistogram) (ht : h.total ≠ 0) (p : ℚ) (h0 : 0 < p) (h1 : p < 100) :
    h.percentile (.fin p) = h.walk (targetRank p h.total) := by
  unfold LatencyHistogram.percentile
  rw [if_neg ht]
  simp only [Dbl.le, decide_eq_true_eq]
  rw [if_neg (not_le.mpr h0), if_neg (not_le.mpr h1)]


theorem addAll_skewed (m : Int) (hm : 1 ≤ m) (rest : List Int) :
    (LatencyHistogram.mk m (0 :: 0 :: rest) 0).addAll (List.replicate 7 0 ++ List.replicate 18 1)
      = ⟨m, 7 :: 18 :: rest, 25⟩ := by
  have h1 : ¬ (1 > m) := by omega
  have h0 : ¬ (0 > m) := by omega
  simp [LatencyHistogram.addAll, LatencyHistogram.add, LatencyHistogram.index, bump,
    List.replicate, h1, h0]

theorem new_5000 : LatencyHistogram.new 5000 = ⟨5000, 0 :: 0 :: List.replicate 5000 0, 0⟩ := by
  have hb := new_buckets 5000 (by norm_num) (by norm_num)
  have e : (5000 : Int).toNat + 2 = 5000 + 1 + 1 := by rfl
  rw [e, List.replicate_succ, List.replicate_succ] at hb
  rw [← hb]
  rfl

theorem skewed_eq : skewed = ⟨5000, 7 :: 18 :: List.replicate 5000 0, 25⟩ := by
  unfold skewed
  rw [new_5000, addAll_skewed 5000 (by norm_num)]


theorem skewed_WF : skewed.WF :=
  addAll_WF _ (new_WF 5000 (by norm_num) (by norm_num)) _

theorem specTargetRank_28_25 : specTargetRank 28 25 = 7 := by
  unfold specTargetRank
  have : ⌈(28 : ℚ) / 100 * ((25 : ℤ) : ℚ)⌉ = 7 := by
    rw [Int.ceil_eq_iff]
    norm_num
  rw [this]
  rfl

theorem walk_skewed (m : Int) (rest : List Int) (t : Int) (hr : 0 < rest.length) :
    LatencyHistogram.walk ⟨m, 7 :: 18 :: rest, t⟩ 8 = 1 := by
  have h1 : ¬ (1 = rest.length + 1) := by omega
  simp [LatencyHistogram.walk, percentileLoop, h1]

theorem skewed_percentile_28 : skewed.percentile (.fin 28) = 1 := by
  rw [percentile_fin skewed (by rw [skewed_eq]; decide) 28 (by norm_num) (by norm_num)]
  rw [skewed_eq]
  show LatencyHistogram.walk _ (targetRank 28 25) = 1
  rw [targetRank_28_25]
  exact walk_skewed _ _ _ (by rw [List.length_replicate]; norm_num)

/-! ## C1: what `percentile` returns for `0 < p < 100` -/

/-- C1, as amended: for every constructed histogram with at least one sample
and every `p` with `0 < p < 100`, `percentile(p)` is the smallest bucket index
in `0..max_ms` whose cumulative count reaches the target rank that the code
computes, `max(1, ceil(p/100 * total))` evaluated in binary64 arithmetic, and
it is `max_ms` when no index in that range reaches it. -/
theorem percentile_is_least_index (h : LatencyHistogram) (hwf : h.WF) (ht : 0 < h.count)
    (p : ℚ) (h0 : 0 < p) (h1 : p < 100) :
    IsRankPercentile h (targetRank p h.total) (h.percentile (.fin p)) := by
  have ht2 : h.total ≠ 0 := by
    have : 0 < h.total := ht
    omega
  rw [percentile_fin h ht2 p h0 h1]
  exact walk_isRankPercentile h hwf _

/-- C1, witness: the amended statement at the 25-sample histogram and `p = 28`. -/
theorem percentile_is_least_index_witness :
    skewed.WF ∧ 0 < skewed.count ∧ (0 : ℚ) < 28 ∧ (28 : ℚ) < 100 ∧
      IsRankPercentile skewed (targetRank 28 skewed.total) (skewed.percentile (.fin 28)) :=
  ⟨skewed_WF, by rw [skewed_eq]; decide, by norm_num, by norm_num,
    percentile_is_least_index skewed skewed_WF (by rw [skewed_eq]; decide) 28
      (by norm_num) (by norm_num)⟩

/-- C1, counterexample to the claim as stated (rank `max(1, ceil(p/100 * total))`
in exact arithmetic): with seven samples of 0 ms and eighteen of 1 ms the exact
rank of `p = 28` is 7, which bucket 0 already reaches, but `28 / 100.0 * 25.0`
is `7.000000000000001` in binary64, so the code walks to rank 8 and returns 1. -/
theorem percentile_exact_rank_counterexample :
    skewed.WF ∧ 0 < skewed.count ∧ specTargetRank 28 skewed.total = 7 ∧
      cumulative skewed.buckets 0 = 7 ∧ skewed.percentile (.fin 28) = 1 ∧
      ¬ IsRankPercentile skewed (specTargetRank 28 skewed.total) (skewed.percentile (.fin 28)) := by
  have hc : cumulative skewed.buckets 0 = 7 := by
    rw [skewed_eq]
    simp only [cumulative, List.take_succ_cons, List.take_zero, List.sum_cons, List.sum_nil]
    norm_num
  have hk : specTargetRank 28 skewed.total = 7 := by
    rw [skewed_eq]
    exact specTargetRank_28_25
  refine ⟨skewed_WF, by rw [skewed_eq]; decide, hk, hc, skewed_percentile_28, ?_⟩
  rw [hk, skewed_percentile_28]
  rintro (⟨i, _, _, hlt, hi⟩ | ⟨hall, _⟩)
  · have hi1 : i = 1 := by exact_mod_cast hi.symm
    have := hlt 0 (by omega)
    rw [hc] at this
    omega
  · have := hall 0 (by rw [skewed_eq]; decide)
    rw [hc] at this
    omega

/-! ## C2: boundary policy of `percentile` -/

/-- C2: a histogram without samples answers 0 for every `p` (NaN and the
infinities included); a histogram with `count > 0` answers 0 for every
`p <= 0` and `max_ms` for every `p >= 100`. -/
theorem percentile_boundary (h : LatencyHistogram) :
    (h.count = 0 → ∀ p : Dbl, h.percentile p = 0) ∧
    (0 < h.count →
      (∀ p : Dbl, Dbl.le p (.fin 0) = true → h.percentile p = 0) ∧
      (∀ p : Dbl, Dbl.le (.fin 100) p = true → h.percentile p = h.max_ms)) := by
  refine ⟨?_, ?_⟩
  · intro hc p
    have : h.total = 0 := hc
    simp [LatencyHistogram.percentile, this]
  · intro hc
    have ht : h.total ≠ 0 := by
      have : 0 < h.total := hc
      omega
    refine ⟨?_, ?_⟩
    · intro p hp
      simp [LatencyHistogram.percentile, ht, hp]
    · intro p hp
      have hn : Dbl.le p (.fin 0) = false := by
        cases p with
        | nan => rfl
        | ninf => simp [Dbl.le] at hp
        | pinf => rfl
        | fin q =>
          simp only [Dbl.le, decide_eq_true_eq] at hp
          simp only [Dbl.le, decide_eq_false_iff_not, not_le]
          linarith
      simp [LatencyHistogram.percentile, ht, hp, hn]

/-- C2, witness: `percentile(0) == 0` and `percentile(100) == max_ms` on a
histogram with one sample, and 0 at `p = 150` on an empty one. -/
theorem percentile_boundary_witness :
    ((LatencyHistogram.new 3).add 2).percentile (.fin 0) = 0 ∧
    ((LatencyHistogram.new 3).add 2).percentile (.fin 100) = 3 ∧
    (LatencyHistogram.new 3).percentile (.fin 150) = 0 :=
  ⟨((percentile_boundary ((LatencyHistogram.new 3).add 2)).2 (by decide)).1 (.fin 0)
      (by simp [Dbl.le]),
   ((percentile_boundary ((LatencyHistogram.new 3).add 2)).2 (by decide)).2 (.fin 100)
      (by simp [Dbl.le]),
   (percentile_boundary (LatencyHistogram.new 3)).1 (by decide) (.fin 150)⟩

/-! ## C3: `percentile` is monotone in `p` -/

theorem percentileLoop_bounds (M : Nat) (t : Int) (bs : List Int) (i : Nat) (cum : Int)
    (hlen : i + bs.length = M + 2) :
    (min i M : Nat) ≤ percentileLoop M (M + 1) t bs i cum ∧
      percentileLoop M (M + 1) t bs i cum ≤ M := by
  induction bs generalizing i cum with
  | nil =>
    simp only [List.length_nil, Nat.add_zero] at hlen
    simp only [percentileLoop]
    refine ⟨?_, le_rfl⟩
    have : min i M = M := by omega
    rw [this]
  | cons b bs ih =>
    simp only [List.length_cons] at hlen
    simp only [percentileLoop]
    split_ifs with h1 h2
    · refine ⟨?_, le_rfl⟩
      have : min i M = M := by omega
      rw [this]
    · have hi : i ≤ M := by omega
      have : min i M = i := by omega
      rw [this]
      exact ⟨le_rfl, by exact_mod_cast hi⟩
    · obtain ⟨hlo, hhi⟩ := ih (i + 1) (cum + b) (by omega)
      refine ⟨?_, hhi⟩
      have : ((min i M : Nat) : Int) ≤ ((min (i + 1) M : Nat) : Int) := by
        have : min i M ≤ min (i + 1) M := by omega
        exact_mod_cast this
      linarith

theorem percentileLoop_mono (M : Nat) (t1 t2 : Int) (ht : t1 ≤ t2) (bs : List Int) (i : Nat)
    (cum : Int) (hlen : i + bs.length = M + 2) :
    percentileLoop M (M + 1) t1 bs i cum ≤ percentileLoop M (M + 1) t2 bs i cum := by
  induction bs generalizing i cum with
  | nil => simp [percentileLoop]
  | cons b bs ih =>
    simp only [List.length_cons] at hlen
    by_cases h2 : cum + b ≥ t2
    · have h1 : cum + b ≥ t1 := le_trans ht h2
      simp only [percentileLoop, if_pos h1, if_pos h2]
      exact le_rfl
    · by_cases h1 : cum + b ≥ t1
      · simp only [percentileLoop, if_pos h1, if_neg h2]
        obtain ⟨hlo, hhi⟩ := percentileLoop_bounds M t2 bs (i + 1) (cum + b) (by omega)
        split_ifs with hi
        · have : min (i + 1) M = M := by omega
          rw [this] at hlo
          exact hlo
        · have : min (i + 1) M ≥ i := by omega
          have : ((min (i + 1) M : Nat) : Int) ≥ (i : Int) := by exact_mod_cast this
          linarith
      · simp only [percentileLoop, if_neg h1, if_neg h2]
        exact ih (i + 1) (cum + b) (by omega)

theorem walk_bounds (h : LatencyHistogram) (hwf : h.WF) (t : Int) :
    0 ≤ h.walk t ∧ h.walk t ≤ h.max_ms := by
  obtain ⟨M, hM, hlen⟩ := WF_nat h hwf
  unfold LatencyHistogram.walk
  rw [hM, hlen]
  have e : M + 2 - 1 = M + 1 := by omega
  rw [e]
  obtain ⟨hlo, hhi⟩ := percentileLoop_bounds M t h.buckets 0 0 (by omega)
  refine ⟨?_, hhi⟩
  have : (0 : Int) ≤ ((min 0 M : Nat) : Int) := Int.ofNat_nonneg _
  linarith

theorem walk_mono (h : LatencyHistogram) (hwf : h.WF) (t1 t2 : Int) (ht : t1 ≤ t2) :
    h.walk t1 ≤ h.walk t2 := by
  obtain ⟨M, hM, hlen⟩ := WF_nat h hwf
  unfold LatencyHistogram.walk
  rw [hM, hlen]
  have e : M + 2 - 1 = M + 1 := by omega
  rw [e]
  exact percentileLoop_mono M t1 t2 ht h.buckets 0 0 (by omega)

theorem targetRank_mono (total : Int) (ht : 0 ≤ total) (p1 p2 : ℚ) (h0 : 0 ≤ p1) (hp : p1 ≤ p2) :
    targetRank p1 total ≤ targetRank p2 total := by
  unfold targetRank
  have ht2 : (0 : ℚ) ≤ (total : ℚ) := by exact_mod_cast ht
  have hft : 0 ≤ fl (total : ℚ) := fl_nonneg ht2
  have h1 : fl (p1 / 100) ≤ fl (p2 / 100) :=
    fl_mono (div_nonneg h0 (by norm_num)) (div_le_div_of_nonneg_right hp (by norm_num))
  have h2 : fl (p1 / 100) * fl (total : ℚ) ≤ fl (p2 / 100) * fl (total : ℚ) :=
    mul_le_mul_of_nonneg_right h1 hft
  have h3 : 0 ≤ fl (p1 / 100) * fl (total : ℚ) :=
    mul_nonneg (fl_nonneg (div_nonneg h0 (by norm_num))) hft
  exact max_le_max le_rfl (Int.ceil_mono (fl_mono h3 h2))

theorem percentile_bounds (h : LatencyHistogram) (hwf : h.WF) (p : Dbl) :
    0 ≤ h.percentile p ∧ h.percentile p ≤ h.max_ms := by
  unfold LatencyHistogram.percentile
  split_ifs
  · exact ⟨le_rfl, hwf.1⟩
  · exact ⟨le_rfl, hwf.1⟩
  · exact ⟨hwf.1, le_rfl⟩
  · cases p <;> exact walk_bounds h hwf _

theorem percentile_mono_of_WF (h : LatencyHistogram) (hwf : h.WF) (ht : 0 ≤ h.total)
    (p1 p2 : Dbl) (hp : Dbl.le p1 p2 = true) : h.percentile p1 ≤ h.percentile p2 := by
  by_cases hz : h.total = 0
  · simp [LatencyHistogram.percentile, hz]
  · by_cases h1 : Dbl.le p1 (.fin 0) = true
    · have e : h.percentile p1 = 0 := by simp [LatencyHistogram.percentile, hz, h1]
      rw [e]
      exact (percentile_bounds h hwf p2).1
    · by_cases h2 : Dbl.le (.fin 100) p2 = true
      · have hn : Dbl.le p2 (.fin 0) = false := by
          cases p2 with
          | nan => rfl
          | ninf => simp [Dbl.le] at h2
          | pinf => rfl
          | fin q =>
            simp only [Dbl.le, decide_eq_true_eq] at h2
            simp only [Dbl.le, decide_eq_false_iff_not, not_le]
            linarith
        have e : h.percentile p2 = h.max_ms := by
          simp [LatencyHistogram.percentile, hz, h2, hn]
        rw [e]
        exact (percentile_bounds h hwf p1).2
      · cases p1 with
        | nan => simp [Dbl.le] at hp
        | ninf => simp [Dbl.le] at h1
        | pinf =>
          cases p2 with
          | nan => simp [Dbl.le] at hp
          | ninf => simp [Dbl.le] at hp
          | pinf => simp [Dbl.le] at h2
          | fin q2 => simp [Dbl.le] at hp
        | fin q1 =>
          cases p2 with
          | nan => simp [Dbl.le] at hp
          | ninf => simp [Dbl.le] at hp
          | pinf => simp [Dbl.le] at h2
          | fin q2 =>
            simp only [Dbl.le, decide_eq_true_eq, not_le] at hp h1 h2
            rw [percentile_fin h hz q1 h1 (lt_of_le_of_lt hp h2),
              percentile_fin h hz q2 (lt_of_lt_of_le h1 hp) h2]
            exact walk_mono h hwf _ _ (targetRank_mono h.total ht q1 q2 (le_of_lt h1) hp)

/-- C3: for every histogram constructed with a ceiling `max_ms >= 0` (an
`int32`) and filled by any sequence of `add` calls, `p1 <= p2` implies
`percentile(p1) <= percentile(p2)`, for all doubles `p1`, `p2` (finite values
of any size and the infinities; a NaN is not comparable). -/
theorem percentile_mono (m : Int) (hm0 : 0 ≤ m) (hm1 : m < 2 ^ 31) (ls : List Int)
    (p1 p2 : Dbl) (hp : Dbl.le p1 p2 = true) :
    ((LatencyHistogram.new m).addAll ls).percentile p1
      ≤ ((LatencyHistogram.new m).addAll ls).percentile p2 := by
  apply percentile_mono_of_WF _ (addAll_WF _ (new_WF m hm0 hm1) ls) _ p1 p2 hp
  rw [addAll_total]
  have : (LatencyHistogram.new m).total = 0 := rfl
  rw [this]
  positivity

/-- C3, witness: the 25th and the 75th percentile of three samples. -/
theorem percentile_mono_witness :
    ((LatencyHistogram.new 3).addAll [1, 1, 7]).percentile (.fin 25)
      ≤ ((LatencyHistogram.new 3).addAll [1, 1, 7]).percentile (.fin 75) :=
  percentile_mono 3 (by decide) (by decide) [1, 1, 7] (.fin 25) (.fin 75) (by simp [Dbl.le]; norm_num)

/-! ## C4: histogram mass -/

/-- C4: for a histogram constructed with a ceiling `max_ms >= 0` (an `int32`)
and any sequence `ls` of `add` calls with arbitrary latencies, there are
`max_ms + 2` counters, their sum equals `count()`, and `count()` equals the
number of `add` calls; one further `add(l)` increases exactly one counter by
exactly 1 and changes no other. -/
theorem histogram_mass (m : Int) (hm0 : 0 ≤ m) (hm1 : m < 2 ^ 31) (ls : List Int) (l : Int) :
    (((LatencyHistogram.new m).addAll ls).buckets.length : Int) = m + 2 ∧
    ((LatencyHistogram.new m).addAll ls).buckets.sum = ((LatencyHistogram.new m).addAll ls).count ∧
    ((LatencyHistogram.new m).addAll ls).count = ls.length ∧
    ∃ idx, idx < ((LatencyHistogram.new m).addAll ls).buckets.length ∧
      (((LatencyHistogram.new m).addAll ls).add l).buckets.length
        = ((LatencyHistogram.new m).addAll ls).buckets.length ∧
      ∀ j, (((LatencyHistogram.new m).addAll ls).add l).buckets.getD j 0
        = ((LatencyHistogram.new m).addAll ls).buckets.getD j 0 + (if j = idx then 1 else 0) := by
  have hwf := addAll_WF _ (new_WF m hm0 hm1) ls
  have hsum0 : (LatencyHistogram.new m).buckets.sum = 0 := by
    rw [new_buckets m hm0 hm1]
    simp
  have htot : ((LatencyHistogram.new m).addAll ls).total = ls.length := by
    rw [addAll_total]
    show (0 : Int) + _ = _
    simp
  refine ⟨?_, ?_, htot, ?_⟩
  · rw [hwf.2, addAll_max_ms]
    rfl
  · rw [addAll_sum _ (new_WF m hm0 hm1), hsum0]
    show _ = ((LatencyHistogram.new m).addAll ls).total
    rw [htot]
    simp
  · refine ⟨((LatencyHistogram.new m).addAll ls).index l, index_lt _ hwf l, ?_, ?_⟩
    · exact length_bump _ _
    · intro j
      exact getD_bump _ _ j (index_lt _ hwf l)

/-- C4, witness: three samples (one negative, one above the ceiling 3). -/
theorem histogram_mass_witness :
    ((LatencyHistogram.new 3).addAll [-4, 2, 9]).buckets.sum
      = ((LatencyHistogram.new 3).addAll [-4, 2, 9]).count ∧
    ((LatencyHistogram.new 3).addAll [-4, 2, 9]).count = 3 :=
  ⟨(histogram_mass 3 (by decide) (by decide) [-4, 2, 9] 1).2.1,
   (histogram_mass 3 (by decide) (by decide) [-4, 2, 9] 1).2.2.1⟩

/-! ## Status counters and the endpoint map -/

theorem status_sum_add (s : StatusBuckets) (status : Int) : (s.add status).sum = s.sum + 1 := by
  unfold StatusBuckets.add StatusBuckets.sum
  split_ifs <;> simp only <;> ring

theorem status_add_comm (s : StatusBuckets) (a b : Int) : (s.add a).add b = (s.add b).add a := by
  unfold StatusBuckets.add
  split_ifs <;> rfl

theorem index_add (h : LatencyHistogram) (a b : Int) : (h.add a).index b = h.index b := by
  unfold LatencyHistogram.index LatencyHistogram.add
  simp only [length_bump]

theorem histogram_add_comm (h : LatencyHistogram) (a b : Int) :
    (h.add a).add b = (h.add b).add a := by
  have e1 := index_add h a b
  have e2 := index_add h b a
  unfold LatencyHistogram.add at e1 e2 ⊢
  simp only [e1, e2]
  rw [bump_comm]

theorem endpointStats_add_comm (x : EndpointStats) (r1 r2 : Record) :
    (x.add r1).add r2 = (x.add r2).add r1 := by
  unfold EndpointStats.add
  simp only
  rw [status_add_comm, histogram_add_comm]

theorem findEndpoint_update (key e : String) (f : EndpointStats → EndpointStats)
    (l : List (String × EndpointStats)) :
    findEndpoint e (updateEndpoint key f l)
      = if key = e then some (f ((findEndpoint e l).getD EndpointStats.new))
        else findEndpoint e l := by
  induction l with
  | nil =>
    simp only [updateEndpoint, findEndpoint]
    split_ifs <;> rfl
  | cons kv rest ih =>
    obtain ⟨k, v⟩ := kv
    by_cases hk : k = key
    · subst hk
      by_cases he : k = e
      · simp [updateEndpoint, findEndpoint, he]
      · simp [updateEndpoint, findEndpoint, he]
    · by_cases he : k = e
      · subst he
        have hke : ¬ (key = k) := fun h => hk h.symm
        simp [updateEndpoint, findEndpoint, hk, hke]
      · simp only [updateEndpoint, findEndpoint, if_neg hk, if_neg he]
        exact ih

theorem mem_updateEndpoint (P : EndpointStats → Prop) (key : String)
    (f : EndpointStats → EndpointStats) (hnew : P (f EndpointStats.new))
    (hf : ∀ v, P v → P (f v)) (l : List (String × EndpointStats))
    (hl : ∀ kv ∈ l, P kv.2) : ∀ kv ∈ updateEndpoint key f l, P kv.2 := by
  induction l with
  | nil =>
    intro kv hkv
    simp only [updateEndpoint, List.mem_singleton] at hkv
    rw [hkv]
    exact hnew
  | cons x rest ih =>
    obtain ⟨k, v⟩ := x
    intro kv hkv
    have hv : P v := hl (k, v) (List.mem_cons_self _ _)
    have hrest : ∀ kv ∈ rest, P kv.2 := fun kv h => hl kv (List.mem_cons_of_mem _ h)
    simp only [updateEndpoint] at hkv
    split_ifs at hkv with hk
    · rcases List.mem_cons.mp hkv with h | h
      · rw [h]
        exact hf v hv
      · exact hrest kv h
    · rcases List.mem_cons.mp hkv with h | h
      · rw [h]
        exact hv
      · exact ih hrest kv h

theorem findEndpoint_add (a : Aggregator) (r : Record) (e : String) :
    findEndpoint e (a.add r).endpoints
      = if r.endpoint = e then stepEntry (findEndpoint e a.endpoints) r
        else findEndpoint e a.endpoints := by
  unfold Aggregator.add Aggregator.endpoints stepEntry
  simp only
  rw [findEndpoint_update]

theorem findEndpoint_addAll (a : Aggregator) (rs : List Record) (e : String) :
    findEndpoint e (a.addAll rs).endpoints
      = (rs.filter (fun r => decide (r.endpoint = e))).foldl stepEntry
          (findEndpoint e a.endpoints) := by
  induction rs generalizing a with
  | nil => rfl
  | cons r rs ih =>
    have h1 : (a.addAll (r :: rs)) = (a.add r).addAll rs := rfl
    rw [h1, ih (a.add r), findEndpoint_add]
    by_cases he : r.endpoint = e
    · simp [List.filter_cons, he]
    · simp [List.filter_cons, he]

theorem aggregator_addAll_total (a : Aggregator) (rs : List Record) :
    (a.addAll rs).total = a.total + rs.length := by
  induction rs generalizing a with
  | nil => simp [Aggregator.addAll]
  | cons r rs ih =>
    have h1 : (a.addAll (r :: rs)) = (a.add r).addAll rs := rfl
    rw [h1, ih (a.add r)]
    show a.total + 1 + _ = _
    simp only [List.length_cons]
    push_cast
    ring

theorem aggregator_addAll_status (a : Aggregator) (rs : List Record) :
    (a.addAll rs).status_total = (rs.map Record.status).foldl StatusBuckets.add a.status_total := by
  induction rs generalizing a with
  | nil => rfl
  | cons r rs ih =>
    have h1 : (a.addAll (r :: rs)) = (a.add r).addAll rs := rfl
    rw [h1, ih (a.add r)]
    rfl

theorem aggregator_addAll_latency (a : Aggregator) (rs : List Record) :
    (a.addAll rs).latency_total = a.latency_total.addAll (rs.map Record.latency_ms) := by
  induction rs generalizing a with
  | nil => rfl
  | cons r rs ih =>
    have h1 : (a.addAll (r :: rs)) = (a.add r).addAll rs := rfl
    rw [h1, ih (a.add r)]
    rfl

theorem status_foldl_sum (s : StatusBuckets) (l : List Int) :
    (l.foldl StatusBuckets.add s).sum = s.sum + l.length := by
  induction l generalizing s with
  | nil => simp
  | cons x l ih =>
    simp only [List.foldl_cons, List.length_cons]
    rw [ih, status_sum_add]
    push_cast
    ring
/-! ## C5: status counters add up to the counts -/

theorem new_endpointStats_add_sum (r : Record) :
    (EndpointStats.new.add r).status.sum = (EndpointStats.new.add r).count := by
  show (StatusBuckets.empty.add r.status).sum = 0 + 1
  rw [status_sum_add]
  rfl

theorem endpointStats_add_sum (v : EndpointStats) (r : Record) (hv : v.status.sum = v.count) :
    (v.add r).status.sum = (v.add r).count := by
  show (v.status.add r.status).sum = v.count + 1
  rw [status_sum_add, hv]

theorem endpoints_sum_addAll (a : Aggregator) (rs : List Record)
    (ha : ∀ kv ∈ a.endpoints, kv.2.status.sum = kv.2.count) :
    ∀ kv ∈ (a.addAll rs).endpoints, kv.2.status.sum = kv.2.count := by
  induction rs generalizing a with
  | nil => exact ha
  | cons r rs ih =>
    apply ih (a.add r)
    exact mem_updateEndpoint (fun v => v.status.sum = v.count) r.endpoint (fun ep => ep.add r)
      (new_endpointStats_add_sum r) (fun v hv => endpointStats_add_sum v r hv) a.by_endpoint ha

/-- C5: after any sequence of `Aggregator::add` calls, and so after every
prefix `rs.take n` of a stream `rs`, the five counters of `total_status()` add
up to `total_requests()`, and for every entry of `endpoints()` the five status
counters add up to that entry's `count`. -/
theorem status_sum_invariant (rs : List Record) (n : Nat) :
    (Aggregator.new.addAll (rs.take n)).total_status.sum
        = (Aggregator.new.addAll (rs.take n)).total_requests ∧
    ∀ kv ∈ (Aggregator.new.addAll (rs.take n)).endpoints, kv.2.status.sum = kv.2.count := by
  refine ⟨?_, ?_⟩
  · show (Aggregator.new.addAll (rs.take n)).status_total.sum
        = (Aggregator.new.addAll (rs.take n)).total
    rw [aggregator_addAll_status, aggregator_addAll_total, status_foldl_sum]
    simp [Aggregator.new, StatusBuckets.empty, StatusBuckets.sum]
  · apply endpoints_sum_addAll
    intro kv hkv
    simp [Aggregator.new, Aggregator.endpoints] at hkv

/-- C5, witness: the first two of three records; the global counters and the
entry of `/api/pay`. -/
theorem status_sum_invariant_witness :
    (Aggregator.new.addAll (sampleRows.take 2)).total_status.sum
        = (Aggregator.new.addAll (sampleRows.take 2)).total_requests ∧
    (("/api/pay", EndpointStats.new.add ⟨"2024-01-01T00:00:00Z", "checkout", "/api/pay", 200, 120⟩)
        ∈ (Aggregator.new.addAll (sampleRows.take 2)).endpoints) ∧
    (EndpointStats.new.add ⟨"2024-01-01T00:00:00Z", "checkout", "/api/pay", 200, 120⟩).status.sum
        = (EndpointStats.new.add ⟨"2024-01-01T00:00:00Z", "checkout", "/api/pay", 200, 120⟩).count :=
  ⟨(status_sum_invariant sampleRows 2).1,
   by simp [sampleRows, Aggregator.addAll, Aggregator.add, Aggregator.new, Aggregator.endpoints,
        updateEndpoint],
   (status_sum_invariant sampleRows 2).2
     ("/api/pay", EndpointStats.new.add ⟨"2024-01-01T00:00:00Z", "checkout", "/api/pay", 200, 120⟩)
     (by simp [sampleRows, Aggregator.addAll, Aggregator.add, Aggregator.new, Aggregator.endpoints,
        updateEndpoint])⟩

/-! ## C6: status classification -/

/-- C6: `StatusBuckets::add(status)` is defined for every status value and
adds 1 to exactly one counter: `s2xx` iff `200 <= status <= 299`, `s3xx` iff
`300 <= status <= 399`, `s4xx` iff `400 <= status <= 499`, `s5xx` iff
`500 <= status <= 599`, `other` iff the status is below 200 or at least 600;
the other four counters are unchanged, so the sum grows by 1. Adding the
statuses 200, 404, 500 to an empty aggregator gives the counters
`{1, 0, 1, 1, 0}` and `total_requests() == 3`. -/
theorem status_classification (s : StatusBuckets) (status : Int) :
    (s.add status).s2xx = s.s2xx + (if 200 ≤ status ∧ status ≤ 299 then 1 else 0) ∧
    (s.add status).s3xx = s.s3xx + (if 300 ≤ status ∧ status ≤ 399 then 1 else 0) ∧
    (s.add status).s4xx = s.s4xx + (if 400 ≤ status ∧ status ≤ 499 then 1 else 0) ∧
    (s.add status).s5xx = s.s5xx + (if 500 ≤ status ∧ status ≤ 599 then 1 else 0) ∧
    (s.add status).other = s.other + (if status < 200 ∨ 600 ≤ status then 1 else 0) ∧
    (s.add status).sum = s.sum + 1 ∧
    (Aggregator.new.addAll sampleRows).total_status = ⟨1, 0, 1, 1, 0⟩ ∧
    (Aggregator.new.addAll sampleRows).total_requests = 3 := by
  refine ⟨?_, ?_, ?_, ?_, ?_, status_sum_add s status, ?_, ?_⟩
  · unfold StatusBuckets.add
    split_ifs <;> simp only <;> omega
  · unfold StatusBuckets.add
    split_ifs <;> simp only <;> omega
  · unfold StatusBuckets.add
    split_ifs <;> simp only <;> omega
  · unfold StatusBuckets.add
    split_ifs <;> simp only <;> omega
  · unfold StatusBuckets.add
    split_ifs <;> simp only <;> omega
  · show (Aggregator.new.addAll sampleRows).status_total = _
    rw [aggregator_addAll_status]
    decide
  · show (Aggregator.new.addAll sampleRows).total = _
    rw [aggregator_addAll_total]
    decide

/-! ## C7: negative latencies -/

theorem fl_half : fl (1 / 2) = 1 / 2 := by
  rw [fl_eq_of_near (-1) (2 ^ 52) (by norm_num) (by norm_num) (by norm_num) (by norm_num)
    (by norm_num)]
  norm_num

theorem fl_one : fl 1 = 1 := by
  rw [fl_eq_of_near 0 (2 ^ 52) (by norm_num) (by norm_num) (by norm_num) (by norm_num)
    (by norm_num)]
  norm_num

theorem targetRank_50_1 : targetRank 50 1 = 1 := by
  unfold targetRank
  have e : (50 : ℚ) / 100 = 1 / 2 := by norm_num
  rw [e, fl_half]
  push_cast
  rw [fl_one]
  have e2 : (1 : ℚ) / 2 * 1 = 1 / 2 := by norm_num
  rw [e2, fl_half]
  have : ⌈(1 : ℚ) / 2⌉ = 1 := by
    rw [Int.ceil_eq_iff]
    norm_num
  rw [this]
  rfl

theorem one_le_targetRank (p : ℚ) (total : Int) : 1 ≤ targetRank p total :=
  le_max_left _ _

theorem index_of_neg (h : LatencyHistogram) (hwf : h.WF) (l : Int) (hl : l ≤ 0) :
    h.index l = 0 := by
  obtain ⟨h0, _⟩ := hwf
  unfold LatencyHistogram.index
  simp only
  split_ifs <;> omega

/-- C7: for every constructed histogram with `max_ms >= 0` and every latency
`l < 0`, `add(l)` gives exactly the state `add(0)` gives: bucket 0 and `total`
are incremented by 1 and nothing else changes. A histogram (of any ceiling
`m >= 0`) holding the single sample `-5` returns `percentile(50) == 0`. -/
theorem negative_latency_bucket_zero (h : LatencyHistogram) (hwf : h.WF) (l : Int) (hl : l < 0)
    (m : Int) (hm0 : 0 ≤ m) (hm1 : m < 2 ^ 31) :
    h.add l = h.add 0 ∧
    (h.add l).total = h.total + 1 ∧
    (h.add l).max_ms = h.max_ms ∧
    (h.add l).buckets.length = h.buckets.length ∧
    (∀ j, (h.add l).buckets.getD j 0 = h.buckets.getD j 0 + (if j = 0 then 1 else 0)) ∧
    ((LatencyHistogram.new m).add (-5)).percentile (.fin 50) = 0 := by
  have hi : h.index l = 0 := index_of_neg h hwf l (le_of_lt hl)
  have hi0 : h.index 0 = 0 := index_of_neg h hwf 0 le_rfl
  have hlen : 0 < h.buckets.length := by
    have := hwf.2
    have := hwf.1
    omega
  refine ⟨?_, rfl, rfl, ?_, ?_, ?_⟩
  · unfold LatencyHistogram.add
    rw [hi, hi0]
  · exact length_bump _ _
  · intro j
    show (bump h.buckets (h.index l)).getD j 0 = _
    rw [hi]
    exact getD_bump _ 0 j hlen
  · have hwfm := new_WF m hm0 hm1
    have hs : (LatencyHistogram.new m).add (-5)
        = ⟨m, 1 :: List.replicate (m.toNat + 1) 0, 1⟩ := by
      unfold LatencyHistogram.add
      rw [index_of_neg _ hwfm (-5) (by norm_num), new_buckets m hm0 hm1, List.replicate_succ]
      rfl
    rw [hs, percentile_fin _ (by simp) 50 (by norm_num) (by norm_num)]
    show LatencyHistogram.walk _ (targetRank 50 1) = 0
    rw [targetRank_50_1]
    simp [LatencyHistogram.walk, percentileLoop]

/-- C7, witness: the sample `-5` in a histogram that already holds a sample,
and the single sample `-5` under the default ceiling 5000. -/
theorem negative_latency_bucket_zero_witness :
    ((LatencyHistogram.new 3).add 2).add (-5) = ((LatencyHistogram.new 3).add 2).add 0 ∧
    ((LatencyHistogram.new 5000).add (-5)).percentile (.fin 50) = 0 :=
  ⟨(negative_latency_bucket_zero ((LatencyHistogram.new 3).add 2)
      (add_WF _ (new_WF 3 (by decide) (by decide)) 2) (-5) (by decide) 5000 (by decide)
      (by decide)).1,
   (negative_latency_bucket_zero ((LatencyHistogram.new 3).add 2)
      (add_WF _ (new_WF 3 (by decide) (by decide)) 2) (-5) (by decide) 5000 (by decide)
      (by decide)).2.2.2.2.2⟩
/-! ## C8: the overflow bucket -/

theorem index_of_gt (h : LatencyHistogram) (hwf : h.WF) (l : Int) (hl : h.max_ms < l) :
    h.index l = h.max_ms.toNat + 1 := by
  obtain ⟨h0, hlen⟩ := hwf
  unfold LatencyHistogram.index
  simp only
  split_ifs <;> omega

theorem index_of_max (h : LatencyHistogram) (hwf : h.WF) : h.index h.max_ms = h.max_ms.toNat := by
  obtain ⟨h0, hlen⟩ := hwf
  unfold LatencyHistogram.index
  simp only
  split_ifs <;> omega

theorem bump_nonneg (bs : List Int) (i : Nat) (hb : ∀ b ∈ bs, 0 ≤ b) :
    ∀ b ∈ bump bs i, 0 ≤ b := by
  induction bs generalizing i with
  | nil => intro b hb2; simp [bump] at hb2
  | cons x bs ih =>
    have hx : 0 ≤ x := hb x (List.mem_cons_self _ _)
    have hbs : ∀ b ∈ bs, 0 ≤ b := fun b h => hb b (List.mem_cons_of_mem _ h)
    cases i with
    | zero =>
      intro b hb2
      simp only [bump, List.mem_cons] at hb2
      rcases hb2 with h | h
      · omega
      · exact hbs b h
    | succ i =>
      intro b hb2
      simp only [bump, List.mem_cons] at hb2
      rcases hb2 with h | h
      · omega
      · exact ih i hbs b h

theorem addAll_nonneg (h : LatencyHistogram) (hb : ∀ b ∈ h.buckets, 0 ≤ b) (ls : List Int) :
    ∀ b ∈ (h.addAll ls).buckets, 0 ≤ b := by
  induction ls generalizing h with
  | nil => exact hb
  | cons l ls ih => exact ih (h.add l) (bump_nonneg _ _ hb)

theorem new_nonneg (m : Int) : ∀ b ∈ (LatencyHistogram.new m).buckets, 0 ≤ b := by
  intro b hb
  have := List.eq_of_mem_replicate hb
  omega

theorem sum_take_le_succ (bs : List Int) (hb : ∀ b ∈ bs, 0 ≤ b) (n : Nat) :
    (bs.take n).sum ≤ (bs.take (n + 1)).sum := by
  induction bs generalizing n with
  | nil => simp
  | cons x bs ih =>
    have hx : 0 ≤ x := hb x (List.mem_cons_self _ _)
    have hbs : ∀ b ∈ bs, 0 ≤ b := fun b h => hb b (List.mem_cons_of_mem _ h)
    cases n with
    | zero => simp; exact hx
    | succ n =>
      have := ih hbs n
      simp only [List.take_succ_cons, List.sum_cons]
      linarith

theorem cumulative_mono (bs : List Int) (hb : ∀ b ∈ bs, 0 ≤ b) (i j : Nat) (hij : i ≤ j) :
    cumulative bs i ≤ cumulative bs j := by
  induction j with
  | zero =>
    have : i = 0 := by omega
    rw [this]
  | succ j ih =>
    rcases Nat.eq_or_lt_of_le hij with h | h
    · rw [h]
    · have h1 := ih (by omega)
      have h2 := sum_take_le_succ bs hb (j + 1)
      unfold cumulative at *
      linarith

theorem walk_overflow (h : LatencyHistogram) (hwf : h.WF) (hb : ∀ b ∈ h.buckets, 0 ≤ b) (k : Int)
    (hk : cumulative h.buckets h.max_ms.toNat < k) : h.walk k = h.max_ms := by
  rcases walk_isRankPercentile h hwf k with ⟨i, hi, hge, _, _⟩ | ⟨_, hv⟩
  · exfalso
    have := cumulative_mono h.buckets hb i h.max_ms.toNat (by have := hwf.1; omega)
    linarith
  · exact hv

/-- C8, as amended: in a histogram constructed with a ceiling `m >= 0` and
filled by any sequence of `add` calls (none included), `add(l)` with
`l > max_ms` increments only the last counter (index `max_ms + 1`, the
overflow bucket) and `total`, leaving the counters `0..max_ms` unchanged;
`add(max_ms)` increments counter `max_ms`, not the overflow bucket; and when
the histogram holds at least one sample, every `p` in `(0, 100)` whose target
rank (as the code computes it) exceeds the cumulative count of the buckets
`0..max_ms` gets `percentile(p) == max_ms`. -/
theorem overflow_bucket (m : Int) (hm0 : 0 ≤ m) (hm1 : m < 2 ^ 31) (ls : List Int) :
    (∀ l : Int, m < l →
      (((LatencyHistogram.new m).addAll ls).add l).total
        = ((LatencyHistogram.new m).addAll ls).total + 1 ∧
      (((LatencyHistogram.new m).addAll ls).add l).buckets.length = m.toNat + 2 ∧
      ∀ j, (((LatencyHistogram.new m).addAll ls).add l).buckets.getD j 0
        = ((LatencyHistogram.new m).addAll ls).buckets.getD j 0
          + (if j = m.toNat + 1 then 1 else 0)) ∧
    ((((LatencyHistogram.new m).addAll ls).add m).total
        = ((LatencyHistogram.new m).addAll ls).total + 1 ∧
      (((LatencyHistogram.new m).addAll ls).add m).buckets.length = m.toNat + 2 ∧
      ∀ j, (((LatencyHistogram.new m).addAll ls).add m).buckets.getD j 0
        = ((LatencyHistogram.new m).addAll ls).buckets.getD j 0
          + (if j = m.toNat then 1 else 0)) ∧
    (∀ p : ℚ, 0 < p → p < 100 → 0 < ((LatencyHistogram.new m).addAll ls).count →
      cumulative ((LatencyHistogram.new m).addAll ls).buckets m.toNat
        < targetRank p ((LatencyHistogram.new m).addAll ls).total →
      ((LatencyHistogram.new m).addAll ls).percentile (.fin p) = m) := by
  have hwf := addAll_WF _ (new_WF m hm0 hm1) ls
  have hmax : ((LatencyHistogram.new m).addAll ls).max_ms = m := addAll_max_ms _ ls
  have hnn := addAll_nonneg _ (new_nonneg m) ls
  have hlen : ((LatencyHistogram.new m).addAll ls).buckets.length = m.toNat + 2 := by
    have := hwf.2
    rw [hmax] at this
    omega
  refine ⟨?_, ⟨rfl, ?_, ?_⟩, ?_⟩
  · intro l hl
    refine ⟨rfl, ?_, ?_⟩
    · show (bump _ _).length = _
      rw [length_bump, hlen]
    · intro j
      have hi := index_of_gt _ hwf l (by rw [hmax]; exact hl)
      rw [hmax] at hi
      show (bump _ (LatencyHistogram.index _ l)).getD j 0 = _
      rw [hi]
      exact getD_bump _ _ j (by rw [hlen]; omega)
  · show (bump _ _).length = _
    rw [length_bump, hlen]
  · intro j
    have hi := index_of_max _ hwf
    rw [hmax] at hi
    show (bump _ (LatencyHistogram.index _ m)).getD j 0 = _
    rw [hi]
    exact getD_bump _ _ j (by rw [hlen]; omega)
  · intro p hp0 hp1 hc hk
    have ht : ((LatencyHistogram.new m).addAll ls).total ≠ 0 := by
      have : 0 < ((LatencyHistogram.new m).addAll ls).total := hc
      omega
    rw [percentile_fin _ ht p hp0 hp1]
    have := walk_overflow _ hwf hnn _ (by rw [hmax]; exact hk)
    rw [this, hmax]

theorem targetRank_50_2 : targetRank 50 2 = 1 := by
  unfold targetRank
  have e : (50 : ℚ) / 100 = 1 / 2 := by norm_num
  have f2 : fl 2 = 2 := by
    rw [fl_eq_of_near 1 (2 ^ 52) (by norm_num) (by norm_num) (by norm_num) (by norm_num)
      (by norm_num)]
    norm_num
  rw [e, fl_half]
  push_cast
  rw [f2]
  have e2 : (1 : ℚ) / 2 * 2 = 1 := by norm_num
  rw [e2, fl_one]
  simp

/-- C8, witness: under the ceiling 3, the first sample above the ceiling on an
empty histogram and on one holding the in-range samples 1 and 2 raises
counter 4, the overflow bucket; the sample 3 raises counter 3; and with the
samples 7 and 9, both above the ceiling, the median is reported as 3. -/
theorem overflow_bucket_witness :
    (((LatencyHistogram.new 3).addAll []).add 4).buckets.getD 4 0
      = ((LatencyHistogram.new 3).addAll []).buckets.getD 4 0 + (if 4 = (3 : Int).toNat + 1 then 1 else 0) ∧
    (((LatencyHistogram.new 3).addAll [1, 2]).add 4).buckets.getD 4 0
      = ((LatencyHistogram.new 3).addAll [1, 2]).buckets.getD 4 0 + (if 4 = (3 : Int).toNat + 1 then 1 else 0) ∧
    (((LatencyHistogram.new 3).addAll [1, 2]).add 3).buckets.getD 3 0
      = ((LatencyHistogram.new 3).addAll [1, 2]).buckets.getD 3 0 + (if 3 = (3 : Int).toNat then 1 else 0) ∧
    ((LatencyHistogram.new 3).addAll [7, 9]).buckets = [0, 0, 0, 0, 2] ∧
    ((LatencyHistogram.new 3).addAll [7, 9]).percentile (.fin 50) = 3 :=
  ⟨((overflow_bucket 3 (by decide) (by decide) []).1 4 (by decide)).2.2 4,
   ((overflow_bucket 3 (by decide) (by decide) [1, 2]).1 4 (by decide)).2.2 4,
   (overflow_bucket 3 (by decide) (by decide) [1, 2]).2.1.2.2 3,
   by decide,
   (overflow_bucket 3 (by decide) (by decide) [7, 9]).2.2 50 (by norm_num) (by norm_num)
      (by decide)
      (by
        have h1 : cumulative ((LatencyHistogram.new 3).addAll [7, 9]).buckets (3 : Int).toNat = 0 := by
          decide
        have h2 : ((LatencyHistogram.new 3).addAll [7, 9]).total = 2 := by decide
        rw [h1, h2, targetRank_50_2]
        decide)⟩

theorem new_5000_cumulative : cumulative (LatencyHistogram.new 5000).buckets 5000 = 0 := by
  rw [new_buckets 5000 (by norm_num) (by norm_num)]
  unfold cumulative
  rw [List.take_replicate, List.sum_replicate]
  simp

/-- C8, counterexample to the claim as stated: on the empty histogram of
ceiling 5000 the target rank of `p = 50` (1, in binary64 and in exact
arithmetic alike) exceeds the cumulative count 0 of the buckets `0..5000`, yet
`percentile(50)` is 0, not `max_ms = 5000`: line 36 returns before any bucket
is looked at. -/
theorem overflow_empty_counterexample :
    (LatencyHistogram.new 5000).WF ∧
    cumulative (LatencyHistogram.new 5000).buckets 5000
      < targetRank 50 (LatencyHistogram.new 5000).total ∧
    cumulative (LatencyHistogram.new 5000).buckets 5000
      < specTargetRank 50 (LatencyHistogram.new 5000).total ∧
    (LatencyHistogram.new 5000).percentile (.fin 50) = 0 ∧
    (LatencyHistogram.new 5000).percentile (.fin 50) ≠ (LatencyHistogram.new 5000).max_ms := by
  have hp : (LatencyHistogram.new 5000).percentile (.fin 50) = 0 := by
    have ht : (LatencyHistogram.new 5000).total = 0 := rfl
    unfold LatencyHistogram.percentile
    rw [if_pos ht]
  refine ⟨new_WF 5000 (by norm_num) (by norm_num), ?_, ?_, hp, ?_⟩
  · rw [new_5000_cumulative]
    have := one_le_targetRank 50 (LatencyHistogram.new 5000).total
    omega
  · rw [new_5000_cumulative]
    have : 1 ≤ specTargetRank 50 (LatencyHistogram.new 5000).total := le_max_left _ _
    omega
  · rw [hp]
    show (0 : Int) ≠ 5000
    decide

/-! ## C9: insertion-order independence -/

theorem histogram_addAll_perm (h : LatencyHistogram) (ls1 ls2 : List Int) (hl : ls1.Perm ls2) :
    h.addAll ls1 = h.addAll ls2 := by
  haveI : RightCommutative LatencyHistogram.add := ⟨histogram_add_comm⟩
  exact List.Perm.foldl_eq hl h

theorem status_foldl_perm (s : StatusBuckets) (l1 l2 : List Int) (hl : l1.Perm l2) :
    l1.foldl StatusBuckets.add s = l2.foldl StatusBuckets.add s := by
  haveI : RightCommutative StatusBuckets.add := ⟨status_add_comm⟩
  exact List.Perm.foldl_eq hl s

theorem stepEntry_comm (o : Option EndpointStats) (r1 r2 : Record) :
    stepEntry (stepEntry o r1) r2 = stepEntry (stepEntry o r2) r1 := by
  unfold stepEntry
  simp only [Option.getD_some]
  rw [endpointStats_add_comm]

theorem findEndpoint_addAll_perm (a : Aggregator) (rs1 rs2 : List Record) (hr : rs1.Perm rs2)
    (e : String) :
    findEndpoint e (a.addAll rs1).endpoints = findEndpoint e (a.addAll rs2).endpoints := by
  rw [findEndpoint_addAll, findEndpoint_addAll]
  haveI : RightCommutative stepEntry := ⟨stepEntry_comm⟩
  exact List.Perm.foldl_eq (hr.filter _) _

/-- C9: adding a list of latencies and any permutation of it to two fresh
histograms of the same ceiling `m >= 0` gives the same state (counters and
total), so
`percentile(p)` agrees for every double `p`; adding a list of records and any
permutation of it to two fresh aggregators gives the same `total_requests()`,
the same `total_status()`, the same `total_latency()` state (so the same
percentiles) and, for every endpoint, the same entry of `endpoints()` (or no
entry in both). -/
theorem insertion_order_independent (m : Int) (hm0 : 0 ≤ m) (hm1 : m < 2 ^ 31)
    (ls1 ls2 : List Int) (hl : ls1.Perm ls2) (rs1 rs2 : List Record) (hr : rs1.Perm rs2) :
    (LatencyHistogram.new m).addAll ls1 = (LatencyHistogram.new m).addAll ls2 ∧
    (∀ p : Dbl, ((LatencyHistogram.new m).addAll ls1).percentile p
        = ((LatencyHistogram.new m).addAll ls2).percentile p) ∧
    (Aggregator.new.addAll rs1).total_requests = (Aggregator.new.addAll rs2).total_requests ∧
    (Aggregator.new.addAll rs1).total_status = (Aggregator.new.addAll rs2).total_status ∧
    (Aggregator.new.addAll rs1).total_latency = (Aggregator.new.addAll rs2).total_latency ∧
    (∀ p : Dbl, (Aggregator.new.addAll rs1).total_latency.percentile p
        = (Aggregator.new.addAll rs2).total_latency.percentile p) ∧
    (∀ e : String, findEndpoint e (Aggregator.new.addAll rs1).endpoints
        = findEndpoint e (Aggregator.new.addAll rs2).endpoints) := by
  have _hwf : (LatencyHistogram.new m).WF := new_WF m hm0 hm1
  have h1 := histogram_addAll_perm (LatencyHistogram.new m) ls1 ls2 hl
  have h2 : (Aggregator.new.addAll rs1).total_latency = (Aggregator.new.addAll rs2).total_latency := by
    show (Aggregator.new.addAll rs1).latency_total = (Aggregator.new.addAll rs2).latency_total
    rw [aggregator_addAll_latency, aggregator_addAll_latency]
    exact histogram_addAll_perm _ _ _ (hr.map _)
  refine ⟨h1, fun p => by rw [h1], ?_, ?_, h2, fun p => by rw [h2], ?_⟩
  · show (Aggregator.new.addAll rs1).total = (Aggregator.new.addAll rs2).total
    rw [aggregator_addAll_total, aggregator_addAll_total, hr.length_eq]
  · show (Aggregator.new.addAll rs1).status_total = (Aggregator.new.addAll rs2).status_total
    rw [aggregator_addAll_status, aggregator_addAll_status]
    exact status_foldl_perm _ _ _ (hr.map _)
  · intro e
    exact findEndpoint_addAll_perm _ rs1 rs2 hr e

/-- C9, witness: three latencies and three records, each in two orders. -/
theorem insertion_order_independent_witness :
    (LatencyHistogram.new 3).addAll [2, 9, -1] = (LatencyHistogram.new 3).addAll [-1, 2, 9] ∧
    findEndpoint "/api/pay" (Aggregator.new.addAll sampleRows).endpoints
      = findEndpoint "/api/pay" (Aggregator.new.addAll sampleRows.reverse).endpoints :=
  ⟨(insertion_order_independent 3 (by decide) (by decide) [2, 9, -1] [-1, 2, 9] (by decide)
      sampleRows sampleRows.reverse (List.reverse_perm sampleRows).symm).1,
   (insertion_order_independent 3 (by decide) (by decide) [2, 9, -1] [-1, 2, 9] (by decide)
      sampleRows sampleRows.reverse (List.reverse_perm sampleRows).symm).2.2.2.2.2.2
      "/api/pay"⟩

/-! ## C10: per-endpoint rollup -/

theorem foldl_stepEntry_some (x : EndpointStats) (l : List Record) :
    ∃ st, l.foldl stepEntry (some x) = some st ∧ st.count = x.count + l.length ∧
      st.latency.count = x.latency.count + l.length := by
  induction l generalizing x with
  | nil => exact ⟨x, rfl, by simp, by simp⟩
  | cons r l ih =>
    obtain ⟨st, h1, h2, h3⟩ := ih (x.add r)
    refine ⟨st, ?_, ?_, ?_⟩
    · simpa [List.foldl_cons, stepEntry] using h1
    · rw [h2]
      show x.count + 1 + _ = _
      simp only [List.length_cons]
      push_cast
      ring
    · rw [h3]
      show x.latency.total + 1 + _ = x.latency.total + _
      simp only [List.length_cons]
      push_cast
      ring

theorem foldl_stepEntry_none (l : List Record) :
    (l = [] ∧ l.foldl stepEntry none = none) ∨
    (l ≠ [] ∧ ∃ st, l.foldl stepEntry none = some st ∧ st.count = l.length ∧
      st.latency.count = l.length) := by
  cases l with
  | nil => left; exact ⟨rfl, rfl⟩
  | cons r l =>
    right
    refine ⟨by simp, ?_⟩
    obtain ⟨st, h1, h2, h3⟩ := foldl_stepEntry_some (EndpointStats.new.add r) l
    refine ⟨st, ?_, ?_, ?_⟩
    · simpa [List.foldl_cons, stepEntry] using h1
    · rw [h2]
      show (0 : Int) + 1 + _ = _
      simp only [List.length_cons]
      push_cast
      ring
    · rw [h3]
      show (0 : Int) + 1 + _ = _
      simp only [List.length_cons]
      push_cast
      ring

theorem keys_updateEndpoint (key : String) (f : EndpointStats → EndpointStats)
    (l : List (String × EndpointStats)) :
    (updateEndpoint key f l).map Prod.fst
      = if key ∈ l.map Prod.fst then l.map Prod.fst else l.map Prod.fst ++ [key] := by
  induction l with
  | nil => simp [updateEndpoint]
  | cons kv rest ih =>
    obtain ⟨k, v⟩ := kv
    by_cases hk : k = key
    · subst hk
      simp [updateEndpoint]
    · have hk2 : ¬ (key = k) := fun h => hk h.symm
      simp only [updateEndpoint, if_neg hk, List.map_cons, ih, List.mem_cons, hk2, false_or]
      split_ifs <;> simp

theorem nodup_keys_updateEndpoint (key : String) (f : EndpointStats → EndpointStats)
    (l : List (String × EndpointStats)) (hl : (l.map Prod.fst).Nodup) :
    ((updateEndpoint key f l).map Prod.fst).Nodup := by
  rw [keys_updateEndpoint]
  split_ifs with h
  · exact hl
  · rw [List.nodup_append]
    refine ⟨hl, List.nodup_singleton _, ?_⟩
    intro a ha hb
    simp only [List.mem_singleton] at hb
    rw [hb] at ha
    exact h ha

theorem nodup_keys_addAll (a : Aggregator) (rs : List Record)
    (ha : (a.endpoints.map Prod.fst).Nodup) : ((a.addAll rs).endpoints.map Prod.fst).Nodup := by
  induction rs generalizing a with
  | nil => exact ha
  | cons r rs ih => exact ih (a.add r) (nodup_keys_updateEndpoint _ _ _ ha)

theorem findEndpoint_of_mem (l : List (String × EndpointStats)) (hl : (l.map Prod.fst).Nodup)
    (k : String) (v : EndpointStats) (hkv : (k, v) ∈ l) : findEndpoint k l = some v := by
  induction l with
  | nil => simp at hkv
  | cons x rest ih =>
    obtain ⟨k2, v2⟩ := x
    simp only [List.map_cons, List.nodup_cons] at hl
    rcases List.mem_cons.mp hkv with h | h
    · have h1 : k = k2 := (Prod.mk.inj h).1
      have h2 : v = v2 := (Prod.mk.inj h).2
      simp [findEndpoint, h1, h2]
    · have hne : ¬ (k2 = k) := by
        intro hk
        apply hl.1
        rw [hk]
        exact List.mem_map.mpr ⟨(k, v), h, rfl⟩
      simp only [findEndpoint, if_neg hne]
      exact ih hl.2 h

theorem mem_of_findEndpoint (l : List (String × EndpointStats)) (k : String) (v : EndpointStats)
    (h : findEndpoint k l = some v) : (k, v) ∈ l := by
  induction l with
  | nil => simp [findEndpoint] at h
  | cons x rest ih =>
    obtain ⟨k2, v2⟩ := x
    simp only [findEndpoint] at h
    split_ifs at h with hk
    · have : v2 = v := Option.some.inj h
      rw [hk, this]
      exact List.mem_cons_self _ _
    · exact List.mem_cons_of_mem _ (ih h)

theorem findEndpoint_new_addAll (rs : List Record) (e : String) :
    findEndpoint e (Aggregator.new.addAll rs).endpoints
      = (rs.filter (fun r => decide (r.endpoint = e))).foldl stepEntry none := by
  rw [findEndpoint_addAll]
  rfl

theorem length_filter_endpoint (rs : List Record) (e : String) :
    (rs.filter (fun r => decide (r.endpoint = e))).length
      = rs.countP (fun r => decide (r.endpoint = e)) := by
  rw [List.countP_eq_length_filter]

theorem findEndpoint_some_iff_mem_keys (l : List (String × EndpointStats)) (e : String) :
    (∃ st, findEndpoint e l = some st) ↔ e ∈ l.map Prod.fst := by
  induction l with
  | nil => simp [findEndpoint]
  | cons x rest ih =>
    obtain ⟨k, v⟩ := x
    by_cases hk : k = e
    · simp [findEndpoint, hk]
    · have hk2 : ¬ (e = k) := fun h => hk h.symm
      simp only [findEndpoint, if_neg hk, List.map_cons, List.mem_cons, hk2, false_or]
      exact ih

theorem entry_of_new_addAll (rs : List Record) (e : String) :
    ((∃ st, findEndpoint e (Aggregator.new.addAll rs).endpoints = some st) ↔
        ∃ x ∈ rs, x.endpoint = e) ∧
    ∀ st, findEndpoint e (Aggregator.new.addAll rs).endpoints = some st →
      st.count = rs.countP (fun r => decide (r.endpoint = e)) ∧
      st.latency.count = rs.countP (fun r => decide (r.endpoint = e)) := by
  rw [findEndpoint_new_addAll, ← length_filter_endpoint]
  rcases foldl_stepEntry_none (rs.filter (fun r => decide (r.endpoint = e))) with
    ⟨hnil, hnone⟩ | ⟨hne, st, hsome, hc, hl⟩
  · rw [hnone]
    refine ⟨⟨fun ⟨st, h⟩ => by simp at h, ?_⟩, fun st h => by simp at h⟩
    rintro ⟨x, hx, hxe⟩
    have : x ∈ rs.filter (fun r => decide (r.endpoint = e)) := by
      simp [List.mem_filter, hx, hxe]
    rw [hnil] at this
    simp at this
  · rw [hsome]
    refine ⟨⟨fun _ => ?_, fun _ => ⟨st, rfl⟩⟩, ?_⟩
    · obtain ⟨x, hx⟩ := List.exists_mem_of_ne_nil _ hne
      rw [List.mem_filter] at hx
      exact ⟨x, hx.1, by simpa using hx.2⟩
    · intro st2 h2
      have : st = st2 := Option.some.inj h2
      rw [← this]
      exact ⟨hc, hl⟩

/-- C10: after adding any list `rs` of records to a fresh aggregator,
`endpoints()` has an entry for the endpoint `e` if and only if some record of
`rs` has the endpoint `e`; there is one entry per endpoint; the `count` of the
entry of `e`, and the `count()` of its latency histogram, equal the number of
records of `rs` whose endpoint is `e`. A further `add` on any aggregator keeps
every key that `endpoints()` had. With ten rows of which seven have the
endpoint `/api/pay`, the `count` of `endpoints()["/api/pay"]` is 7. -/
theorem endpoint_rollup (rs : List Record) (e : String) (a : Aggregator) (r : Record) :
    (e ∈ (Aggregator.new.addAll rs).endpoints.map Prod.fst ↔ ∃ x ∈ rs, x.endpoint = e) ∧
    ((Aggregator.new.addAll rs).endpoints.map Prod.fst).Nodup ∧
    (∀ st, (e, st) ∈ (Aggregator.new.addAll rs).endpoints →
      findEndpoint e (Aggregator.new.addAll rs).endpoints = some st ∧
      st.count = rs.countP (fun x => decide (x.endpoint = e)) ∧
      st.latency.count = rs.countP (fun x => decide (x.endpoint = e))) ∧
    (∀ k ∈ a.endpoints.map Prod.fst, k ∈ (a.add r).endpoints.map Prod.fst) ∧
    tenRows.length = 10 ∧
    tenRows.countP (fun x => decide (x.endpoint = "/api/pay")) = 7 ∧
    (findEndpoint "/api/pay" (Aggregator.new.addAll tenRows).endpoints).map EndpointStats.count
      = some 7 := by
  have hnd : ((Aggregator.new.addAll rs).endpoints.map Prod.fst).Nodup :=
    nodup_keys_addAll Aggregator.new rs (by simp [Aggregator.new, Aggregator.endpoints])
  have h7 : tenRows.countP (fun x => decide (x.endpoint = "/api/pay")) = 7 := by decide
  refine ⟨?_, hnd, ?_, ?_, rfl, h7, ?_⟩
  · rw [← findEndpoint_some_iff_mem_keys]
    exact (entry_of_new_addAll rs e).1
  · intro st hst
    have hf := findEndpoint_of_mem _ hnd e st hst
    exact ⟨hf, (entry_of_new_addAll rs e).2 st hf⟩
  · intro k hk
    show k ∈ (updateEndpoint r.endpoint (fun ep => ep.add r) a.by_endpoint).map Prod.fst
    rw [keys_updateEndpoint]
    split_ifs
    · exact hk
    · exact List.mem_append_left _ hk
  · obtain ⟨hex, hcount⟩ := entry_of_new_addAll tenRows "/api/pay"
    obtain ⟨st, hst⟩ := hex.mpr ⟨row "/api/pay" 200 120, by simp [tenRows], rfl⟩
    rw [hst]
    have := (hcount st hst).1
    rw [h7] at this
    simp [this]

/-- C10, witness: the three sample rows; `/api/pay` occurs in two of them. -/
theorem endpoint_rollup_witness :
    ("/api/pay" ∈ (Aggregator.new.addAll sampleRows).endpoints.map Prod.fst) ∧
    ("/api/pay" ∈ ((Aggregator.new.addAll sampleRows).add (row "/api/items" 200 3)).endpoints.map
      Prod.fst) :=
  ⟨(endpoint_rollup sampleRows "/api/pay" Aggregator.new (row "/api/items" 200 3)).1.mpr
      ⟨⟨"2024-01-01T00:00:00Z", "checkout", "/api/pay", 200, 120⟩, by simp [sampleRows], rfl⟩,
   (endpoint_rollup sampleRows "/api/pay" (Aggregator.new.addAll sampleRows)
      (row "/api/items" 200 3)).2.2.2.1 "/api/pay"
      ((endpoint_rollup sampleRows "/api/pay" Aggregator.new (row "/api/items" 200 3)).1.mpr
        ⟨⟨"2024-01-01T00:00:00Z", "checkout", "/api/pay", 200, 120⟩, by simp [sampleRows], rfl⟩)⟩

/-! ## The splitter -/

theorem dquote_ne_comma : dquote ≠ comma := by decide

theorem splitLoop_quoted_other (c : Char) (hc : c ≠ dquote) (tl field : List Char)
    (out : List (List Char)) :
    splitLoop (c :: tl) true field out = splitLoop tl true (field ++ [c]) out := by
  cases tl with
  | nil => simp [splitLoop, hc]
  | cons d tl => simp [splitLoop, hc]

theorem splitLoop_quoted_escaped (tl field : List Char) (out : List (List Char)) :
    splitLoop (dquote :: dquote :: tl) true field out
      = splitLoop tl true (field ++ [dquote]) out := by
  simp [splitLoop]

theorem splitLoop_quoted_close (tl field : List Char) (out : List (List Char))
    (htl : ∀ d, tl.head? = some d → d ≠ dquote) :
    splitLoop (dquote :: tl) true field out = splitLoop tl false field out := by
  cases tl with
  | nil => simp [splitLoop]
  | cons d tl =>
    have hd : d ≠ dquote := htl d rfl
    simp [splitLoop, hd]

theorem splitLoop_open (tl field : List Char) (out : List (List Char)) :
    splitLoop (dquote :: tl) false field out = splitLoop tl true field out := by
  simp [splitLoop]

theorem splitLoop_comma (tl field : List Char) (out : List (List Char)) :
    splitLoop (comma :: tl) false field out
      = splitLoop tl false [] (out ++ [trim_inplace field]) := by
  have h : comma ≠ dquote := fun h => dquote_ne_comma h.symm
  simp [splitLoop, h]

theorem splitLoop_plain (c : Char) (h1 : c ≠ dquote) (h2 : c ≠ comma) (tl field : List Char)
    (out : List (List Char)) :
    splitLoop (c :: tl) false field out = splitLoop tl false (field ++ [c]) out := by
  simp [splitLoop, h1, h2]

/-! ## Trimming -/

theorem noEdgeSpace_trim (s : List Char) : NoEdgeSpace (trim_inplace s) := by
  unfold NoEdgeSpace trim_inplace
  refine ⟨?_, ?_⟩
  · intro c hc
    have hpre : (s.dropWhile isspace).rdropWhile isspace <+: s.dropWhile isspace :=
      List.rdropWhile_prefix isspace _
    obtain ⟨t, ht⟩ := hpre
    have hne : (s.dropWhile isspace).rdropWhile isspace ≠ [] := by
      intro h
      rw [h] at hc
      simp at hc
    have hh : (s.dropWhile isspace).head? = some c := by
      rw [← ht, List.head?_append_of_ne_nil _ hne]
      exact hc
    have := List.head?_dropWhile_not isspace s
    rw [hh] at this
    simpa using this
  · intro c hc
    have hne : (s.dropWhile isspace).rdropWhile isspace ≠ [] := by
      intro h
      rw [h] at hc
      simp at hc
    have h1 := List.rdropWhile_last_not isspace (s.dropWhile isspace) hne
    have h2 : ((s.dropWhile isspace).rdropWhile isspace).getLast? = some (((s.dropWhile isspace).rdropWhile isspace).getLast hne) :=
      List.getLast?_eq_getLast _ hne
    rw [h2] at hc
    have : ((s.dropWhile isspace).rdropWhile isspace).getLast hne = c := Option.some.inj hc
    rw [this] at h1
    simpa using h1

theorem trim_eq_self (f : List Char) (hf : NoEdgeSpace f) : trim_inplace f = f := by
  obtain ⟨hhead, hlast⟩ := hf
  unfold trim_inplace
  have h1 : f.dropWhile isspace = f := by
    cases f with
    | nil => rfl
    | cons c cs =>
      have := hhead c rfl
      simp [List.dropWhile_cons, this]
  rw [h1, List.rdropWhile_eq_self_iff]
  intro hl
  have := hlast (f.getLast hl) (List.getLast?_eq_getLast _ hl)
  simp [this]

theorem trim_decompose (s : List Char) :
    ∃ pre post, s = pre ++ trim_inplace s ++ post ∧ (∀ c ∈ pre, isspace c = true) ∧
      (∀ c ∈ post, isspace c = true) := by
  obtain ⟨post, hpost⟩ := List.rdropWhile_prefix isspace (s.dropWhile isspace)
  refine ⟨s.takeWhile isspace, post, ?_, ?_, ?_⟩
  · unfold trim_inplace
    rw [List.append_assoc, hpost, List.takeWhile_append_dropWhile]
  · intro c hc
    exact List.mem_takeWhile_imp hc
  · intro c hc
    -- the suffix removed by `rdropWhile` consists of whitespace
    have hrev : (s.dropWhile isspace).reverse
        = post.reverse ++ ((s.dropWhile isspace).rdropWhile isspace).reverse := by
      rw [← List.reverse_append, hpost]
    have hdw : ((s.dropWhile isspace).rdropWhile isspace).reverse
        = (s.dropWhile isspace).reverse.dropWhile isspace := by
      simp [List.rdropWhile]
    have hlen : post.reverse = (s.dropWhile isspace).reverse.takeWhile isspace := by
      have h3 := List.takeWhile_append_dropWhile isspace (s.dropWhile isspace).reverse
      rw [← hdw] at h3
      have h4 : post.reverse ++ ((s.dropWhile isspace).rdropWhile isspace).reverse
          = List.takeWhile isspace (s.dropWhile isspace).reverse
            ++ ((s.dropWhile isspace).rdropWhile isspace).reverse := by
        rw [← hrev, h3]
      exact List.append_cancel_right h4
    have hc2 : c ∈ post.reverse := List.mem_reverse.mpr hc
    rw [hlen] at hc2
    exact List.mem_takeWhile_imp hc2

/-! ## C11: quoting round trip -/

theorem scan_escaped (f acc : List Char) (out : List (List Char)) (rest : List Char)
    (hrest : ∀ d, rest.head? = some d → d ≠ dquote) :
    splitLoop (escapeQuotes f ++ dquote :: rest) true acc out
      = splitLoop rest false (acc ++ f) out := by
  induction f generalizing acc with
  | nil =>
    simp only [escapeQuotes, List.nil_append, List.append_nil]
    exact splitLoop_quoted_close rest acc out hrest
  | cons c cs ih =>
    by_cases hc : c = dquote
    · subst hc
      simp only [escapeQuotes, if_true, List.cons_append]
      rw [splitLoop_quoted_escaped, ih]
      simp
    · simp only [escapeQuotes, if_neg hc, List.cons_append]
      rw [splitLoop_quoted_other c hc, ih]
      simp

theorem scan_quoteField (f : List Char) (out : List (List Char)) (rest : List Char)
    (hrest : ∀ d, rest.head? = some d → d ≠ dquote) :
    splitLoop (quoteField f ++ rest) false [] out = splitLoop rest false f out := by
  unfold quoteField
  simp only [List.cons_append, List.append_assoc, List.singleton_append, List.nil_append]
  rw [splitLoop_open, scan_escaped f [] out rest hrest]
  simp

theorem scan_encodeLine (fs : List (List Char)) (hne : fs ≠ []) (hfs : ∀ f ∈ fs, NoEdgeSpace f)
    (out : List (List Char)) :
    splitLoop (encodeLine fs) false [] out = .ok (out ++ fs) := by
  induction fs generalizing out with
  | nil => exact absurd rfl hne
  | cons f fs ih =>
    have hf : trim_inplace f = f := trim_eq_self f (hfs f (List.mem_cons_self _ _))
    cases fs with
    | nil =>
      have h := scan_quoteField f out [] (by simp)
      simp only [List.append_nil] at h
      simp only [encodeLine, h, splitLoop, hf]
      rfl
    | cons g gs =>
      simp only [encodeLine]
      rw [scan_quoteField f out _ (by
        intro d hd
        simp only [List.head?_cons, Option.some.injEq] at hd
        rw [← hd]
        exact fun h => dquote_ne_comma h.symm)]
      rw [splitLoop_comma, hf, ih (by simp) (fun x hx => hfs x (List.mem_cons_of_mem _ hx))]
      simp

/-- C11: for every non-empty list of field texts, none with leading or
trailing whitespace (commas and double quotes allowed), the line made by
doubling every double quote of each field, wrapping each field in double
quotes and joining the fields with commas is split successfully by
`split_csv_line` into exactly the original list. -/
theorem quoting_round_trip (fs : List (List Char)) (hne : fs ≠ [])
    (hfs : ∀ f ∈ fs, NoEdgeSpace f) :
    split_csv_line (encodeLine fs) = .ok fs := by
  unfold split_csv_line
  rw [scan_encodeLine fs hne hfs []]
  rfl

/-- C11, witness: the quoted field `"10,000"` parses as the single field
`10,000`. -/
theorem quoting_round_trip_witness :
    encodeLine ["10,000".toList] = [dquote] ++ "10,000".toList ++ [dquote] ∧
    split_csv_line ([dquote] ++ "10,000".toList ++ [dquote]) = .ok ["10,000".toList] :=
  ⟨by decide,
   quoting_round_trip ["10,000".toList] (by simp) (by
     intro f hf
     rw [List.mem_singleton] at hf
     subst hf
     exact ⟨by decide, by decide⟩)⟩

/-! ## C12: every field is trimmed -/

theorem splitLoop_all (P : List Char → Prop) (hP : ∀ s, P (trim_inplace s)) (l : List Char)
    (in_quotes : Bool) (field : List Char) (out : List (List Char)) :
    ∀ res, (∀ x ∈ out, P x) → splitLoop l in_quotes field out = .ok res → ∀ x ∈ res, P x := by
  induction l, in_quotes, field, out using splitLoop.induct with
  | case1 field out =>
    intro res _ h
    simp [splitLoop] at h
  | case2 in_quotes field out hq =>
    intro res hout h
    simp only [splitLoop, if_neg hq, Except.ok.injEq] at h
    rw [← h]
    intro x hx
    rcases List.mem_append.mp hx with h1 | h1
    · exact hout x h1
    · rw [List.mem_singleton] at h1
      rw [h1]
      exact hP field
  | case3 field out ih =>
    intro res hout h
    rw [splitLoop_quoted_close [] field out (by simp)] at h
    exact ih res hout h
  | case4 c field out hc ih =>
    intro res hout h
    rw [splitLoop_quoted_other c hc] at h
    exact ih res hout h
  | case5 rest field out ih =>
    intro res hout h
    rw [splitLoop_quoted_escaped] at h
    exact ih res hout h
  | case6 d rest field out hd ih =>
    intro res hout h
    rw [splitLoop_quoted_close (d :: rest) field out (by
      intro e he
      simp only [List.head?_cons, Option.some.injEq] at he
      rw [← he]
      exact hd)] at h
    exact ih res hout h
  | case7 c d rest field out hc ih =>
    intro res hout h
    rw [splitLoop_quoted_other c hc] at h
    exact ih res hout h
  | case8 rest field out ih =>
    intro res hout h
    rw [splitLoop_open] at h
    exact ih res hout h
  | case9 rest field out _ ih =>
    intro res hout h
    rw [splitLoop_comma] at h
    apply ih res _ h
    intro x hx
    rcases List.mem_append.mp hx with h1 | h1
    · exact hout x h1
    · rw [List.mem_singleton] at h1
      rw [h1]
      exact hP field
  | case10 c rest field out h1 h2 ih =>
    intro res hout h
    rw [splitLoop_plain c h1 h2] at h
    exact ih res hout h

/-- C12: on every line that `split_csv_line` splits successfully, no returned
field has a leading or a trailing whitespace character (space, `\t`, `\n`,
`\v`, `\f`, `\r`), quoted or not; trimming removes whitespace from the two ends
only, so the characters between the first and the last non-whitespace one are
kept. The line `"  a  ",b` gives the fields `a` and `b`; the line
` "x  y" , p q ` gives `x  y` and `p q`. -/
theorem fields_trimmed (line : List Char) (fields : List (List Char))
    (h : split_csv_line line = .ok fields) :
    (∀ f ∈ fields, NoEdgeSpace f) ∧
    (∀ s : List Char, ∃ pre post, s = pre ++ trim_inplace s ++ post ∧
      (∀ c ∈ pre, isspace c = true) ∧ (∀ c ∈ post, isspace c = true)) ∧
    split_csv_line ([dquote] ++ "  a  ".toList ++ [dquote] ++ ",b".toList)
      = .ok ["a".toList, "b".toList] ∧
    split_csv_line (" ".toList ++ [dquote] ++ "x  y".toList ++ [dquote] ++ " , p q ".toList)
      = .ok ["x  y".toList, "p q".toList] := by
  refine ⟨?_, trim_decompose, by rfl, by rfl⟩
  exact splitLoop_all NoEdgeSpace noEdgeSpace_trim line false [] [] fields (by simp) h

/-- C12, witness: the fields of a line with padded and empty fields. -/
theorem fields_trimmed_witness :
    split_csv_line ("  a b ,, c ".toList) = .ok ["a b".toList, [], "c".toList] ∧
    NoEdgeSpace "a b".toList :=
  ⟨by rfl,
   (fields_trimmed ("  a b ,, c ".toList) ["a b".toList, [], "c".toList] (by rfl)).1
     "a b".toList (by simp)⟩

/-! ## The header and row loops -/

theorem readHeader_blanks (blanks : List (List Char)) (hb : ∀ l ∈ blanks, isBlank l = true)
    (tl : List (List Char)) (n : Nat) :
    readHeader (blanks ++ tl) n = readHeader tl (n + blanks.length) := by
  induction blanks generalizing n with
  | nil => rfl
  | cons b bs ih =>
    have h1 : trim_inplace b = [] := by
      have := hb b (List.mem_cons_self _ _)
      simpa [isBlank] using this
    have h2 : readHeader (b :: (bs ++ tl)) n = readHeader (bs ++ tl) (n + 1) := by
      simp only [readHeader, h1, ne_eq, not_true_eq_false, if_false]
    rw [List.cons_append, h2, ih (fun l hl => hb l (List.mem_cons_of_mem _ hl))]
    simp only [List.length_cons]
    congr 1
    omega

theorem readHeader_found (blanks : List (List Char)) (hb : ∀ l ∈ blanks, isBlank l = true)
    (hdr : List Char) (hh : isBlank hdr = false) (rest : List (List Char)) :
    readHeader (blanks ++ hdr :: rest) 0 = (blanks.length + 1, trim_inplace hdr, rest) := by
  have h1 : trim_inplace hdr ≠ [] := by simpa [isBlank] using hh
  rw [readHeader_blanks blanks hb]
  simp only [readHeader, h1, ne_eq, not_false_eq_true, if_true, Nat.zero_add]

theorem readHeader_all_blank (lines : List (List Char)) (hb : ∀ l ∈ lines, isBlank l = true) :
    readHeader lines 0 = (lines.length, [], []) := by
  have := readHeader_blanks lines hb [] 0
  simp only [List.append_nil] at this
  rw [this]
  simp [readHeader]

theorem header_test_iff (cols : List (List Char)) :
    (cols.length ≠ 5 ∨ cols.getD 0 [] ≠ "timestamp".toList ∨
      cols.getD 1 [] ≠ "service".toList ∨ cols.getD 2 [] ≠ "endpoint".toList ∨
      cols.getD 3 [] ≠ "status".toList ∨ cols.getD 4 [] ≠ "latency_ms".toList)
    ↔ cols ≠ headerColumns := by
  constructor
  · intro h hc
    rw [hc] at h
    revert h
    decide
  · intro h
    by_contra hn
    push_neg at hn
    obtain ⟨h5, h0, h1, h2, h3, h4⟩ := hn
    apply h
    match cols, h5 with
    | [a, b, c, d, e], _ =>
      simp only [List.getD_cons_zero, List.getD_cons_succ] at h0 h1 h2 h3 h4
      rw [h0, h1, h2, h3, h4]
      rfl

theorem parseLines_header (blanks : List (List Char)) (hb : ∀ l ∈ blanks, isBlank l = true)
    (hdr : List Char) (hh : isBlank hdr = false) (rest : List (List Char)) :
    parseLines (blanks ++ hdr :: rest) =
      match split_csv_line (trim_inplace hdr) with
      | .error err =>
        { records := [],
          error := some (.headerParse (blanks.length + 1) err
            (short_line_preview (trim_inplace hdr))) }
      | .ok cols =>
        if cols ≠ headerColumns then
          { records := [],
            error := some (.invalidHeader (blanks.length + 1)
              (short_line_preview (trim_inplace hdr))) }
        else readRows rest (blanks.length + 1) [] := by
  have h1 : trim_inplace hdr ≠ [] := by simpa [isBlank] using hh
  unfold parseLines
  rw [readHeader_found blanks hb hdr hh rest]
  simp only [if_neg h1]
  cases hs : split_csv_line (trim_inplace hdr) with
  | error err => rfl
  | ok cols =>
    simp only
    by_cases hc : cols ≠ headerColumns
    · rw [if_pos ((header_test_iff cols).mpr hc), if_pos hc]
    · rw [if_neg (fun h => hc ((header_test_iff cols).mp h)), if_neg hc]

/-! ## C13: header validation -/

/-- C13, as amended: let the first non-blank line of the input be line
`blanks.length + 1`. If, once trimmed, it splits into a field list other than
`timestamp, service, endpoint, status, latency_ms`, parsing fails with the
invalid-header error carrying that line number and no record is delivered; if
the split itself fails (an unterminated quote), parsing fails with the header
parse error carrying that line number and the splitter's text, again without
any record; if it splits into exactly the five names it is accepted and the row
loop runs on the lines after it. The header `timestamp,service,endpoint,status`
fails with the invalid-header error at line 1 and zero records. -/
theorem header_validation (blanks : List (List Char)) (hb : ∀ l ∈ blanks, isBlank l = true)
    (hdr : List Char) (hh : isBlank hdr = false) (rest : List (List Char)) :
    (∀ cols, split_csv_line (trim_inplace hdr) = .ok cols → cols ≠ headerColumns →
      parse_csv_file (some (blanks ++ hdr :: rest))
        = { records := [],
            error := some (.invalidHeader (blanks.length + 1)
              (short_line_preview (trim_inplace hdr))) }) ∧
    (∀ err, split_csv_line (trim_inplace hdr) = .error err →
      parse_csv_file (some (blanks ++ hdr :: rest))
        = { records := [],
            error := some (.headerParse (blanks.length + 1) err
              (short_line_preview (trim_inplace hdr))) }) ∧
    (split_csv_line (trim_inplace hdr) = .ok headerColumns →
      parse_csv_file (some (blanks ++ hdr :: rest)) = readRows rest (blanks.length + 1) []) ∧
    parse_csv_file (some ["timestamp,service,endpoint,status".toList])
      = { records := [],
          error := some (.invalidHeader 1 "timestamp,service,endpoint,status".toList) } := by
  have h := parseLines_header blanks hb hdr hh rest
  refine ⟨?_, ?_, ?_, by rfl⟩
  · intro cols hs hc
    show parseLines _ = _
    rw [h, hs]
    simp only [if_pos hc]
  · intro err hs
    show parseLines _ = _
    rw [h, hs]
  · intro hs
    show parseLines _ = _
    rw [h, hs]
    simp

/-- C13, witness: a blank line, then a header with a misspelt column. -/
theorem header_validation_witness :
    parse_csv_file (some ([[]] ++ "timestamp,service,endpoint,status,latency".toList
        :: ["t,s,/a,200,5".toList]))
      = { records := [],
          error := some (.invalidHeader 2
            (short_line_preview (trim_inplace "timestamp,service,endpoint,status,latency".toList))) } :=
  (header_validation [[]] (by decide) "timestamp,service,endpoint,status,latency".toList
    (by decide) ["t,s,/a,200,5".toList]).1
    ["timestamp".toList, "service".toList, "endpoint".toList, "status".toList, "latency".toList]
    (by rfl) (by decide)

/-- C13, counterexample to the claim as stated: the first non-blank line
`"timestamp,service,endpoint,status,latency_ms`, with an opening double quote
that is never closed, does not split into the five column names, yet the
error is the header parse error of lines 122-127 ("Unterminated quoted
field."), not the invalid-header error of line 1. -/
theorem header_unterminated_counterexample :
    isBlank openQuoteHeader = false ∧
    split_csv_line (trim_inplace openQuoteHeader) = .error "Unterminated quoted field." ∧
    parse_csv_file (some [openQuoteHeader])
      = { records := [],
          error := some (.headerParse 1 "Unterminated quoted field." openQuoteHeader) } ∧
    (parse_csv_file (some [openQuoteHeader])).error
      ≠ some (.invalidHeader 1 (short_line_preview (trim_inplace openQuoteHeader))) := by
  refine ⟨by decide, by rfl, by rfl, by decide⟩

/-! ## The row loop -/

theorem rowRecords_append (a b : List (List Char)) :
    rowRecords (a ++ b) = rowRecords a ++ rowRecords b := by
  unfold rowRecords
  rw [List.filterMap_append]

theorem readRows_wellFormed (good : List (List Char)) (hg : ∀ l ∈ good, wellFormed l = true)
    (rest : List (List Char)) (n : Nat) (acc : List Record) :
    readRows (good ++ rest) n acc = readRows rest (n + good.length) (acc ++ rowRecords good) := by
  induction good generalizing n acc with
  | nil => simp [rowRecords]
  | cons l ls ih =>
    have hl := hg l (List.mem_cons_self _ _)
    have hls : ∀ x ∈ ls, wellFormed x = true := fun x hx => hg x (List.mem_cons_of_mem _ hx)
    have e : n + (l :: ls).length = n + 1 + ls.length := by
      simp only [List.length_cons]
      omega
    rw [e]
    by_cases hb : trim_inplace l = []
    · have h1 : readRows (l :: (ls ++ rest)) n acc = readRows (ls ++ rest) (n + 1) acc := by
        simp only [readRows, hb, if_true]
      have h2 : rowRecords (l :: ls) = rowRecords ls := by
        simp [rowRecords, isBlank, hb]
      rw [List.cons_append, h1, ih hls, h2]
    · have hnb : isBlank l = false := by simpa [isBlank] using hb
      cases hp : parseRow l with
      | error e =>
        simp [wellFormed, hnb, hp, Except.toOption] at hl
      | ok r =>
        have h1 : readRows (l :: (ls ++ rest)) n acc = readRows (ls ++ rest) (n + 1) (acc ++ [r]) := by
          simp only [readRows, hb, if_false, hp]
        have h2 : rowRecords (l :: ls) = r :: rowRecords ls := by
          simp [rowRecords, hnb, hp, Except.toOption]
        rw [List.cons_append, h1, ih hls, h2]
        simp

theorem readRows_malformed (bad : List Char) (hb : isBlank bad = false) (e : RowError)
    (he : parseRow bad = .error e) (rest : List (List Char)) (n : Nat) (acc : List Record) :
    readRows (bad :: rest) n acc
      = { records := acc, error := some (.row (n + 1) e (short_line_preview bad)) } := by
  have h1 : trim_inplace bad ≠ [] := by simpa [isBlank] using hb
  simp only [readRows, if_neg h1, he]

theorem readRows_nil (n : Nat) (acc : List Record) :
    readRows [] n acc = { records := acc, error := none } := rfl

theorem not_wellFormed (l : List Char) (h : wellFormed l = false) :
    isBlank l = false ∧ ∃ e, parseRow l = .error e := by
  unfold wellFormed at h
  rw [Bool.or_eq_false_iff] at h
  refine ⟨h.1, ?_⟩
  cases hp : parseRow l with
  | error e => exact ⟨e, rfl⟩
  | ok r => simp [hp, Except.toOption] at h

theorem readRows_spec (rows : List (List Char)) (n : Nat) (acc : List Record) :
    (readRows rows n acc).records = acc ++ rowRecords (rows.takeWhile wellFormed) ∧
    ((readRows rows n acc).error = none ↔ ∀ l ∈ rows, wellFormed l = true) ∧
    (∀ bad tl, rows.dropWhile wellFormed = bad :: tl →
      ∃ e, parseRow bad = .error e ∧
        (readRows rows n acc).error
          = some (.row (n + (rows.takeWhile wellFormed).length + 1) e (short_line_preview bad))) := by
  have hsplit := List.takeWhile_append_dropWhile wellFormed rows
  have hgood : ∀ l ∈ rows.takeWhile wellFormed, wellFormed l = true :=
    fun l hl => List.mem_takeWhile_imp hl
  have hrw : readRows rows n acc
      = readRows (rows.dropWhile wellFormed) (n + (rows.takeWhile wellFormed).length)
          (acc ++ rowRecords (rows.takeWhile wellFormed)) := by
    conv_lhs => rw [← hsplit]
    exact readRows_wellFormed _ hgood _ n acc
  cases hd : rows.dropWhile wellFormed with
  | nil =>
    rw [hrw, hd, readRows_nil]
    refine ⟨rfl, ⟨fun _ => ?_, fun _ => rfl⟩, fun bad tl h => by simp at h⟩
    exact List.dropWhile_eq_nil_iff.mp hd
  | cons bad tl =>
    have hbad : wellFormed bad = false := by
      have := List.head?_dropWhile_not wellFormed rows
      rw [hd] at this
      simpa using this
    obtain ⟨hnb, e, he⟩ := not_wellFormed bad hbad
    rw [hrw, hd, readRows_malformed bad hnb e he]
    refine ⟨rfl, ⟨fun h => by simp at h, fun h => ?_⟩, ?_⟩
    · have hmem : bad ∈ rows := by
        rw [← hsplit, hd]
        simp
      have := h bad hmem
      rw [hbad] at this
      simp at this
    · intro bad2 tl2 h2
      have hb2 : bad = bad2 := (List.cons.inj h2).1
      subst hb2
      exact ⟨e, he, rfl⟩

/-! ## C14: column count -/

theorem parse_valid_header (blanks : List (List Char)) (hb : ∀ l ∈ blanks, isBlank l = true)
    (hdr : List Char) (hh : isBlank hdr = false)
    (hv : split_csv_line (trim_inplace hdr) = .ok headerColumns) (rows : List (List Char)) :
    parse_csv_file (some (blanks ++ hdr :: rows)) = readRows rows (blanks.length + 1) [] := by
  show parseLines _ = _
  rw [parseLines_header blanks hb hdr hh rows, hv]
  simp

/-- C14: with a valid header at line `blanks.length + 1`, followed by lines
`good` that are each blank or a valid row, followed by a non-blank line `bad`
that splits into `cols` with `cols.length ≠ 5`, parsing fails with the
wrong-column-count error carrying the count `cols.length`, the physical line
number of `bad` (leading blank lines, the header and the lines of `good`
counted) and the preview of `bad`; the records delivered are those of the
valid rows of `good`, in order, whatever follows `bad`. -/
theorem column_count_mismatch (blanks : List (List Char))
    (hb : ∀ l ∈ blanks, isBlank l = true) (hdr : List Char) (hh : isBlank hdr = false)
    (hv : split_csv_line (trim_inplace hdr) = .ok headerColumns)
    (good : List (List Char)) (hg : ∀ l ∈ good, wellFormed l = true)
    (bad : List Char) (hbad : isBlank bad = false) (cols : List (List Char))
    (hs : split_csv_line bad = .ok cols) (hn : cols.length ≠ 5) (rest : List (List Char)) :
    parse_csv_file (some (blanks ++ hdr :: (good ++ bad :: rest)))
      = { records := rowRecords good,
          error := some (.row (blanks.length + 1 + good.length + 1)
            (.wrongColumnCount cols.length) (short_line_preview bad)) } := by
  have he : parseRow bad = .error (.wrongColumnCount cols.length) := by
    unfold parseRow
    rw [hs]
    simp only [if_pos hn]
  rw [parse_valid_header blanks hb hdr hh hv, readRows_wellFormed good hg,
    readRows_malformed bad hbad _ he]
  simp

/-- C14, witness: a row with four columns at line 6, after a blank line, the
header, two valid rows and a whitespace-only line; the two records of the
valid rows are delivered and the valid row at line 7 is not. -/
theorem column_count_mismatch_witness :
    parse_csv_file (some fourColumnInput)
      = { records := [⟨"t1", "checkout", "/api/pay", 200, 120⟩,
                      ⟨"t2", "catalog", "/api/items", 404, 15⟩],
          error := some (.row 6 (.wrongColumnCount 4) "t3,checkout,/api/pay,500".toList) } := by
  have h := column_count_mismatch [[]] (by decide) headerLine (by decide) (by rfl)
    ["t1,checkout,/api/pay,200,120".toList, "  ".toList, "t2,catalog,/api/items,404,15".toList]
    (by decide) "t3,checkout,/api/pay,500".toList (by decide)
    ["t3".toList, "checkout".toList, "/api/pay".toList, "500".toList] (by rfl) (by decide)
    ["t4,checkout,/api/pay,200,7".toList]
  exact h

/-! ## C17: fail-fast streaming -/

theorem readRows_error_ne_emptyFile (rows : List (List Char)) (n : Nat) (acc : List Record) :
    (readRows rows n acc).error ≠ some .emptyFile := by
  obtain ⟨_, h2, h3⟩ := readRows_spec rows n acc
  cases hd : rows.dropWhile wellFormed with
  | nil =>
    have : (readRows rows n acc).error = none := h2.mpr (List.dropWhile_eq_nil_iff.mp hd)
    rw [this]
    simp
  | cons bad tl =>
    obtain ⟨e, _, he⟩ := h3 bad tl hd
    rw [he]
    simp

/-- C18: an input of zero lines or of blank (empty or whitespace-only) lines
only fails with the empty-file error and delivers no record. In an input with
a non-blank line, the header loop skips the leading blank lines and stops at
the first non-blank line, line `blanks.length + 1`, leaving every later line
to the row loop, and the empty-file error is not reported. -/
theorem empty_input (lines : List (List Char)) (hl : ∀ l ∈ lines, isBlank l = true)
    (blanks : List (List Char)) (hb : ∀ l ∈ blanks, isBlank l = true)
    (hdr : List Char) (hh : isBlank hdr = false) (rest : List (List Char)) :
    parse_csv_file (some lines) = { records := [], error := some .emptyFile } ∧
    readHeader (blanks ++ hdr :: rest) 0 = (blanks.length + 1, trim_inplace hdr, rest) ∧
    (parse_csv_file (some (blanks ++ hdr :: rest))).error ≠ some .emptyFile := by
  refine ⟨?_, readHeader_found blanks hb hdr hh rest, ?_⟩
  · show parseLines lines = _
    unfold parseLines
    rw [readHeader_all_blank lines hl]
    simp
  · show (parseLines _).error ≠ _
    rw [parseLines_header blanks hb hdr hh rest]
    cases hs : split_csv_line (trim_inplace hdr) with
    | error err => simp
    | ok cols =>
      simp only
      split_ifs
      · simp
      · exact readRows_error_ne_emptyFile _ _ _

/-- C18, witness: three blank lines; and two blank lines before a header. -/
theorem empty_input_witness :
    parse_csv_file (some [[], "  ".toList, []]) = { records := [], error := some .emptyFile } ∧
    (parse_csv_file (some ([[], "  ".toList] ++ headerLine :: []))).error ≠ some .emptyFile :=
  ⟨(empty_input [[], "  ".toList, []] (by decide) [[], "  ".toList] (by decide) headerLine
      (by decide) []).1,
   (empty_input [[], "  ".toList, []] (by decide) [[], "  ".toList] (by decide) headerLine
      (by decide) []).2.2⟩

/-! ## Integer fields -/

theorem digitsValue_append (ds : List Char) (d : Char) :
    digitsValue (ds ++ [d]) = 10 * digitsValue ds + (d.toNat - 48) := by
  simp [digitsValue, List.foldl_append]

theorem digitsValue_eq_literalValue (ds : List Char) : digitsValue ds = literalValue ds := by
  induction ds using List.reverseRecOn with
  | nil => simp [digitsValue, literalValue]
  | append_singleton ds d ih =>
    rw [digitsValue_append, ih]
    simp [literalValue, Nat.ofDigits_cons]
    ring

theorem isdigit_not_special (d : Char) (hd : isdigit d = true) :
    isspace d = false ∧ d ≠ minus ∧ d ≠ plus := by
  have h1 : 48 ≤ d.toNat ∧ d.toNat ≤ 57 := by simpa [isdigit] using hd
  refine ⟨?_, ?_, ?_⟩
  · simp only [isspace, Bool.or_eq_false_iff, decide_eq_false_iff_not, Bool.and_eq_false_imp,
      decide_eq_true_eq]
    omega
  · intro h
    rw [h] at h1
    revert h1
    decide
  · intro h
    rw [h] at h1
    revert h1
    decide

theorem takeWhile_digits (ds : List Char) (h : ∀ d ∈ ds, isdigit d = true) :
    ds.takeWhile isdigit = ds := by
  rw [List.takeWhile_eq_self_iff]
  exact h

theorem takeWhile_length_eq (l : List Char) (h : (l.takeWhile isdigit).length = l.length) :
    l.takeWhile isdigit = l := by
  have h1 := List.takeWhile_append_dropWhile isdigit l
  have h2 : (l.takeWhile isdigit).length + (l.dropWhile isdigit).length = l.length := by
    rw [← List.length_append, h1]
  have h3 : (l.dropWhile isdigit).length = 0 := by omega
  have h4 : l.dropWhile isdigit = [] := List.length_eq_zero.mp h3
  rw [h4, List.append_nil] at h1
  exact h1

/-- `stol` on a text without leading whitespace, by its first character. -/
theorem stol_unsigned (s : List Char) (h1 : s.head? ≠ some minus) (h2 : s.head? ≠ some plus)
    (hw : s.dropWhile isspace = s) (hw2 : s.takeWhile isspace = []) :
    stol s = if s.takeWhile isdigit = [] then none
      else if ((digitsValue (s.takeWhile isdigit) : Nat) : Int) < -(2 ^ 63) ∨
          ((digitsValue (s.takeWhile isdigit) : Nat) : Int) > 2 ^ 63 - 1 then none
      else some (((digitsValue (s.takeWhile isdigit) : Nat) : Int), (s.takeWhile isdigit).length) := by
  unfold stol
  simp only [hw, hw2, h1, h2, or_self, if_false, List.length_nil, Nat.zero_add]

theorem stol_minus (t : List Char) :
    stol (minus :: t) = if t.takeWhile isdigit = [] then none
      else if -((digitsValue (t.takeWhile isdigit) : Nat) : Int) < -(2 ^ 63) ∨
          -((digitsValue (t.takeWhile isdigit) : Nat) : Int) > 2 ^ 63 - 1 then none
      else some (-((digitsValue (t.takeWhile isdigit) : Nat) : Int),
        1 + (t.takeWhile isdigit).length) := by
  have hs : isspace minus = false := by decide
  unfold stol
  simp [hs]

theorem stol_plus (t : List Char) :
    stol (plus :: t) = if t.takeWhile isdigit = [] then none
      else if ((digitsValue (t.takeWhile isdigit) : Nat) : Int) < -(2 ^ 63) ∨
          ((digitsValue (t.takeWhile isdigit) : Nat) : Int) > 2 ^ 63 - 1 then none
      else some (((digitsValue (t.takeWhile isdigit) : Nat) : Int),
        1 + (t.takeWhile isdigit).length) := by
  have hs : isspace plus = false := by decide
  have hne : plus ≠ minus := by decide
  unfold stol
  simp [hs, hne]

theorem to_int32_of_stol (s : List Char) (v : Int) (n : Nat) (h : stol s = some (v, n)) :
    to_int32 s = if n ≠ s.length then none
      else if v < -(2 ^ 31) ∨ v > 2 ^ 31 - 1 then none else some v := by
  unfold to_int32
  rw [h]

theorem to_int32_of_stol_none (s : List Char) (h : stol s = none) : to_int32 s = none := by
  unfold to_int32
  rw [h]

theorem all_digits_of_takeWhile (t : List Char) (h : t.takeWhile isdigit = t) :
    ∀ d ∈ t, isdigit d = true := by
  rw [List.takeWhile_eq_self_iff] at h
  exact h

theorem to_int32_minus (t : List Char) (v : Int) :
    to_int32 (minus :: t) = some v ↔
      t ≠ [] ∧ (∀ d ∈ t, isdigit d = true) ∧ v = -(literalValue t : Int) ∧
        -(2 ^ 31) ≤ v ∧ v ≤ 2 ^ 31 - 1 := by
  constructor
  · intro h
    by_cases hD : t.takeWhile isdigit = []
    · rw [to_int32_of_stol_none _ (by rw [stol_minus, if_pos hD])] at h
      simp at h
    · by_cases hr : -((digitsValue (t.takeWhile isdigit) : Nat) : Int) < -(2 ^ 63) ∨
          -((digitsValue (t.takeWhile isdigit) : Nat) : Int) > 2 ^ 63 - 1
      · rw [to_int32_of_stol_none _ (by rw [stol_minus, if_neg hD, if_pos hr])] at h
        simp at h
      · rw [to_int32_of_stol _ _ _ (by rw [stol_minus, if_neg hD, if_neg hr])] at h
        split_ifs at h with h1 h2
        have hlen : (t.takeWhile isdigit).length = t.length := by
          simp only [List.length_cons, ne_eq, not_not] at h1
          omega
        have ht := takeWhile_length_eq t hlen
        rw [ht] at hD h
        have hv : -((digitsValue t : Nat) : Int) = v := Option.some.inj h
        rw [digitsValue_eq_literalValue] at hv
        push_neg at h2
        refine ⟨hD, all_digits_of_takeWhile t ht, hv.symm, ?_, ?_⟩
        · rw [← hv, ← digitsValue_eq_literalValue, ← ht]; exact h2.1
        · rw [← hv, ← digitsValue_eq_literalValue, ← ht]; exact h2.2
  · rintro ⟨hne, hall, hv, hlo, hhi⟩
    have ht := takeWhile_digits t hall
    have hr : ¬ (-((digitsValue (t.takeWhile isdigit) : Nat) : Int) < -(2 ^ 63) ∨
        -((digitsValue (t.takeWhile isdigit) : Nat) : Int) > 2 ^ 63 - 1) := by
      rw [ht, digitsValue_eq_literalValue, ← hv]
      omega
    rw [to_int32_of_stol _ _ _ (by rw [stol_minus, if_neg (by rw [ht]; exact hne), if_neg hr])]
    rw [ht, digitsValue_eq_literalValue, ← hv]
    have h1 : ¬ (1 + t.length ≠ (minus :: t).length) := by
      simp only [List.length_cons, ne_eq, not_not]
      omega
    have h2 : ¬ (v < -(2 ^ 31) ∨ v > 2 ^ 31 - 1) := by omega
    rw [if_neg h1, if_neg h2]

theorem to_int32_plus (t : List Char) (v : Int) :
    to_int32 (plus :: t) = some v ↔
      t ≠ [] ∧ (∀ d ∈ t, isdigit d = true) ∧ v = (literalValue t : Int) ∧
        -(2 ^ 31) ≤ v ∧ v ≤ 2 ^ 31 - 1 := by
  constructor
  · intro h
    by_cases hD : t.takeWhile isdigit = []
    · rw [to_int32_of_stol_none _ (by rw [stol_plus, if_pos hD])] at h
      simp at h
    · by_cases hr : ((digitsValue (t.takeWhile isdigit) : Nat) : Int) < -(2 ^ 63) ∨
          ((digitsValue (t.takeWhile isdigit) : Nat) : Int) > 2 ^ 63 - 1
      · rw [to_int32_of_stol_none _ (by rw [stol_plus, if_neg hD, if_pos hr])] at h
        simp at h
      · rw [to_int32_of_stol _ _ _ (by rw [stol_plus, if_neg hD, if_neg hr])] at h
        split_ifs at h with h1 h2
        have hlen : (t.takeWhile isdigit).length = t.length := by
          simp only [List.length_cons, ne_eq, not_not] at h1
          omega
        have ht := takeWhile_length_eq t hlen
        rw [ht] at hD h
        have hv : ((digitsValue t : Nat) : Int) = v := Option.some.inj h
        rw [digitsValue_eq_literalValue] at hv
        push_neg at h2
        refine ⟨hD, all_digits_of_takeWhile t ht, hv.symm, ?_, ?_⟩
        · rw [← hv, ← digitsValue_eq_literalValue, ← ht]; exact h2.1
        · rw [← hv, ← digitsValue_eq_literalValue, ← ht]; exact h2.2
  · rintro ⟨hne, hall, hv, hlo, hhi⟩
    have ht := takeWhile_digits t hall
    have hr : ¬ (((digitsValue (t.takeWhile isdigit) : Nat) : Int) < -(2 ^ 63) ∨
        ((digitsValue (t.takeWhile isdigit) : Nat) : Int) > 2 ^ 63 - 1) := by
      rw [ht, digitsValue_eq_literalValue, ← hv]
      omega
    rw [to_int32_of_stol _ _ _ (by rw [stol_plus, if_neg (by rw [ht]; exact hne), if_neg hr])]
    rw [ht, digitsValue_eq_literalValue, ← hv]
    have h1 : ¬ (1 + t.length ≠ (plus :: t).length) := by
      simp only [List.length_cons, ne_eq, not_not]
      omega
    have h2 : ¬ (v < -(2 ^ 31) ∨ v > 2 ^ 31 - 1) := by omega
    rw [if_neg h1, if_neg h2]

theorem to_int32_unsigned (s : List Char) (h1 : s.head? ≠ some minus) (h2 : s.head? ≠ some plus)
    (hw : ∀ c, s.head? = some c → isspace c = false) (v : Int) :
    to_int32 s = some v ↔
      s ≠ [] ∧ (∀ d ∈ s, isdigit d = true) ∧ v = (literalValue s : Int) ∧
        -(2 ^ 31) ≤ v ∧ v ≤ 2 ^ 31 - 1 := by
  have hw1 : s.dropWhile isspace = s := by
    cases s with
    | nil => rfl
    | cons c cs => simp [List.dropWhile_cons, hw c rfl]
  have hw2 : s.takeWhile isspace = [] := by
    cases s with
    | nil => rfl
    | cons c cs => simp [List.takeWhile_cons, hw c rfl]
  have hst := stol_unsigned s h1 h2 hw1 hw2
  constructor
  · intro h
    by_cases hD : s.takeWhile isdigit = []
    · rw [to_int32_of_stol_none _ (by rw [hst, if_pos hD])] at h
      simp at h
    · by_cases hr : ((digitsValue (s.takeWhile isdigit) : Nat) : Int) < -(2 ^ 63) ∨
          ((digitsValue (s.takeWhile isdigit) : Nat) : Int) > 2 ^ 63 - 1
      · rw [to_int32_of_stol_none _ (by rw [hst, if_neg hD, if_pos hr])] at h
        simp at h
      · rw [to_int32_of_stol _ _ _ (by rw [hst, if_neg hD, if_neg hr])] at h
        split_ifs at h with h3 h4
        have hlen : (s.takeWhile isdigit).length = s.length := by
          simpa using h3
        have ht := takeWhile_length_eq s hlen
        rw [ht] at hD h
        have hv : ((digitsValue s : Nat) : Int) = v := Option.some.inj h
        rw [digitsValue_eq_literalValue] at hv
        push_neg at h4
        refine ⟨hD, all_digits_of_takeWhile s ht, hv.symm, ?_, ?_⟩
        · rw [← hv, ← digitsValue_eq_literalValue, ← ht]; exact h4.1
        · rw [← hv, ← digitsValue_eq_literalValue, ← ht]; exact h4.2
  · rintro ⟨hne, hall, hv, hlo, hhi⟩
    have ht := takeWhile_digits s hall
    have hr : ¬ (((digitsValue (s.takeWhile isdigit) : Nat) : Int) < -(2 ^ 63) ∨
        ((digitsValue (s.takeWhile isdigit) : Nat) : Int) > 2 ^ 63 - 1) := by
      rw [ht, digitsValue_eq_literalValue, ← hv]
      omega
    rw [to_int32_of_stol _ _ _ (by rw [hst, if_neg (by rw [ht]; exact hne), if_neg hr])]
    rw [ht, digitsValue_eq_literalValue, ← hv]
    have h3 : ¬ (s.length ≠ s.length) := by simp
    have h4 : ¬ (v < -(2 ^ 31) ∨ v > 2 ^ 31 - 1) := by omega
    rw [if_neg h3, if_neg h4]

theorem to_int32_iff (s : List Char) (hw : ∀ c, s.head? = some c → isspace c = false) (v : Int) :
    to_int32 s = some v ↔ IsIntLiteral s v ∧ -(2 ^ 31) ≤ v ∧ v ≤ 2 ^ 31 - 1 := by
  have hpm : plus ≠ minus := by decide
  constructor
  · intro h
    cases s with
    | nil =>
      have hn : to_int32 [] = none := by rfl
      rw [hn] at h
      simp at h
    | cons c t =>
      by_cases hm : c = minus
      · subst hm
        obtain ⟨a, b, c2, d, e⟩ := (to_int32_minus t v).mp h
        exact ⟨⟨[minus], t, rfl, Or.inr (Or.inr rfl), a, b, by simpa using c2⟩, d, e⟩
      · by_cases hp : c = plus
        · subst hp
          obtain ⟨a, b, c2, d, e⟩ := (to_int32_plus t v).mp h
          exact ⟨⟨[plus], t, rfl, Or.inr (Or.inl rfl), a, b, by simpa [hpm] using c2⟩, d, e⟩
        · obtain ⟨a, b, c2, d, e⟩ := (to_int32_unsigned (c :: t) (by simpa using hm)
            (by simpa using hp) hw v).mp h
          exact ⟨⟨[], c :: t, rfl, Or.inl rfl, a, b, by simpa using c2⟩, d, e⟩
  · rintro ⟨⟨sign, digits, hs, hsign, hne, hall, hv⟩, hlo, hhi⟩
    rcases hsign with h0 | h0 | h0
    · subst h0
      simp only [List.nil_append] at hs
      subst hs
      have hv2 : v = (literalValue s : Int) := by simpa using hv
      obtain ⟨d, ds, hd⟩ := List.exists_cons_of_ne_nil hne
      have hdig := hall d (by rw [hd]; exact List.mem_cons_self _ _)
      have hsp := isdigit_not_special d hdig
      refine (to_int32_unsigned s ?_ ?_ hw v).mpr ⟨hne, hall, hv2, hlo, hhi⟩
      · rw [hd]; simpa using hsp.2.1
      · rw [hd]; simpa using hsp.2.2
    · subst h0
      subst hs
      have hv2 : v = (literalValue digits : Int) := by simpa [hpm] using hv
      exact (to_int32_plus digits v).mpr ⟨hne, hall, hv2, hlo, hhi⟩
    · subst h0
      subst hs
      have hv2 : v = -(literalValue digits : Int) := by simpa using hv
      exact (to_int32_minus digits v).mpr ⟨hne, hall, hv2, hlo, hhi⟩

/-! ## C15: strict integer fields -/

theorem parseRow_of_split (raw : List Char) (cols : List (List Char))
    (hs : split_csv_line raw = .ok cols) (h5 : cols.length = 5) :
    parseRow raw =
      match to_int32 (cols.getD 3 []) with
      | none => .error (.invalidStatus (cols.getD 3 []))
      | some status =>
        match to_int32 (cols.getD 4 []) with
        | none => .error (.invalidLatency (cols.getD 4 []))
        | some latency =>
          .ok { timestamp := String.mk (cols.getD 0 []), service := String.mk (cols.getD 1 []),
                endpoint := String.mk (cols.getD 2 []), status := status,
                latency_ms := latency } := by
  unfold parseRow
  rw [hs]
  simp only [h5, ne_eq, not_true_eq_false, if_false]

theorem getD_noEdgeSpace (cols : List (List Char)) (h : ∀ f ∈ cols, NoEdgeSpace f) (i : Nat) :
    NoEdgeSpace (cols.getD i []) := by
  by_cases hi : i < cols.length
  · rw [List.getD_eq_getElem _ _ hi]
    exact h _ (List.getElem_mem _)
  · rw [List.getD_eq_default _ _ (by omega)]
    exact ⟨by simp, by simp⟩

/-- C15: for a text `s` without leading or trailing whitespace, `to_int32`
succeeds with the value `v` if and only if `s` is an optional sign followed by
one or more decimal digits and nothing else, `v` is the number the literal
denotes and `-2^31 <= v <= 2^31 - 1`; so `200x`, `12.5`, the empty field and
`2147483648` are rejected. A row `raw` that splits into five fields `cols` is
turned into a record, with the first three fields and the two values, if and
only if `cols[3]` and `cols[4]` are such literals; otherwise the row fails
with the invalid-status error carrying `cols[3]` when the status is rejected,
and with the invalid-latency error carrying `cols[4]` when the status is
accepted and the latency rejected; the row loop reports that error with the
line number of the row. -/
theorem strict_integer_fields (s : List Char) (hs : NoEdgeSpace s) (v : Int)
    (raw : List Char) (cols : List (List Char)) (hsplit : split_csv_line raw = .ok cols)
    (h5 : cols.length = 5) :
    (to_int32 s = some v ↔ IsIntLiteral s v ∧ -(2 ^ 31) ≤ v ∧ v ≤ 2 ^ 31 - 1) ∧
    to_int32 "200x".toList = none ∧ to_int32 "12.5".toList = none ∧ to_int32 [] = none ∧
    to_int32 "2147483648".toList = none ∧ to_int32 "-2147483649".toList = none ∧
    to_int32 "2147483647".toList = some 2147483647 ∧
    to_int32 "-2147483648".toList = some (-2147483648) ∧
    (∀ r, parseRow raw = .ok r ↔
      ∃ st la, (IsIntLiteral (cols.getD 3 []) st ∧ -(2 ^ 31) ≤ st ∧ st ≤ 2 ^ 31 - 1) ∧
        (IsIntLiteral (cols.getD 4 []) la ∧ -(2 ^ 31) ≤ la ∧ la ≤ 2 ^ 31 - 1) ∧
        r = { timestamp := String.mk (cols.getD 0 []), service := String.mk (cols.getD 1 []),
              endpoint := String.mk (cols.getD 2 []), status := st, latency_ms := la }) ∧
    (to_int32 (cols.getD 3 []) = none →
      parseRow raw = .error (.invalidStatus (cols.getD 3 []))) ∧
    (to_int32 (cols.getD 3 []) ≠ none → to_int32 (cols.getD 4 []) = none →
      parseRow raw = .error (.invalidLatency (cols.getD 4 []))) ∧
    (∀ e rest n acc, isBlank raw = false → parseRow raw = .error e →
      readRows (raw :: rest) n acc
        = { records := acc, error := some (.row (n + 1) e (short_line_preview raw)) }) := by
  have hrow := parseRow_of_split raw cols hsplit h5
  have htrim : ∀ f ∈ cols, NoEdgeSpace f :=
    splitLoop_all NoEdgeSpace noEdgeSpace_trim raw false [] [] cols (by simp) hsplit
  have h3 := to_int32_iff (cols.getD 3 []) (getD_noEdgeSpace cols htrim 3).1
  have h4 := to_int32_iff (cols.getD 4 []) (getD_noEdgeSpace cols htrim 4).1
  refine ⟨to_int32_iff s hs.1 v, by rfl, by rfl, by rfl, by rfl, by rfl, by rfl, by rfl,
    ?_, ?_, ?_, ?_⟩
  · intro r
    rw [hrow]
    constructor
    · intro h
      cases hst : to_int32 (cols.getD 3 []) with
      | none => rw [hst] at h; simp at h
      | some st =>
        cases hla : to_int32 (cols.getD 4 []) with
        | none => rw [hst, hla] at h; simp at h
        | some la =>
          rw [hst, hla] at h
          simp only [Except.ok.injEq] at h
          exact ⟨st, la, (h3 st).mp hst, (h4 la).mp hla, h.symm⟩
    · rintro ⟨st, la, hst, hla, hr⟩
      rw [(h3 st).mpr hst, (h4 la).mpr hla, hr]
  · intro hst
    rw [hrow, hst]
  · intro hst hla
    rw [hrow, hla]
    cases hst2 : to_int32 (cols.getD 3 []) with
    | none => exact absurd hst2 hst
    | some st => rfl
  · intro e rest n acc hb he
    exact readRows_malformed raw hb e he rest n acc

/-- C15, witness: the field `-17`, and a row whose status is `200x`. -/
theorem strict_integer_fields_witness :
    (to_int32 "-17".toList = some (-17) ↔
      IsIntLiteral "-17".toList (-17) ∧ -(2 ^ 31) ≤ (-17 : Int) ∧ (-17 : Int) ≤ 2 ^ 31 - 1) ∧
    parseRow "t,s,/a,200x,5".toList = .error (.invalidStatus "200x".toList) :=
  ⟨(strict_integer_fields "-17".toList ⟨by decide, by decide⟩ (-17) "t,s,/a,200x,5".toList
      ["t".toList, "s".toList, "/a".toList, "200x".toList, "5".toList] (by rfl) (by rfl)).1,
   (strict_integer_fields "-17".toList ⟨by decide, by decide⟩ (-17) "t,s,/a,200x,5".toList
      ["t".toList, "s".toList, "/a".toList, "200x".toList, "5".toList] (by rfl)
      (by rfl)).2.2.2.2.2.2.2.2.2.1 (by rfl)⟩

/-! ## C16: the line preview -/

/-- C16, as amended: the preview of a line of at most 160 characters is the
line itself; the preview of a longer line is its first 160 characters
followed by the three characters `...`, 163 characters in all; so a preview
never has more than 163 characters, at most 160 of them taken from the line. -/
theorem preview_length (line : List Char) :
    (line.length ≤ 160 → short_line_preview line = line) ∧
    (160 < line.length →
      short_line_preview line = line.take 160 ++ "...".toList ∧
      (short_line_preview line).length = 163) ∧
    (short_line_preview line).length ≤ 163 := by
  have hlong : 160 < line.length →
      short_line_preview line = line.take 160 ++ "...".toList ∧
      (short_line_preview line).length = 163 := by
    intro h
    have h1 : ¬ (line.length ≤ 160) := by omega
    have h2 : short_line_preview line = line.take 160 ++ "...".toList := by
      unfold short_line_preview
      rw [if_neg h1]
    refine ⟨h2, ?_⟩
    rw [h2, List.length_append, List.length_take]
    have : ("...".toList).length = 3 := by decide
    rw [this]
    omega
  refine ⟨?_, hlong, ?_⟩
  · intro h
    unfold short_line_preview
    rw [if_pos h]
  · by_cases h : line.length ≤ 160
    · unfold short_line_preview
      rw [if_pos h]
      omega
    · have := (hlong (by omega)).2
      omega

/-- C16, witness: a line of 5 characters and a line of 200 characters. -/
theorem preview_length_witness :
    short_line_preview "a,b,c".toList = "a,b,c".toList ∧
    (short_line_preview (List.replicate 200 (Char.ofNat 97))).length = 163 :=
  ⟨(preview_length "a,b,c".toList).1 (by decide),
   ((preview_length (List.replicate 200 (Char.ofNat 97))).2.1
      (by rw [List.length_replicate]; decide)).2⟩

/-- C16, counterexample to the claim as stated: the preview of a line of 161
characters has 163 characters, more than 160. -/
theorem preview_length_counterexample :
    (List.replicate 161 (Char.ofNat 97)).length = 161 ∧
    (short_line_preview (List.replicate 161 (Char.ofNat 97))).length = 163 ∧
    ¬ ((short_line_preview (List.replicate 161 (Char.ofNat 97))).length ≤ 160) := by
  have h : (short_line_preview (List.replicate 161 (Char.ofNat 97))).length = 163 := by
    unfold short_line_preview
    simp
  refine ⟨by simp, h, ?_⟩
  rw [h]
  decide

/-! ## C20: unterminated quotes -/

theorem insideQuotes_iff_odd (l : List Char) (inq : Bool) :
    insideQuotes inq l = (inq != decide (l.count dquote % 2 = 1)) := by
  induction l generalizing inq with
  | nil => simp [insideQuotes]
  | cons c cs ih =>
    by_cases hc : c = dquote
    · subst hc
      simp only [insideQuotes, if_true, ih, List.count_cons_self]
      have hpar : (cs.count dquote + 1) % 2 = 1 ↔ ¬ (cs.count dquote % 2 = 1) := by omega
      by_cases hp : cs.count dquote % 2 = 1
      · have hp2 : ¬ ((cs.count dquote + 1) % 2 = 1) := fun h => (hpar.mp h) hp
        cases inq <;> simp [hp, hp2]
      · have hp2 : (cs.count dquote + 1) % 2 = 1 := hpar.mpr hp
        cases inq <;> simp [hp, hp2]
    · have hc2 : (c == dquote) = false := by simpa using hc
      simp only [insideQuotes, if_neg hc, ih, List.count_cons, hc2]
      simp

theorem splitLoop_result (l : List Char) (in_quotes : Bool) (field : List Char)
    (out : List (List Char)) :
    (insideQuotes in_quotes l = true →
      splitLoop l in_quotes field out = .error "Unterminated quoted field.") ∧
    (insideQuotes in_quotes l = false →
      ∃ res, splitLoop l in_quotes field out = .ok res ∧
        res.length = out.length + outsideCommas in_quotes l + 1) := by
  induction l, in_quotes, field, out using splitLoop.induct with
  | case1 field out => simp [splitLoop, insideQuotes]
  | case2 in_quotes field out hq =>
    have : in_quotes = false := by simpa using hq
    subst this
    simp [splitLoop, insideQuotes, outsideCommas]
  | case3 field out ih =>
    rw [splitLoop_quoted_close [] field out (by simp)]
    simpa [insideQuotes, outsideCommas] using ih
  | case4 c field out hc ih =>
    rw [splitLoop_quoted_other c hc]
    simpa [insideQuotes, outsideCommas, hc] using ih
  | case5 rest field out ih =>
    rw [splitLoop_quoted_escaped]
    simpa [insideQuotes, outsideCommas] using ih
  | case6 d rest field out hd ih =>
    rw [splitLoop_quoted_close (d :: rest) field out (by
      intro e he
      simp only [List.head?_cons, Option.some.injEq] at he
      rw [← he]
      exact hd)]
    simpa [insideQuotes, outsideCommas] using ih
  | case7 c d rest field out hc ih =>
    rw [splitLoop_quoted_other c hc]
    simpa [insideQuotes, outsideCommas, hc] using ih
  | case8 rest field out ih =>
    rw [splitLoop_open]
    simpa [insideQuotes, outsideCommas] using ih
  | case9 rest field out hcq ih =>
    rw [splitLoop_comma]
    have e : ∀ n : Nat, out.length + 1 + n + 1 = out.length + (n + 1) + 1 := fun n => by omega
    simpa [insideQuotes, outsideCommas, hcq, e] using ih
  | case10 c rest field out h1 h2 ih =>
    rw [splitLoop_plain c h1 h2]
    simpa [insideQuotes, outsideCommas, h1, h2] using ih

/-- C20: `split_csv_line` fails if and only if the line has an odd number of
double quote characters, which is when the scan ends inside a quoted section,
and the error then is the unterminated-quote text; on a line with an even
number of double quotes it succeeds, and the number of fields is one more
than the number of commas outside quoted sections, so at least one. -/
theorem unterminated_quote_detection (line : List Char) :
    ((∃ e, split_csv_line line = .error e) ↔ line.count dquote % 2 = 1) ∧
    (insideQuotes false line = true ↔ line.count dquote % 2 = 1) ∧
    (line.count dquote % 2 = 1 →
      split_csv_line line = .error "Unterminated quoted field.") ∧
    (line.count dquote % 2 = 0 →
      ∃ fields, split_csv_line line = .ok fields ∧ 1 ≤ fields.length ∧
        fields.length = outsideCommas false line + 1) := by
  have hpar : insideQuotes false line = true ↔ line.count dquote % 2 = 1 := by
    rw [insideQuotes_iff_odd]
    simp
  obtain ⟨herr, hok⟩ := splitLoop_result line false [] []
  have hodd : line.count dquote % 2 = 1 →
      split_csv_line line = .error "Unterminated quoted field." :=
    fun h => herr (hpar.mpr h)
  have heven : line.count dquote % 2 = 0 →
      ∃ fields, split_csv_line line = .ok fields ∧ 1 ≤ fields.length ∧
        fields.length = outsideCommas false line + 1 := by
    intro h
    have hin : insideQuotes false line = false := by
      cases hq : insideQuotes false line with
      | false => rfl
      | true =>
        have := hpar.mp hq
        omega
    obtain ⟨res, hres, hlen⟩ := hok hin
    refine ⟨res, hres, ?_, ?_⟩
    · rw [hlen]
      omega
    · simpa using hlen
  refine ⟨⟨?_, fun h => ⟨_, hodd h⟩⟩, hpar, hodd, heven⟩
  rintro ⟨e, he⟩
  by_contra hne
  have h0 : line.count dquote % 2 = 0 := by omega
  obtain ⟨fields, hf, _⟩ := heven h0
  rw [hf] at he
  simp at he

/-- C20, witness: a line with one double quote fails; a line with two double
quotes around a comma has three fields, one more than its two outer commas. -/
theorem unterminated_quote_detection_witness :
    split_csv_line ("a,".toList ++ [dquote] ++ "b".toList)
      = .error "Unterminated quoted field." ∧
    outsideCommas false ("a,".toList ++ [dquote] ++ "b,c".toList ++ [dquote] ++ ",d".toList) = 2 ∧
    (split_csv_line ("a,".toList ++ [dquote] ++ "b,c".toList ++ [dquote] ++ ",d".toList)).map
      List.length = .ok 3 :=
  ⟨(unterminated_quote_detection ("a,".toList ++ [dquote] ++ "b".toList)).2.2.1 (by decide),
   by decide,
   by
    obtain ⟨fields, h1, _, h3⟩ := (unterminated_quote_detection
      ("a,".toList ++ [dquote] ++ "b,c".toList ++ [dquote] ++ ",d".toList)).2.2.2 (by decide)
    rw [h1]
    show Except.ok fields.length = Except.ok 3
    rw [h3]
    rfl⟩

/-! ## C19: percentile and the rank statistic -/

theorem fl_natCast (n : Nat) (hn : n < 2 ^ 53) : fl (n : ℚ) = n := by
  rcases Nat.eq_zero_or_pos n with h0 | hpos
  · subst h0
    simpa using fl_zero
  · have hne : n ≠ 0 := by omega
    have hlog : Nat.log 2 n < 53 := Nat.log_lt_of_lt_pow hne hn
    have h1 : (2 : ℚ) ^ ((Nat.log 2 n : ℕ) : ℤ) ≤ (n : ℚ) := by
      rw [zpow_natCast]
      exact_mod_cast Nat.pow_log_le_self 2 hne
    have h2 : (n : ℚ) < 2 ^ (((Nat.log 2 n : ℕ) : ℤ) + 1) := by
      have : n < 2 ^ (Nat.log 2 n + 1) := Nat.lt_pow_succ_log_self (by norm_num) n
      have h3 : (((Nat.log 2 n : ℕ) : ℤ) + 1) = ((Nat.log 2 n + 1 : ℕ) : ℤ) := by push_cast; ring
      rw [h3, zpow_natCast]
      exact_mod_cast this
    obtain ⟨k, hk⟩ : ∃ k : ℕ, ((Nat.log 2 n : ℕ) : ℤ) - 52 = -(k : ℤ) :=
      ⟨52 - Nat.log 2 n, by omega⟩
    have hu : (2 : ℚ) ^ (((Nat.log 2 n : ℕ) : ℤ) - 52) = ((2 : ℚ) ^ k)⁻¹ := by
      rw [hk, zpow_neg, zpow_natCast]
    have hpos2 : (0 : ℚ) < (2 : ℚ) ^ k := by positivity
    have hq : (n : ℚ) / (2 : ℚ) ^ (((Nat.log 2 n : ℕ) : ℤ) - 52) = (((n * 2 ^ k : ℕ) : ℤ) : ℚ) := by
      rw [hu]
      push_cast
      field_simp
    rw [fl_eq (x := (n : ℚ)) ((Nat.log 2 n : ℕ) : ℤ) ((n * 2 ^ k : ℕ) : ℤ) (by omega) h1 h2
      (by rw [hq, roundHalfEven_intCast])]
    rw [hu]
    push_cast
    field_simp

theorem targetRank_le (p : ℚ) (hp0 : 0 < p) (hp1 : p < 100) (n : Nat) (hn0 : 0 < n)
    (hn : n < 2 ^ 53) : targetRank p (n : Int) ≤ n := by
  unfold targetRank
  have hfn : fl (((n : Int) : ℚ)) = n := by
    have : (((n : Int) : ℚ)) = (n : ℚ) := by push_cast; rfl
    rw [this, fl_natCast n hn]
  rw [hfn]
  have h1 : fl (p / 100) ≤ 1 := by
    have := fl_mono (x := p / 100) (y := 1) (by positivity) (by
      rw [div_le_one (by norm_num)]
      exact le_of_lt hp1)
    have hone : fl 1 = 1 := by
      have := fl_natCast 1 (by norm_num)
      simpa using this
    rwa [hone] at this
  have h0 : 0 ≤ fl (p / 100) := fl_nonneg (by positivity)
  have hn2 : (0 : ℚ) ≤ (n : ℚ) := by positivity
  have h2 : fl (p / 100) * (n : ℚ) ≤ (n : ℚ) := by
    calc fl (p / 100) * (n : ℚ) ≤ 1 * (n : ℚ) := mul_le_mul_of_nonneg_right h1 hn2
      _ = n := one_mul _
  have h3 : fl (fl (p / 100) * (n : ℚ)) ≤ (n : ℚ) := by
    have := fl_mono (mul_nonneg h0 hn2) h2
    rwa [fl_natCast n hn] at this
  have h4 : ⌈fl (fl (p / 100) * (n : ℚ))⌉ ≤ (n : Int) := by
    rw [Int.ceil_le]
    exact_mod_cast h3
  have h5 : (1 : Int) ≤ n := by exact_mod_cast hn0
  exact max_le h5 h4

theorem sorted_getD_le_iff (S : List Int) (hS : S.Sorted (· ≤ ·)) (j : Nat) (hj : j < S.length)
    (v : Int) : S.getD j 0 ≤ v ↔ j < S.countP (fun x => decide (x ≤ v)) := by
  induction S generalizing j with
  | nil => simp at hj
  | cons x S ih =>
    have hS2 : S.Sorted (· ≤ ·) := hS.of_cons
    have hx : ∀ y ∈ S, x ≤ y := fun y hy => List.rel_of_sorted_cons hS y hy
    by_cases hxv : x ≤ v
    · have hc : (x :: S).countP (fun x => decide (x ≤ v))
          = S.countP (fun x => decide (x ≤ v)) + 1 := by
        simp [List.countP_cons, hxv]
      rw [hc]
      cases j with
      | zero => simp [hxv]
      | succ j =>
        have hj2 : j < S.length := by simpa using hj
        simp only [List.getD_cons_succ]
        rw [ih hS2 j hj2]
        omega
    · have hzero : S.countP (fun x => decide (x ≤ v)) = 0 := by
        rw [List.countP_eq_zero]
        intro y hy
        have := hx y hy
        simp only [decide_eq_true_eq, not_le]
        omega
      have hc : (x :: S).countP (fun x => decide (x ≤ v)) = 0 := by
        simp [List.countP_cons, hxv, hzero]
      rw [hc]
      cases j with
      | zero => simp [hxv]
      | succ j =>
        have hj2 : j < S.length := by simpa using hj
        simp only [List.getD_cons_succ]
        have hmem : S.getD j 0 ∈ S := by
          rw [List.getD_eq_getElem _ _ hj2]
          exact List.getElem_mem _
        have := hx _ hmem
        constructor
        · intro h
          omega
        · intro h
          omega

theorem kthSmallest_le_iff (xs : List Int) (k : Int) (hk1 : 1 ≤ k) (hk2 : k ≤ xs.length)
    (v : Int) : kthSmallest xs k ≤ v ↔ k ≤ xs.countP (fun x => decide (x ≤ v)) := by
  unfold kthSmallest
  have hperm : (xs.insertionSort (· ≤ ·)).Perm xs := List.perm_insertionSort _ xs
  have hlen : (xs.insertionSort (· ≤ ·)).length = xs.length := hperm.length_eq
  rw [sorted_getD_le_iff _ (List.sorted_insertionSort _ xs) _ (by rw [hlen]; omega) v,
    hperm.countP_eq]
  omega

theorem kthSmallest_eq (xs : List Int) (k : Int) (hk1 : 1 ≤ k) (hk2 : k ≤ xs.length) (v : Int)
    (h1 : k ≤ xs.countP (fun x => decide (x ≤ v)))
    (h2 : (xs.countP (fun x => decide (x ≤ v - 1)) : Int) < k) : kthSmallest xs k = v := by
  have a := (kthSmallest_le_iff xs k hk1 hk2 v).mpr h1
  have b : ¬ (kthSmallest xs k ≤ v - 1) := by
    rw [kthSmallest_le_iff xs k hk1 hk2 (v - 1)]
    omega
  omega

theorem sum_take_succ_getD (bs : List Int) (n : Nat) :
    (bs.take (n + 1)).sum = (bs.take n).sum + bs.getD n 0 := by
  induction bs generalizing n with
  | nil => simp
  | cons b bs ih =>
    cases n with
    | zero => simp
    | succ n =>
      simp only [List.take_succ_cons, List.sum_cons, List.getD_cons_succ]
      rw [ih n]
      ring

theorem addAll_getD (h : LatencyHistogram) (hwf : h.WF) (ls : List Int) (j : Nat) :
    (h.addAll ls).buckets.getD j 0
      = h.buckets.getD j 0 + ls.countP (fun l => decide (h.index l = j)) := by
  induction ls generalizing h with
  | nil => simp [LatencyHistogram.addAll]
  | cons a ls ih =>
    have h1 : h.addAll (a :: ls) = (h.add a).addAll ls := rfl
    rw [h1, ih (h.add a) (add_WF h hwf a)]
    have h2 : (h.add a).buckets.getD j 0 = h.buckets.getD j 0 + (if j = h.index a then 1 else 0) :=
      getD_bump _ _ j (index_lt h hwf a)
    have h3 : (fun l => decide ((h.add a).index l = j)) = (fun l => decide (h.index l = j)) := by
      funext l
      rw [index_add]
    rw [h2, h3, List.countP_cons]
    by_cases hj : h.index a = j
    · have hd : decide (h.index a = j) = true := decide_eq_true hj
      rw [if_pos hj.symm]
      simp only [hd, if_true]
      push_cast
      ring
    · have hd : decide (h.index a = j) = false := decide_eq_false hj
      rw [if_neg (fun e => hj e.symm)]
      simp only [hd]
      simp

theorem countP_le_succ (ls : List Int) (f : Int → Nat) (i : Nat) :
    ls.countP (fun l => decide (f l ≤ i + 1))
      = ls.countP (fun l => decide (f l ≤ i)) + ls.countP (fun l => decide (f l = i + 1)) := by
  induction ls with
  | nil => rfl
  | cons a ls ih =>
    simp only [List.countP_cons, ih]
    by_cases h1 : f a ≤ i
    · have h2 : f a ≤ i + 1 := by omega
      have h3 : ¬ (f a = i + 1) := by omega
      simp [h1, h2, h3]
      omega
    · by_cases h3 : f a = i + 1
      · have h2 : f a ≤ i + 1 := by omega
        simp [h1, h2, h3]
        omega
      · have h2 : ¬ (f a ≤ i + 1) := by omega
        simp [h1, h2, h3]

theorem cumulative_addAll (m : Int) (hm0 : 0 ≤ m) (hm1 : m < 2 ^ 31) (ls : List Int) (i : Nat) :
    cumulative ((LatencyHistogram.new m).addAll ls).buckets i
      = ls.countP (fun l => decide ((LatencyHistogram.new m).index l ≤ i)) := by
  have hwf := new_WF m hm0 hm1
  have hz : ∀ j, (LatencyHistogram.new m).buckets.getD j 0 = 0 := by
    intro j
    rw [new_buckets m hm0 hm1]
    by_cases hj : j < (List.replicate (m.toNat + 2) (0 : Int)).length
    · rw [List.getD_eq_getElem _ _ hj]
      simp
    · rw [List.getD_eq_default _ _ (by omega)]
  unfold cumulative
  induction i with
  | zero =>
    rw [sum_take_succ_getD, addAll_getD _ hwf, hz]
    simp
  | succ i ih =>
    rw [sum_take_succ_getD, ih, addAll_getD _ hwf, hz,
      countP_le_succ ls (fun l => (LatencyHistogram.new m).index l) i]
    push_cast
    ring

theorem clampLatency_bounds (m : Int) (hm0 : 0 ≤ m) (l : Int) :
    0 ≤ clampLatency m l ∧ clampLatency m l ≤ m := by
  unfold clampLatency
  refine ⟨le_max_left _ _, max_le hm0 (min_le_right _ _)⟩

theorem new_index_le_iff (m : Int) (hm0 : 0 ≤ m) (hm1 : m < 2 ^ 31) (l : Int) (i : Nat)
    (hi : (i : Int) < m) :
    (LatencyHistogram.new m).index l ≤ i ↔ clampLatency m l ≤ (i : Int) := by
  have hlen : (LatencyHistogram.new m).buckets.length = m.toNat + 2 := by
    rw [new_buckets m hm0 hm1, List.length_replicate]
  have hmax : (LatencyHistogram.new m).max_ms = m := rfl
  unfold LatencyHistogram.index clampLatency
  rw [hlen, hmax]
  simp only
  rw [max_def, min_def]
  split_ifs <;> omega

theorem cumulative_eq_count (m : Int) (hm0 : 0 ≤ m) (hm1 : m < 2 ^ 31) (ls : List Int) (i : Nat)
    (hi : (i : Int) < m) :
    cumulative ((LatencyHistogram.new m).addAll ls).buckets i
      = (ls.map (clampLatency m)).countP (fun x => decide (x ≤ (i : Int))) := by
  rw [cumulative_addAll m hm0 hm1, List.countP_map]
  congr 1
  apply List.countP_congr
  intro l _
  simp only [Function.comp, decide_eq_true_eq]
  exact new_index_le_iff m hm0 hm1 l i hi

theorem count_clamped_all (m : Int) (hm0 : 0 ≤ m) (ls : List Int) :
    (ls.map (clampLatency m)).countP (fun x => decide (x ≤ m)) = ls.length := by
  rw [List.countP_eq_length.mpr, List.length_map]
  intro x hx
  obtain ⟨l, _, hl⟩ := List.mem_map.mp hx
  rw [← hl]
  simpa using (clampLatency_bounds m hm0 l).2

theorem count_clamped_neg (m : Int) (hm0 : 0 ≤ m) (ls : List Int) (v : Int) (hv : v < 0) :
    (ls.map (clampLatency m)).countP (fun x => decide (x ≤ v)) = 0 := by
  rw [List.countP_eq_zero]
  intro x hx
  obtain ⟨l, _, hl⟩ := List.mem_map.mp hx
  rw [← hl]
  have := (clampLatency_bounds m hm0 l).1
  simp only [decide_eq_true_eq, not_le]
  omega

theorem count_clamped_pred (m : Int) (hm0 : 0 ≤ m) (hm1 : m < 2 ^ 31) (ls : List Int) (i : Nat)
    (hi : (i : Int) ≤ m) (k : Int) (hk : 1 ≤ k)
    (hcum : ∀ j : Nat, j < i → cumulative ((LatencyHistogram.new m).addAll ls).buckets j < k) :
    ((ls.map (clampLatency m)).countP (fun x => decide (x ≤ (i : Int) - 1)) : Int) < k := by
  cases i with
  | zero =>
    rw [count_clamped_neg m hm0 ls _ (by simp)]
    simpa using hk
  | succ i =>
    have e : ((i + 1 : Nat) : Int) - 1 = (i : Int) := by push_cast; ring
    rw [e, ← cumulative_eq_count m hm0 hm1 ls i (by push_cast at hi; omega)]
    exact hcum i (by omega)

theorem walk_eq_kthSmallest (m : Int) (hm0 : 0 ≤ m) (hm1 : m < 2 ^ 31) (ls : List Int)
    (k : Int) (hk1 : 1 ≤ k) (hk2 : k ≤ ls.length) :
    ((LatencyHistogram.new m).addAll ls).walk k
      = kthSmallest (ls.map (clampLatency m)) k := by
  have hwf := addAll_WF _ (new_WF m hm0 hm1) ls
  have hmax : ((LatencyHistogram.new m).addAll ls).max_ms = m := addAll_max_ms _ ls
  have hk3 : k ≤ ((ls.map (clampLatency m)).length : Int) := by
    rw [List.length_map]
    exact hk2
  symm
  rcases walk_isRankPercentile _ hwf k with ⟨i, hi, hge, hlt, hv⟩ | ⟨hall, hv⟩
  · rw [hmax] at hi
    rw [hv]
    apply kthSmallest_eq _ k hk1 hk3
    · rcases lt_or_eq_of_le hi with h1 | h1
      · rw [← cumulative_eq_count m hm0 hm1 ls i h1]
        exact hge
      · rw [h1, count_clamped_all m hm0 ls]
        exact hk2
    · exact count_clamped_pred m hm0 hm1 ls i hi k hk1 hlt
  · rw [hmax] at hall
    rw [hv, hmax]
    have hM : ((m.toNat : Nat) : Int) = m := by omega
    apply kthSmallest_eq _ k hk1 hk3
    · rw [count_clamped_all m hm0 ls]
      exact hk2
    · have h := count_clamped_pred m hm0 hm1 ls m.toNat (by omega) k hk1
        (fun j hj => hall j (by omega))
      rw [hM] at h
      exact h

/-- C19, as amended: for every non-empty list `ls` of fewer than `2^53`
latencies added to a fresh histogram of ceiling `m >= 0` and every `p` in
`(0, 100)`, the rank `k` that the code computes (`max(1, ceil(p/100 * n))`
evaluated in binary64 arithmetic, `n` the number of samples) satisfies
`1 <= k <= n`, and `percentile(p)` is the `k`-th smallest element of the list
of the samples clamped to `[0, m]`; when all samples lie in `[0, m]` it is the
`k`-th smallest sample; the result lies in `[0, m]`. -/
theorem percentile_rank_statistic (m : Int) (hm0 : 0 ≤ m) (hm1 : m < 2 ^ 31) (ls : List Int)
    (hne : ls ≠ []) (hlen : ls.length < 2 ^ 53) (p : ℚ) (hp0 : 0 < p) (hp1 : p < 100) :
    1 ≤ targetRank p ls.length ∧ targetRank p ls.length ≤ ls.length ∧
    ((LatencyHistogram.new m).addAll ls).percentile (.fin p)
      = kthSmallest (ls.map (clampLatency m)) (targetRank p ls.length) ∧
    ((∀ l ∈ ls, 0 ≤ l ∧ l ≤ m) →
      ((LatencyHistogram.new m).addAll ls).percentile (.fin p)
        = kthSmallest ls (targetRank p ls.length)) ∧
    0 ≤ ((LatencyHistogram.new m).addAll ls).percentile (.fin p) ∧
    ((LatencyHistogram.new m).addAll ls).percentile (.fin p) ≤ m := by
  have hpos : 0 < ls.length := List.length_pos.mpr hne
  have hk1 := one_le_targetRank p ls.length
  have hk2 := targetRank_le p hp0 hp1 ls.length hpos hlen
  have htot : ((LatencyHistogram.new m).addAll ls).total = ls.length := by
    rw [addAll_total]
    show (0 : Int) + _ = _
    simp
  have hperc : ((LatencyHistogram.new m).addAll ls).percentile (.fin p)
      = kthSmallest (ls.map (clampLatency m)) (targetRank p ls.length) := by
    rw [percentile_fin _ (by rw [htot]; exact_mod_cast (Nat.pos_iff_ne_zero.mp hpos)) p hp0 hp1,
      htot]
    exact walk_eq_kthSmallest m hm0 hm1 ls _ hk1 hk2
  have hb := percentile_bounds _ (addAll_WF _ (new_WF m hm0 hm1) ls) (.fin p)
  rw [addAll_max_ms] at hb
  refine ⟨hk1, hk2, hperc, ?_, hb.1, hb.2⟩
  intro hall
  rw [hperc]
  congr 1
  conv_rhs => rw [← List.map_id ls]
  apply List.map_congr_left
  intro l hl
  obtain ⟨h1, h2⟩ := hall l hl
  unfold clampLatency
  simp only [id]
  rw [min_eq_left h2, max_eq_right h1]

/-- C19, witness: three samples under the ceiling 3, one of them above it, and
the median. -/
theorem percentile_rank_statistic_witness :
    ((LatencyHistogram.new 3).addAll [1, 1, 7]).percentile (.fin 50)
      = kthSmallest ([1, 1, 7].map (clampLatency 3)) (targetRank 50 ([1, 1, 7] : List Int).length) :=
  (percentile_rank_statistic 3 (by decide) (by decide) [1, 1, 7] (by simp) (by simp) 50
    (by norm_num) (by norm_num)).2.2.1

/-- C19, counterexample to the claim as stated (rank `max(1, ceil(p/100 * n))`
in exact arithmetic): for seven samples of 0 ms and eighteen of 1 ms under the
ceiling 5000 and `p = 28`, the exact rank is 7 and the 7th smallest sample is
0, but `percentile(28)` is 1. -/
theorem rank_statistic_counterexample :
    specTargetRank 28 ((List.replicate 7 (0 : Int) ++ List.replicate 18 1).length) = 7 ∧
    kthSmallest ((List.replicate 7 (0 : Int) ++ List.replicate 18 1).map (clampLatency 5000)) 7
      = 0 ∧
    ((LatencyHistogram.new 5000).addAll (List.replicate 7 0 ++ List.replicate 18 1)).percentile
      (.fin 28) = 1 ∧
    ((LatencyHistogram.new 5000).addAll (List.replicate 7 0 ++ List.replicate 18 1)).percentile
      (.fin 28)
      ≠ kthSmallest ((List.replicate 7 (0 : Int) ++ List.replicate 18 1).map (clampLatency 5000))
          (specTargetRank 28 ((List.replicate 7 (0 : Int) ++ List.replicate 18 1).length)) := by
  have h1 : specTargetRank 28 ((List.replicate 7 (0 : Int) ++ List.replicate 18 1).length) = 7 :=
    specTargetRank_28_25
  have h2 : kthSmallest
      ((List.replicate 7 (0 : Int) ++ List.replicate 18 1).map (clampLatency 5000)) 7 = 0 := by
    decide
  have h3 : ((LatencyHistogram.new 5000).addAll
      (List.replicate 7 0 ++ List.replicate 18 1)).percentile (.fin 28) = 1 :=
    skewed_percentile_28
  refine ⟨h1, h2, h3, ?_⟩
  rw [h1, h2, h3]
  decide

/-! ## C21: global and per-endpoint statistics agree -/

theorem sum_updateEndpoint (g : EndpointStats → Int) (f : EndpointStats → EndpointStats)
    (d : Int) (hf : ∀ v, g (f v) = g v + d) (hnew : g EndpointStats.new = 0) (key : String)
    (l : List (String × EndpointStats)) :
    ((updateEndpoint key f l).map (fun kv => g kv.2)).sum
      = (l.map (fun kv => g kv.2)).sum + d := by
  induction l with
  | nil => simp [updateEndpoint, hf, hnew]
  | cons x rest ih =>
    obtain ⟨k, v⟩ := x
    by_cases hk : k = key
    · simp only [updateEndpoint, if_pos hk, List.map_cons, List.sum_cons, hf]
      ring
    · simp only [updateEndpoint, if_neg hk, List.map_cons, List.sum_cons, ih]
      ring

theorem status_add_fields (s : StatusBuckets) (status : Int) :
    (s.add status).s2xx = s.s2xx + (StatusBuckets.empty.add status).s2xx ∧
    (s.add status).s3xx = s.s3xx + (StatusBuckets.empty.add status).s3xx ∧
    (s.add status).s4xx = s.s4xx + (StatusBuckets.empty.add status).s4xx ∧
    (s.add status).s5xx = s.s5xx + (StatusBuckets.empty.add status).s5xx ∧
    (s.add status).other = s.other + (StatusBuckets.empty.add status).other := by
  unfold StatusBuckets.add StatusBuckets.empty
  split_ifs <;> simp

/-- One `add` keeps each global figure equal to the sum of that figure over
the entries of the endpoint map. -/
theorem consistent_add (a : Aggregator) (r : Record)
    (h : a.total = (a.by_endpoint.map (fun kv => kv.2.count)).sum ∧
      a.status_total.s2xx = (a.by_endpoint.map (fun kv => kv.2.status.s2xx)).sum ∧
      a.status_total.s3xx = (a.by_endpoint.map (fun kv => kv.2.status.s3xx)).sum ∧
      a.status_total.s4xx = (a.by_endpoint.map (fun kv => kv.2.status.s4xx)).sum ∧
      a.status_total.s5xx = (a.by_endpoint.map (fun kv => kv.2.status.s5xx)).sum ∧
      a.status_total.other = (a.by_endpoint.map (fun kv => kv.2.status.other)).sum ∧
      a.latency_total.total = (a.by_endpoint.map (fun kv => kv.2.latency.total)).sum) :
    (a.add r).total = ((a.add r).by_endpoint.map (fun kv => kv.2.count)).sum ∧
    (a.add r).status_total.s2xx = ((a.add r).by_endpoint.map (fun kv => kv.2.status.s2xx)).sum ∧
    (a.add r).status_total.s3xx = ((a.add r).by_endpoint.map (fun kv => kv.2.status.s3xx)).sum ∧
    (a.add r).status_total.s4xx = ((a.add r).by_endpoint.map (fun kv => kv.2.status.s4xx)).sum ∧
    (a.add r).status_total.s5xx = ((a.add r).by_endpoint.map (fun kv => kv.2.status.s5xx)).sum ∧
    (a.add r).status_total.other
      = ((a.add r).by_endpoint.map (fun kv => kv.2.status.other)).sum ∧
    (a.add r).latency_total.total
      = ((a.add r).by_endpoint.map (fun kv => kv.2.latency.total)).sum := by
  obtain ⟨h0, h1, h2, h3, h4, h5, h6⟩ := h
  have hs := status_add_fields a.status_total r.status
  refine ⟨?_, ?_, ?_, ?_, ?_, ?_, ?_⟩
  · show a.total + 1 = _
    rw [show (a.add r).by_endpoint = updateEndpoint r.endpoint (fun ep => ep.add r) a.by_endpoint
      from rfl]
    rw [sum_updateEndpoint (fun v => v.count) _ 1 (fun v => rfl) rfl, h0]
  · rw [show (a.add r).status_total = a.status_total.add r.status from rfl, hs.1,
      show (a.add r).by_endpoint = updateEndpoint r.endpoint (fun ep => ep.add r) a.by_endpoint
      from rfl,
      sum_updateEndpoint (fun v => v.status.s2xx) _ (StatusBuckets.empty.add r.status).s2xx
        (fun v => (status_add_fields v.status r.status).1) rfl, h1]
  · rw [show (a.add r).status_total = a.status_total.add r.status from rfl, hs.2.1,
      show (a.add r).by_endpoint = updateEndpoint r.endpoint (fun ep => ep.add r) a.by_endpoint
      from rfl,
      sum_updateEndpoint (fun v => v.status.s3xx) _ (StatusBuckets.empty.add r.status).s3xx
        (fun v => (status_add_fields v.status r.status).2.1) rfl, h2]
  · rw [show (a.add r).status_total = a.status_total.add r.status from rfl, hs.2.2.1,
      show (a.add r).by_endpoint = updateEndpoint r.endpoint (fun ep => ep.add r) a.by_endpoint
      from rfl,
      sum_updateEndpoint (fun v => v.status.s4xx) _ (StatusBuckets.empty.add r.status).s4xx
        (fun v => (status_add_fields v.status r.status).2.2.1) rfl, h3]
  · rw [show (a.add r).status_total = a.status_total.add r.status from rfl, hs.2.2.2.1,
      show (a.add r).by_endpoint = updateEndpoint r.endpoint (fun ep => ep.add r) a.by_endpoint
      from rfl,
      sum_updateEndpoint (fun v => v.status.s5xx) _ (StatusBuckets.empty.add r.status).s5xx
        (fun v => (status_add_fields v.status r.status).2.2.2.1) rfl, h4]
  · rw [show (a.add r).status_total = a.status_total.add r.status from rfl, hs.2.2.2.2,
      show (a.add r).by_endpoint = updateEndpoint r.endpoint (fun ep => ep.add r) a.by_endpoint
      from rfl,
      sum_updateEndpoint (fun v => v.status.other) _ (StatusBuckets.empty.add r.status).other
        (fun v => (status_add_fields v.status r.status).2.2.2.2) rfl, h5]
  · show a.latency_total.total + 1 = _
    rw [show (a.add r).by_endpoint = updateEndpoint r.endpoint (fun ep => ep.add r) a.by_endpoint
      from rfl]
    rw [sum_updateEndpoint (fun v => v.latency.total) _ 1 (fun v => rfl) rfl, h6]

theorem consistent_addAll (rs : List Record) (a : Aggregator)
    (h : a.total = (a.by_endpoint.map (fun kv => kv.2.count)).sum ∧
      a.status_total.s2xx = (a.by_endpoint.map (fun kv => kv.2.status.s2xx)).sum ∧
      a.status_total.s3xx = (a.by_endpoint.map (fun kv => kv.2.status.s3xx)).sum ∧
      a.status_total.s4xx = (a.by_endpoint.map (fun kv => kv.2.status.s4xx)).sum ∧
      a.status_total.s5xx = (a.by_endpoint.map (fun kv => kv.2.status.s5xx)).sum ∧
      a.status_total.other = (a.by_endpoint.map (fun kv => kv.2.status.other)).sum ∧
      a.latency_total.total = (a.by_endpoint.map (fun kv => kv.2.latency.total)).sum) :
    (a.addAll rs).total = ((a.addAll rs).by_endpoint.map (fun kv => kv.2.count)).sum ∧
    (a.addAll rs).status_total.s2xx
      = ((a.addAll rs).by_endpoint.map (fun kv => kv.2.status.s2xx)).sum ∧
    (a.addAll rs).status_total.s3xx
      = ((a.addAll rs).by_endpoint.map (fun kv => kv.2.status.s3xx)).sum ∧
    (a.addAll rs).status_total.s4xx
      = ((a.addAll rs).by_endpoint.map (fun kv => kv.2.status.s4xx)).sum ∧
    (a.addAll rs).status_total.s5xx
      = ((a.addAll rs).by_endpoint.map (fun kv => kv.2.status.s5xx)).sum ∧
    (a.addAll rs).status_total.other
      = ((a.addAll rs).by_endpoint.map (fun kv => kv.2.status.other)).sum ∧
    (a.addAll rs).latency_total.total
      = ((a.addAll rs).by_endpoint.map (fun kv => kv.2.latency.total)).sum := by
  induction rs generalizing a with
  | nil => exact h
  | cons r rs ih => exact ih (a.add r) (consistent_add a r h)

theorem mem_updateEndpoint_of_ne (key : String) (f : EndpointStats → EndpointStats)
    (l : List (String × EndpointStats)) (k : String) (v : EndpointStats) (hk : k ≠ key)
    (hkv : (k, v) ∈ l) : (k, v) ∈ updateEndpoint key f l := by
  induction l with
  | nil => simp at hkv
  | cons x rest ih =>
    obtain ⟨k2, v2⟩ := x
    by_cases h2 : k2 = key
    · simp only [updateEndpoint, if_pos h2]
      rcases List.mem_cons.mp hkv with h | h
      · exfalso
        apply hk
        rw [(Prod.mk.inj h).1, h2]
      · exact List.mem_cons_of_mem _ h
    · simp only [updateEndpoint, if_neg h2]
      rcases List.mem_cons.mp hkv with h | h
      · rw [h]
        exact List.mem_cons_self _ _
      · exact List.mem_cons_of_mem _ (ih h)

/-- C21: after any sequence of `add` calls on a fresh aggregator,
`total_requests()` is the sum of `count` over the entries of `endpoints()`,
each of the five counters of `total_status()` is the sum of that counter over
the entries, and `total_latency().count()` is the sum of the `count()` of the
entries' histograms; and `add(r)`, on any aggregator, leaves the entry of
every endpoint other than `r.endpoint` as it was (the same lookup result, and
every such entry of the map is still an entry). -/
theorem global_endpoint_consistency (rs : List Record) (a : Aggregator) (r : Record)
    (e : String) (he : e ≠ r.endpoint) :
    (Aggregator.new.addAll rs).total_requests
      = ((Aggregator.new.addAll rs).endpoints.map (fun kv => kv.2.count)).sum ∧
    (Aggregator.new.addAll rs).total_status.s2xx
      = ((Aggregator.new.addAll rs).endpoints.map (fun kv => kv.2.status.s2xx)).sum ∧
    (Aggregator.new.addAll rs).total_status.s3xx
      = ((Aggregator.new.addAll rs).endpoints.map (fun kv => kv.2.status.s3xx)).sum ∧
    (Aggregator.new.addAll rs).total_status.s4xx
      = ((Aggregator.new.addAll rs).endpoints.map (fun kv => kv.2.status.s4xx)).sum ∧
    (Aggregator.new.addAll rs).total_status.s5xx
      = ((Aggregator.new.addAll rs).endpoints.map (fun kv => kv.2.status.s5xx)).sum ∧
    (Aggregator.new.addAll rs).total_status.other
      = ((Aggregator.new.addAll rs).endpoints.map (fun kv => kv.2.status.other)).sum ∧
    (Aggregator.new.addAll rs).total_latency.count
      = ((Aggregator.new.addAll rs).endpoints.map (fun kv => kv.2.latency.count)).sum ∧
    findEndpoint e (a.add r).endpoints = findEndpoint e a.endpoints ∧
    (∀ v, (e, v) ∈ a.endpoints → (e, v) ∈ (a.add r).endpoints) := by
  have h := consistent_addAll rs Aggregator.new
    ⟨rfl, rfl, rfl, rfl, rfl, rfl, rfl⟩
  obtain ⟨h0, h1, h2, h3, h4, h5, h6⟩ := h
  refine ⟨h0, h1, h2, h3, h4, h5, h6, ?_, ?_⟩
  · rw [findEndpoint_add]
    rw [if_neg (fun h => he h.symm)]
  · intro v hv
    exact mem_updateEndpoint_of_ne r.endpoint _ _ e v he hv

/-- C21, witness: the three sample rows, and a record of `/api/items` added
to them, which leaves the entry of `/api/pay` as it was. -/
theorem global_endpoint_consistency_witness :
    (Aggregator.new.addAll sampleRows).total_requests
      = ((Aggregator.new.addAll sampleRows).endpoints.map (fun kv => kv.2.count)).sum ∧
    findEndpoint "/api/pay" ((Aggregator.new.addAll sampleRows).add (row "/api/items" 200 3)).endpoints
      = findEndpoint "/api/pay" (Aggregator.new.addAll sampleRows).endpoints :=
  ⟨(global_endpoint_consistency sampleRows (Aggregator.new.addAll sampleRows)
      (row "/api/items" 200 3) "/api/pay" (by decide)).1,
   (global_endpoint_consistency sampleRows (Aggregator.new.addAll sampleRows)
      (row "/api/items" 200 3) "/api/pay" (by decide)).2.2.2.2.2.2.2.1⟩


end Logstat
